import Mathlib

/-!
# Verification of the JD-news-brief dedup/normalization core

Shallow embedding of the core operations of the repository:

* `src/util/cache.py` — URL canonicalization (`_canonicalize`, `url_key`),
  the seen-item cache (`_load`, `purge_expired` inlined in `filter_new`,
  `mark_seen`);
* `src/summarize/sonar.py` — the deterministic text normalizer
  (`_format_iso_dates`, `_tidy_units`, `_sanitize_one_sentence`,
  `_looks_like_sentence`).

Modelling conventions:

* Strings are modelled as `List Char` internally, with `String` wrappers at
  the API.  Characters are treated at the byte level: CPython's
  `urllib.parse.unquote` assembles percent-escaped bytes and decodes them as
  UTF-8 (with U+FFFD replacement); the embedding instead maps the byte `XX`
  of an escape `%XX` to the character with code `XX`.  On ASCII data — the
  domain of every theorem below — the two agree exactly.
* CPython ≥ 3.10 semantics of `urllib.parse` are embedded
  (`urlsplit` lstrips C0-controls/space and removes tab/CR/LF; `parse_qsl`
  splits fields on `&` only).
* `time.time()`, the store path and the TTL environment knob are passed as
  explicit arguments (`now`, `ttl`, `StoreContent`); the JSON store is
  abstracted as absent / unparseable / parsed, matching the three behaviours
  of `_load`.
* The SHA-256 hexdigest in `url_key` is modelled as the identity on the
  canonical URL: the digest is a stable injective function of the canonical
  form, and every claim depends on keys only through equality of keys.
* Scanners that embed `re.sub` loops take an explicit fuel argument for
  termination; each step consumes at least one character, so fuel equal to
  the input length (as supplied by the wrappers) is always sufficient.
-/

namespace JDNews

/-! ## Python string primitives -/

/-- Python whitespace on the ASCII range: `\t \n \v \f \r`, the separator
controls `\x1c`–`\x1f` and the space.  Used by `str.strip`, `str.split()`
and the regex class `\s`. -/
def isPyWs (c : Char) : Bool :=
  (9 ≤ c.toNat && c.toNat ≤ 13) || (28 ≤ c.toNat && c.toNat ≤ 32)

/-- `str.lstrip()` on chars. -/
def lstripWs (l : List Char) : List Char := l.dropWhile isPyWs

/-- `str.rstrip()` on chars. -/
def rstripWs (l : List Char) : List Char := (l.reverse.dropWhile isPyWs).reverse

/-- `str.strip()` on chars. -/
def pyStripL (l : List Char) : List Char := rstripWs (lstripWs l)

/-- `str.lower()` (ASCII case mapping). -/
def pyLowerL (l : List Char) : List Char := l.map Char.toLower

/-- `str.rstrip(chars)` on char lists: remove every trailing char in `cs`. -/
def pyRstripChars (cs : List Char) (l : List Char) : List Char :=
  (l.reverse.dropWhile (fun c => cs.contains c)).reverse

/-- `str.split(sep)` keeping empty fields, as in Python's one-char split. -/
def splitChar (sep : Char) : List Char → List Char → List (List Char)
  | [], acc => [acc.reverse]
  | c :: rest, acc =>
    if c = sep then acc.reverse :: splitChar sep rest []
    else splitChar sep rest (c :: acc)

/-- Accumulator loop of `str.split()` (split on whitespace runs, dropping
empty fields). -/
def splitWsAux : List Char → List Char → List (List Char)
  | [], acc => if acc.isEmpty then [] else [acc.reverse]
  | c :: rest, acc =>
    if isPyWs c then
      if acc.isEmpty then splitWsAux rest []
      else acc.reverse :: splitWsAux rest []
    else splitWsAux rest (c :: acc)

/-- `str.split()`: split on whitespace runs, no empty fields. -/
def pySplitWs (l : List Char) : List (List Char) := splitWsAux l []

/-- `" ".join(words)`. -/
def joinSpace : List (List Char) → List Char
  | [] => []
  | [w] => w
  | w :: ws => w ++ ' ' :: joinSpace ws

/-! ## `urllib.parse` embedding -/

/-- Characters allowed after the first one of a URL scheme
(`scheme_chars` in CPython). -/
def isSchemeChar (c : Char) : Bool :=
  c.isAlphanum || c = '+' || c = '-' || c = '.'

/-- ASCII letter test (`url[0].isascii() and url[0].isalpha()`). -/
def isAsciiAlpha (c : Char) : Bool := c.isAlpha

/-- The WHATWG lstrip applied by `urlsplit`: remove leading C0 controls and
spaces. -/
def lstripControl (l : List Char) : List Char := l.dropWhile (fun c => c.toNat ≤ 32)

/-- `urlsplit` removes every tab, CR and LF (`_UNSAFE_URL_BYTES_TO_REMOVE`). -/
def removeUnsafe (l : List Char) : List Char :=
  l.filter (fun c => !(c = '\t' || c = '\r' || c = '\n'))

/-- Scheme detection of `urlsplit`: find the first `:`; accept when the part
before it is nonempty, starts with an ASCII letter and continues with scheme
chars; the scheme is lower-cased. -/
def parseScheme (l : List Char) : List Char × List Char :=
  match l.dropWhile (fun c => c ≠ ':'), l.takeWhile (fun c => c ≠ ':') with
  | [], _ => ([], l)
  | _ :: rest, c :: cs =>
    if isAsciiAlpha c && cs.all isSchemeChar then (pyLowerL (c :: cs), rest)
    else ([], l)
  | _ :: _, [] => ([], l)

/-- Netloc delimiters of `_splitnetloc`. -/
def isNetlocEnd (c : Char) : Bool := c = '/' || c = '?' || c = '#'

/-- The IPv6 bracket validation of `urlsplit`: `[` and `]` must occur
together or not at all. -/
def bracketsOK (netloc : List Char) : Bool :=
  netloc.contains '[' == netloc.contains ']'

/-- Netloc extraction of `urlsplit`: after a leading `//`, the netloc runs to
the first `/`, `?` or `#`; raises `ValueError` on unbalanced brackets. -/
def parseNetloc (l : List Char) : Except Unit (List Char × List Char) :=
  match l with
  | '/' :: '/' :: rest =>
    let netloc := rest.takeWhile (fun c => !isNetlocEnd c)
    if bracketsOK netloc then .ok (netloc, rest.dropWhile (fun c => !isNetlocEnd c))
    else .error ()
  | _ => .ok ([], l)

/-- `url.split('#', 1)`: `(url-without-fragment, fragment)`. -/
def splitFragment (l : List Char) : List Char × List Char :=
  match l.dropWhile (fun c => c ≠ '#') with
  | [] => (l, [])
  | _ :: rest => (l.takeWhile (fun c => c ≠ '#'), rest)

/-- `url.split('?', 1)`: `(path, query)`. -/
def splitQuery (l : List Char) : List Char × List Char :=
  match l.dropWhile (fun c => c ≠ '?') with
  | [] => (l, [])
  | _ :: rest => (l.takeWhile (fun c => c ≠ '?'), rest)

/-- Result of `urlsplit`. -/
structure SplitResult where
  scheme : List Char
  netloc : List Char
  path : List Char
  query : List Char
  fragment : List Char
deriving DecidableEq

/-- `urllib.parse.urlsplit` (CPython ≥ 3.10, `allow_fragments=True`):
lstrip C0/space, drop tab/CR/LF, parse scheme, netloc (with bracket
validation), fragment, query. -/
def urlsplitE (l : List Char) : Except Unit SplitResult :=
  let u := removeUnsafe (lstripControl l)
  let sr := parseScheme u
  match parseNetloc sr.2 with
  | .error _ => .error ()
  | .ok nr =>
    let fr := splitFragment nr.2
    let qr := splitQuery fr.1
    .ok ⟨sr.1, nr.1, qr.1, qr.2, fr.2⟩

/-- `urllib.parse.urlunsplit`. -/
def urlunsplitL (scheme netloc path query fragment : List Char) : List Char :=
  let url := path
  let url :=
    if netloc ≠ [] ∨ (url ≠ [] ∧ url.take 2 = ['/', '/']) then
      '/' :: '/' :: (netloc ++ (if url ≠ [] ∧ url.head? ≠ some '/' then '/' :: url else url))
    else url
  let url := if scheme ≠ [] then scheme ++ ':' :: url else url
  let url := if query ≠ [] then url ++ '?' :: query else url
  if fragment ≠ [] then url ++ '#' :: fragment else url

/-! ### Query-string codec (`parse_qsl` / `urlencode` with `quote_plus`) -/

/-- Hex digit value. -/
def hexVal? (c : Char) : Option Nat :=
  if '0' ≤ c ∧ c ≤ '9' then some (c.toNat - '0'.toNat)
  else if 'a' ≤ c ∧ c ≤ 'f' then some (c.toNat - 'a'.toNat + 10)
  else if 'A' ≤ c ∧ c ≤ 'F' then some (c.toNat - 'A'.toNat + 10)
  else none

/-- Uppercase hex digit of a value < 16 (`'%%%02X'`). -/
def hexDigitUp (n : Nat) : Char :=
  if n < 10 then Char.ofNat ('0'.toNat + n) else Char.ofNat ('A'.toNat + n - 10)

/-- `urllib.parse.unquote` at the byte level: each `%XX` with two hex digits
becomes the character of code `XX`; a stray `%` is kept verbatim. -/
def unquoteL : List Char → List Char
  | '%' :: h1 :: h2 :: rest =>
    match hexVal? h1, hexVal? h2 with
    | some a, some b => Char.ofNat (16 * a + b) :: unquoteL rest
    | _, _ => '%' :: unquoteL (h1 :: h2 :: rest)
  | c :: rest => c :: unquoteL rest
  | [] => []

/-- The `+`-to-space step applied by `parse_qsl` before unquoting. -/
def plusToSpace (l : List Char) : List Char :=
  l.map (fun c => if c = '+' then ' ' else c)

/-- Characters `quote` never escapes (`_ALWAYS_SAFE`): ASCII alphanumerics
and `_.-~`. -/
def isAlwaysSafe (c : Char) : Bool :=
  c.isAlphanum || c = '_' || c = '.' || c = '-' || c = '~'

/-- `quote_plus` on one character (byte-level percent-escape). -/
def quotePlusChar (c : Char) : List Char :=
  if isAlwaysSafe c then [c]
  else if c = ' ' then ['+']
  else ['%', hexDigitUp (c.toNat % 256 / 16), hexDigitUp (c.toNat % 16)]

/-- `urllib.parse.quote_plus` with `safe=''`. -/
def quotePlus (l : List Char) : List Char := (l.map quotePlusChar).flatten

/-- One field of `parse_qsl` (`keep_blank_values=True`): split at the first
`=`; a field without `=` gets an empty value; name and value are
`+`-decoded then unquoted. -/
def parseQslField (field : List Char) : Option (List Char × List Char) :=
  if field.isEmpty then none
  else
    let nv :=
      match field.dropWhile (fun c => c ≠ '=') with
      | [] => (field, [])
      | _ :: rest => (field.takeWhile (fun c => c ≠ '='), rest)
    some (unquoteL (plusToSpace nv.1), unquoteL (plusToSpace nv.2))

/-- `urllib.parse.parse_qsl(qs, keep_blank_values=True)` (CPython ≥ 3.10:
fields are separated by `&` only; empty fields are skipped). -/
def parse_qsl (qs : List Char) : List (List Char × List Char) :=
  if qs.isEmpty then []
  else (splitChar '&' qs []).filterMap parseQslField

/-- `'&'.join(fields)`. -/
def joinAmp : List (List Char) → List Char
  | [] => []
  | [w] => w
  | w :: ws => w ++ '&' :: joinAmp ws

/-- `urllib.parse.urlencode(q, doseq=True)` on string pairs:
`quote_plus(k)=quote_plus(v)` joined with `&`. -/
def urlencodeL (q : List (List Char × List Char)) : List Char :=
  joinAmp (q.map (fun kv => quotePlus kv.1 ++ '=' :: quotePlus kv.2))

/-! ### `_canonicalize` and `url_key` -/

/-- The tracking-parameter denylist of `_canonicalize`. -/
def dropParams : List (List Char) :=
  [ "utm_source".data, "utm_medium".data, "utm_campaign".data, "utm_term".data,
    "utm_content".data, "ocid".data, "cmpid".data, "sref".data, "srnd".data,
    "ref".data ]

/-- `k.lower() not in drop` applied to a parsed query. -/
def filterTracking (q : List (List Char × List Char)) : List (List Char × List Char) :=
  q.filter (fun kv => !dropParams.contains (pyLowerL kv.1))

/-- `"https" if u.scheme in ("http", "https") else u.scheme`. -/
def forceHttps (scheme : List Char) : List Char :=
  if scheme = "http".data ∨ scheme = "https".data then "https".data else scheme

/-- `u.path.rstrip("/")`. -/
def rstripSlash (l : List Char) : List Char :=
  (l.reverse.dropWhile (fun c => c = '/')).reverse

/-- `_canonicalize` on char lists: strip, urlsplit (fall back to the stripped
string when it raises), force `https`, lower-case the netloc, rstrip `/` from
the path, drop denylisted query keys, re-encode, reassemble without
fragment. -/
def canonicalizeL (url : List Char) : List Char :=
  let s := pyStripL url
  match urlsplitE s with
  | .error _ => s
  | .ok u =>
    urlunsplitL (forceHttps u.scheme) (pyLowerL u.netloc) (rstripSlash u.path)
      (urlencodeL (filterTracking (parse_qsl u.query))) []

/-- `_canonicalize(url)` from `src/util/cache.py`. -/
def _canonicalize (url : String) : String := ⟨canonicalizeL url.data⟩

/-- `url_key(url)` from `src/util/cache.py`.  The SHA-256 hexdigest is
modelled as the identity on the canonical URL (a stable injective stand-in
for the digest); every claim uses keys only up to equality. -/
def url_key (url : String) : String := _canonicalize url

/-! ## Seen-item cache (`src/util/cache.py`) -/

/-- An ingested item (`{title, url, dek, source}`); `filter_new` and
`mark_seen` read only `it["url"]`. -/
structure Item where
  title : String
  url : String
  dek : String
  source : String
deriving DecidableEq

/-- The persisted JSON store, as a Python dict: an insertion-ordered list of
`key ↦ last_seen` bindings with unique keys. -/
abbrev CacheMap := List (String × Int)

/-- The three observable states of the store file read by `_load`. -/
inductive StoreContent where
  | absent
  | unparseable
  | parsed (d : CacheMap)
deriving DecidableEq

/-- `_load()`: missing file → `{}`; corrupt/unparseable JSON → `{}`
(the broad `except` branch); otherwise the parsed mapping. -/
def _load : StoreContent → CacheMap
  | .absent => []
  | .unparseable => []
  | .parsed d => d

/-- `k in cache` / `cache[k]` lookup. -/
def dlookup (d : CacheMap) (k : String) : Option Int :=
  (d.find? (fun p => p.1 == k)).map (·.2)

/-- `cache[k] = v`: update in place when present, append otherwise
(Python dict assignment). -/
def dinsert (d : CacheMap) (k : String) (v : Int) : CacheMap :=
  if (d.find? (fun p => p.1 == k)).isSome then
    d.map (fun p => if p.1 == k then (p.1, v) else p)
  else d ++ [(k, v)]

/-- The purge loop of `filter_new`: collect every key with
`now - ts > TTL_SECONDS` and pop it. -/
def purge_expired (cache : CacheMap) (now ttl : Int) : CacheMap :=
  cache.filter (fun p => decide ¬(now - p.2 > ttl))

/-- The freshness loop of `filter_new`: in input order, keep an item and
record its key iff the key is not in the cache. -/
def filterNewGo (now : Int) : List Item → CacheMap → List Item × CacheMap
  | [], cache => ([], cache)
  | it :: rest, cache =>
    let key := url_key it.url
    if (dlookup cache key).isSome then filterNewGo now rest cache
    else
      let r := filterNewGo now rest (dinsert cache key now)
      (it :: r.1, r.2)

/-- `filter_new(items)`: load, purge expired entries, keep the unseen items
recording their keys, and return `(fresh, cache-as-saved)`.  `now` and `ttl`
stand for `int(time.time())` and `TTL_SECONDS`. -/
def filter_new (store : StoreContent) (now ttl : Int) (items : List Item) :
    List Item × CacheMap :=
  filterNewGo now items (purge_expired (_load store) now ttl)

/-- `mark_seen(items)`: record every item's key at `now` unconditionally
(overwriting) and return the cache as saved. -/
def mark_seen (store : StoreContent) (now : Int) (items : List Item) : CacheMap :=
  items.foldl (fun cache it => dinsert cache (url_key it.url) now) (_load store)

/-- Well-formedness of a Python dict: its keys are pairwise distinct. -/
abbrev KeysNodup (d : CacheMap) : Prop := (d.map Prod.fst).Nodup

/-! ## Text normalizer (`src/summarize/sonar.py`) -/

/-- The regex word class `\w` on the ASCII range. -/
def isWordChar (c : Char) : Bool := c.isAlphanum || c = '_'

/-- Word-boundary test after a word character: the following character (if
any) must not be a word character. -/
def boundaryAfter : List Char → Bool
  | [] => true
  | c :: _ => !isWordChar c

/-- A locale's `%b` table: twelve month abbreviations.  `datetime.strftime`
consults the process `LC_TIME` setting for these. -/
def MonthTable := List (List Char)

/-- The month abbreviations of the default C locale — what `%b` yields when
the embedding program never calls `setlocale` (this repository never
does). -/
def cLocaleMonths : MonthTable :=
  [ "Jan".data, "Feb".data, "Mar".data, "Apr".data, "May".data, "Jun".data,
    "Jul".data, "Aug".data, "Sep".data, "Oct".data, "Nov".data, "Dec".data ]

/-- Leap-year rule of `datetime`. -/
def isLeap (y : Nat) : Bool := y % 4 = 0 && (y % 100 ≠ 0 || y % 400 = 0)

/-- Days in a month, as validated by the `datetime(y, mo, d)` constructor. -/
def daysInMonth (y m : Nat) : Nat :=
  if m = 2 then (if isLeap y then 29 else 28)
  else if m = 4 ∨ m = 6 ∨ m = 9 ∨ m = 11 then 30
  else 31

/-- Whether `datetime(y, mo, d)` succeeds (`MINYEAR = 1`, `MAXYEAR = 9999`). -/
def validDate (y mo d : Nat) : Bool :=
  1 ≤ y && y ≤ 9999 && 1 ≤ mo && mo ≤ 12 && 1 ≤ d && d ≤ daysInMonth y mo

/-- Decimal digit value. -/
def digitVal (c : Char) : Nat := c.toNat - '0'.toNat

/-- Decimal rendering of a natural number (Python `str(int)`), with a fuel
argument for termination; `natToChars` supplies always-sufficient fuel. -/
def natToCharsAux : Nat → Nat → List Char
  | 0, _ => []
  | fuel + 1, n =>
    if n < 10 then [Char.ofNat ('0'.toNat + n)]
    else natToCharsAux fuel (n / 10) ++ [Char.ofNat ('0'.toNat + n % 10)]

/-- Decimal rendering of a natural number. -/
def natToChars (n : Nat) : List Char := natToCharsAux (n + 1) n

/-- The `strftime` format string chosen by `_format_iso_dates`:
`%#d` on Windows (`os.name == "nt"`), `%-d` elsewhere; both directives mean
an unpadded day. -/
def dayFormat (windows : Bool) : List Char :=
  if windows then "%b %#d, %Y".data else "%b %-d, %Y".data

/-- A `strftime` interpreter covering the directives used by
`_format_iso_dates`: `%b` (locale month abbreviation), `%Y` (year, unpadded
decimal as on glibc), `%-d` and `%#d` (unpadded day). -/
def strftimeRun (tbl : MonthTable) (y mo d : Nat) : List Char → List Char
  | '%' :: 'b' :: rest => (tbl.getD (mo - 1) []) ++ strftimeRun tbl y mo d rest
  | '%' :: 'Y' :: rest => natToChars y ++ strftimeRun tbl y mo d rest
  | '%' :: '-' :: 'd' :: rest => natToChars d ++ strftimeRun tbl y mo d rest
  | '%' :: '#' :: 'd' :: rest => natToChars d ++ strftimeRun tbl y mo d rest
  | c :: rest => c :: strftimeRun tbl y mo d rest
  | [] => []

/-- Attempt to match `\b(\d{4})-(\d{1,2})-(\d{1,2})\b` at the head of the
list (the leading boundary is checked by the caller).  Returns the consumed
length and the numeric groups.  The regex is deterministic here: a two-digit
month/day is taken iff it is followed by `-` (resp. a boundary), and the
one-digit alternative only fits when the second character is the `-`
(resp. only when followed by a boundary). -/
def tryIsoDay (y mo consumed : Nat) : List Char → Option (Nat × Nat × Nat × Nat)
  | [d1] => if d1.isDigit then some (consumed + 1, y, mo, digitVal d1) else none
  | d1 :: d2 :: tail =>
    if d1.isDigit then
      if d2.isDigit then
        if boundaryAfter tail then some (consumed + 2, y, mo, 10 * digitVal d1 + digitVal d2)
        else none
      else if !isWordChar d2 then some (consumed + 1, y, mo, digitVal d1)
      else none
    else none
  | [] => none

/-- Month group and day group after `YYYY-`. -/
def tryIsoMonth (y : Nat) : List Char → Option (Nat × Nat × Nat × Nat)
  | m1 :: '-' :: rest =>
    if m1.isDigit then tryIsoDay y (digitVal m1) 7 rest else none
  | m1 :: m2 :: '-' :: rest =>
    if m1.isDigit && m2.isDigit then
      tryIsoDay y (10 * digitVal m1 + digitVal m2) 8 rest
    else none
  | _ => none

/-- Full match attempt of the ISO-date pattern at the head of the list. -/
def tryIso : List Char → Option (Nat × Nat × Nat × Nat)
  | a :: b :: c :: d :: '-' :: rest =>
    if a.isDigit && b.isDigit && c.isDigit && d.isDigit then
      tryIsoMonth
        (1000 * digitVal a + 100 * digitVal b + 10 * digitVal c + digitVal d) rest
    else none
  | _ => none

/-- The `re.sub` scan of `_format_iso_dates`: at every position with a word
boundary, try the date pattern; on a match, emit `strftime('%b %-d, %Y')`
when `datetime(y, mo, d)` succeeds and the matched text verbatim otherwise,
then continue after the match.  `fuel` only bounds the recursion; each step
consumes at least one character. -/
def isoScan (tbl : MonthTable) (windows : Bool) :
    Nat → Bool → List Char → List Char
  | 0, _, l => l
  | _ + 1, _, [] => []
  | fuel + 1, prevW, x :: xs =>
    match (if prevW then none else tryIso (x :: xs)) with
    | some (n, y, mo, d) =>
      (if validDate y mo d then strftimeRun tbl y mo d (dayFormat windows)
       else (x :: xs).take n)
        ++ isoScan tbl windows fuel true ((x :: xs).drop n)
    | none => x :: isoScan tbl windows fuel (isWordChar x) xs

/-- `_format_iso_dates(text)`, parameterized by the ambient month table and
platform flag consulted through `strftime` / `os.name`. -/
def formatIsoDates (tbl : MonthTable) (windows : Bool) (l : List Char) : List Char :=
  isoScan tbl windows l.length false l

/-- Match `\s*percent\b` (case-insensitive `percent`) at the head of the
list, returning the consumed length. -/
def tryPercent (l : List Char) : Option Nat :=
  let ws := l.takeWhile isPyWs
  let rest := l.dropWhile isPyWs
  match rest with
  | p :: e :: r :: c :: e2 :: n :: t :: tail =>
    if pyLowerL [p, e, r, c, e2, n, t] = "percent".data ∧ boundaryAfter tail then
      some (ws.length + 7)
    else none
  | _ => none

/-- `re.sub(r"(?<=\d)\s*percent\b", "%", text, flags=re.I)`: the lookbehind
inspects the previous character of the input. -/
def percentScan : Nat → Option Char → List Char → List Char
  | 0, _, l => l
  | _ + 1, _, [] => []
  | fuel + 1, prev, x :: xs =>
    match (if (prev.map Char.isDigit).getD false then tryPercent (x :: xs) else none) with
    | some n => '%' :: percentScan fuel (some 't') ((x :: xs).drop n)
    | none => x :: percentScan fuel (some x) xs

/-- Match `barrels per day\b` (case-insensitive) at the head of the list. -/
def tryBarrels (l : List Char) : Option Nat :=
  let pat := "barrels per day".data
  if pyLowerL (l.take 15) = pat ∧ boundaryAfter (l.drop 15) then some 15 else none

/-- `re.sub(r"\bbarrels per day\b", "b/d", text, flags=re.I)`. -/
def barrelsScan : Nat → Bool → List Char → List Char
  | 0, _, l => l
  | _ + 1, _, [] => []
  | fuel + 1, prevW, x :: xs =>
    match (if prevW then none else tryBarrels (x :: xs)) with
    | some n => 'b' :: '/' :: 'd' :: barrelsScan fuel true ((x :: xs).drop n)
    | none => x :: barrelsScan fuel (isWordChar x) xs

/-- Match `(\d)\s*MPs\b` at the head of the list (case-sensitive `MPs`). -/
def tryMPs (l : List Char) : Option (Char × Nat) :=
  match l with
  | d :: rest =>
    if d.isDigit then
      let ws := rest.takeWhile isPyWs
      match rest.dropWhile isPyWs with
      | 'M' :: 'P' :: 's' :: tail =>
        if boundaryAfter tail then some (d, 1 + ws.length + 3) else none
      | _ => none
    else none
  | [] => none

/-- `re.sub(r"(\d)\s*MPs\b", r"\1 MPs", text)`. -/
def mpsScan : Nat → List Char → List Char
  | 0, l => l
  | _ + 1, [] => []
  | fuel + 1, x :: xs =>
    match tryMPs (x :: xs) with
    | some (d, n) => d :: ' ' :: 'M' :: 'P' :: 's' :: mpsScan fuel ((x :: xs).drop n)
    | none => x :: mpsScan fuel xs

/-- The punctuation class of `\s+([,.:;!?])`. -/
def isPunctClass (c : Char) : Bool :=
  c = ',' || c = '.' || c = ':' || c = ';' || c = '!' || c = '?'

/-- `re.sub(r"\s+([,.:;!?])", r"\1", text)`: a whitespace run directly
followed by one of the punctuation marks is replaced by the mark alone. -/
def spacePunctScan : Nat → List Char → List Char
  | 0, l => l
  | _ + 1, [] => []
  | fuel + 1, x :: xs =>
    if isPyWs x then
      match (x :: xs).dropWhile isPyWs with
      | p :: tail =>
        if isPunctClass p then p :: spacePunctScan fuel tail
        else x :: spacePunctScan fuel xs
      | [] => x :: spacePunctScan fuel xs
    else x :: spacePunctScan fuel xs

/-- `re.sub(r"\s{2,}", " ", text)`: collapse whitespace runs of length ≥ 2
to a single space. -/
def collapseScan : Nat → List Char → List Char
  | 0, l => l
  | _ + 1, [] => []
  | fuel + 1, x :: xs =>
    if isPyWs x then
      match xs with
      | y :: _ =>
        if isPyWs y then ' ' :: collapseScan fuel ((x :: xs).dropWhile isPyWs)
        else x :: collapseScan fuel xs
      | [] => x :: collapseScan fuel xs
    else x :: collapseScan fuel xs

/-- `_tidy_units(text)`: the four substitutions in source order, each scanner
run with sufficient fuel. -/
def tidyUnits (l : List Char) : List Char :=
  let l := percentScan l.length none l
  let l := barrelsScan l.length false l
  let l := mpsScan l.length l
  let l := spacePunctScan l.length l
  collapseScan l.length l

/-- Python list slicing `words[:m]` for an `int` bound: a negative bound
counts from the end. -/
def pySlice (m : Int) (l : List (List Char)) : List (List Char) :=
  if m < 0 then l.take (l.length - (-m).toNat) else l.take m.toNat

/-- Step 8 of the pipeline: `if s and s[-1] not in ".!?": s += "."`. -/
def finalDot (s : List Char) : List Char :=
  if s ≠ [] ∧ !(s.getLast? = some '.' ∨ s.getLast? = some '!' ∨ s.getLast? = some '?') then
    s ++ ['.']
  else s

/-- `_sanitize_one_sentence(s, max_words)`, parameterized by the ambient
locale table and platform flag used via `strftime`. -/
def sanitizeWith (tbl : MonthTable) (windows : Bool) (s : List Char)
    (maxWords : Int) : List Char :=
  let s := joinSpace (pySplitWs s)
  if s.isEmpty then s
  else
    let s := formatIsoDates tbl windows s
    let s := tidyUnits s
    let words := pySplitWs s
    let s :=
      if (words.length : Int) > maxWords then
        pyRstripChars [',', ';', ':'] (joinSpace (pySlice maxWords words)) ++ ['.']
      else s
    finalDot s

/-- `_sanitize_one_sentence` as deployed: default C locale (the program
never calls `setlocale`), POSIX day directive. -/
def _sanitize_one_sentence (s : String) (maxWords : Int) : String :=
  ⟨sanitizeWith cLocaleMonths false s.data maxWords⟩

/-- `_looks_like_sentence(s)`: reject when the stripped text is shorter than
12 chars, has no space, or starts with `http` case-insensitively. -/
def _looks_like_sentence (s : String) : Bool :=
  let t := pyStripL s.data
  if t.length < 12 then false
  else if !t.contains ' ' then false
  else if (pyLowerL t).take 4 = "http".data then false
  else true

/-! ## Predicates and auxiliary data used by the theorems -/

/-- A word as produced by `str.split()`: nonempty and whitespace-free. -/
def IsToken (w : List Char) : Prop := w ≠ [] ∧ ∀ c ∈ w, isPyWs c = false

/-- No trailing whitespace (vacuously true of the empty string). -/
def NoTrailWs (l : List Char) : Prop :=
  ∀ c, l.getLast? = some c → isPyWs c = false

/-- Word count of a result string, measured exactly as the truncation step
measures it (`len(s.split())`). -/
def wordCount (s : String) : Nat := (pySplitWs s.data).length

/-- The `%b` table of a non-C `LC_TIME` locale (e.g. one abbreviating
September as `Sept`); used to exhibit the locale dependence of
`strftime`. -/
def otherLocaleMonths : MonthTable :=
  [ "Jan".data, "Feb".data, "Mar".data, "Apr".data, "May".data, "Jun".data,
    "Jul".data, "Aug".data, "Sept".data, "Oct".data, "Nov".data, "Dec".data ]

/-- Valid URL strings for the idempotence claim: printable ASCII with no
whitespace (RFC 3986 URLs contain no spaces or controls).  A URL with a raw
space can genuinely break idempotence: purging the query of
`"https://x.com/a ?utm_source=1"` leaves a trailing space that the second
pass strips. -/
def ValidUrl (u : String) : Prop :=
  ∀ c ∈ u.data, 33 ≤ c.toNat ∧ c.toNat ≤ 126

/-- The acceptance test applied by `urlsplit` to the part before the first
`:`: nonempty, ASCII letter first, scheme chars after. -/
def goodSchemeName : List Char → Bool
  | [] => false
  | c :: cs => isAsciiAlpha c && cs.all isSchemeChar

/-! ## Cache lemmas -/

theorem dlookup_nil (k : String) : dlookup [] k = none := rfl

theorem dlookup_cons (p : String × Int) (d : CacheMap) (k : String) :
    dlookup (p :: d) k = if p.1 == k then some p.2 else dlookup d k := by
  by_cases h : p.1 == k <;> simp [dlookup, List.find?_cons, h]

theorem dlookup_filter_none {d : CacheMap} {k : String} (f : String × Int → Bool)
    (h : dlookup d k = none) : dlookup (d.filter f) k = none := by
  induction d with
  | nil => rfl
  | cons p rest ih =>
    rw [dlookup_cons] at h
    by_cases hpk : p.1 == k
    · simp [hpk] at h
    · rw [List.filter_cons]
      by_cases hf : f p
      · simp only [hf, if_true]
        rw [dlookup_cons, if_neg hpk]
        exact ih (by simpa [hpk] using h)
      · simp only [hf, if_false]
        exact ih (by simpa [hpk] using h)

theorem purge_cons (p : String × Int) (d : CacheMap) (now ttl : Int) :
    purge_expired (p :: d) now ttl
      = if now - p.2 > ttl then purge_expired d now ttl
        else p :: purge_expired d now ttl := by
  by_cases h : now - p.2 > ttl <;> simp [purge_expired, List.filter_cons, h] <;> omega

theorem dlookup_purge_kept {d : CacheMap} {k : String} {t now ttl : Int}
    (h : dlookup d k = some t) (hfresh : ¬(now - t > ttl)) :
    dlookup (purge_expired d now ttl) k = some t := by
  induction d with
  | nil => simp [dlookup] at h
  | cons p rest ih =>
    rw [dlookup_cons] at h
    rw [purge_cons]
    by_cases hpk : p.1 == k
    · rw [if_pos hpk] at h
      injection h with h
      rw [if_neg (h ▸ hfresh), dlookup_cons, if_pos hpk, h]
    · rw [if_neg hpk] at h
      by_cases hf : now - p.2 > ttl
      · rw [if_pos hf]
        exact ih h
      · rw [if_neg hf, dlookup_cons, if_neg hpk]
        exact ih h

theorem dlookup_purge_gone {d : CacheMap} {k : String} {t now ttl : Int}
    (hnd : KeysNodup d) (h : dlookup d k = some t) (hexp : now - t > ttl) :
    dlookup (purge_expired d now ttl) k = none := by
  induction d with
  | nil => simp [dlookup] at h
  | cons p rest ih =>
    rw [dlookup_cons] at h
    rw [purge_cons]
    have hnd' : KeysNodup rest := (List.nodup_cons.mp hnd).2
    by_cases hpk : p.1 == k
    · rw [if_pos hpk] at h
      injection h with h
      have hknotin : dlookup rest k = none := by
        rcases hfind : rest.find? (fun q => q.1 == k) with _ | q
        · simp [dlookup, hfind]
        · exfalso
          have hq1 : q.1 = k := by simpa using List.find?_some hfind
          have hqmem := List.mem_of_find?_eq_some hfind
          have hpq : p.1 = k := by simpa using hpk
          exact (List.nodup_cons.mp hnd).1
            (by rw [hpq, ← hq1]; exact List.mem_map_of_mem Prod.fst hqmem)
      rw [if_pos (h ▸ hexp)]
      exact dlookup_filter_none _ hknotin
    · rw [if_neg hpk] at h
      by_cases hf : now - p.2 > ttl
      · rw [if_pos hf]
        exact ih hnd' h
      · rw [if_neg hf, dlookup_cons, if_neg hpk]
        exact ih hnd' h

theorem dlookup_map_update {d : CacheMap} {k k' : String} {v : Int} (hne : ¬(k' == k)) :
    dlookup (d.map (fun p => if p.1 == k' then (p.1, v) else p)) k = dlookup d k := by
  induction d with
  | nil => rfl
  | cons p rest ih =>
    simp only [List.map_cons]
    by_cases hpk' : p.1 == k'
    · have hp1 : ¬(p.1 == k) := by
        intro hc
        exact hne (by
          have h1 : p.1 = k' := by simpa using hpk'
          have h2 : p.1 = k := by simpa using hc
          simp [← h1, h2])
      rw [if_pos hpk', dlookup_cons, dlookup_cons]
      simp only [hp1, if_false]
      exact ih
    · rw [if_neg hpk', dlookup_cons, dlookup_cons]
      by_cases hpk : p.1 == k
      · simp [hpk]
      · simp only [hpk, if_false]
        exact ih

theorem dlookup_append (d₁ d₂ : CacheMap) (k : String) :
    dlookup (d₁ ++ d₂) k = (dlookup d₁ k).or (dlookup d₂ k) := by
  induction d₁ with
  | nil => simp [dlookup]
  | cons p rest ih =>
    rw [List.cons_append, dlookup_cons, dlookup_cons]
    by_cases hpk : p.1 == k
    · simp [hpk]
    · simp only [hpk, if_false]
      exact ih

theorem dinsert_cons_ne {p : String × Int} {k : String} (rest : CacheMap) (v : Int)
    (hpk : ¬(p.1 == k)) : dinsert (p :: rest) k v = p :: dinsert rest k v := by
  have hfind : (p :: rest).find? (fun q => q.1 == k) = rest.find? (fun q => q.1 == k) := by
    rw [List.find?_cons]
    simp [hpk]
  by_cases hfs : (rest.find? (fun q => q.1 == k)).isSome
  · simp only [dinsert, hfind, hfs, if_true, List.map_cons, hpk, if_false]
    simp
  · have hfs' : (rest.find? (fun q => q.1 == k)).isSome = false :=
      Bool.not_eq_true _ ▸ hfs
    simp only [dinsert, hfind, hfs', Bool.false_eq_true, if_false, List.cons_append]

theorem dlookup_dinsert_self (d : CacheMap) (k : String) (v : Int) :
    dlookup (dinsert d k v) k = some v := by
  induction d with
  | nil => simp [dinsert, dlookup, List.find?]
  | cons p rest ih =>
    by_cases hpk : p.1 == k
    · have hfind : ((p :: rest).find? (fun q => q.1 == k)).isSome := by
        rw [List.find?_cons]
        simp [hpk]
      simp only [dinsert, hfind, if_true, List.map_cons, hpk, if_true, dlookup_cons]
    · rw [dinsert_cons_ne rest v hpk, dlookup_cons, if_neg hpk]
      exact ih

theorem dlookup_dinsert_other {k k' : String} (d : CacheMap) (v : Int) (hne : ¬(k' == k)) :
    dlookup (dinsert d k' v) k = dlookup d k := by
  have hne' : ¬((k' : String) == k) = true := hne
  by_cases hfind : ((d.find? (fun q => q.1 == k')).isSome)
  · simp only [dinsert, hfind, if_true]
    exact dlookup_map_update hne
  · have hfind' : (d.find? (fun q => q.1 == k')).isSome = false :=
      Bool.not_eq_true _ ▸ hfind
    simp only [dinsert, hfind', Bool.false_eq_true, if_false]
    rw [dlookup_append]
    rcases hd : dlookup d k with _ | t
    · simp [dlookup, List.find?, hne']
    · simp

/-- The master shape of the freshness loop: the items of the output whose key
is `k` are none when `k` is cached, and exactly the first key-`k` input item
otherwise. -/
theorem filterNewGo_filter_key (now : Int) (k : String) :
    ∀ (items : List Item) (cache : CacheMap),
      (filterNewGo now items cache).1.filter (fun it => url_key it.url == k)
        = if (dlookup cache k).isSome then []
          else (items.filter (fun it => url_key it.url == k)).take 1
  | [], cache => by
    by_cases h : (dlookup cache k).isSome <;> simp [filterNewGo, h]
  | it :: rest, cache => by
    simp only [filterNewGo]
    by_cases hin : (dlookup cache (url_key it.url)).isSome
    · simp only [hin, if_true]
      rw [filterNewGo_filter_key now k rest cache]
      by_cases hk : (dlookup cache k).isSome
      · simp [hk]
      · have hne : ¬(url_key it.url == k) := by
          intro hc
          have : url_key it.url = k := by simpa using hc
          exact hk (this ▸ hin)
        simp [hk, List.filter_cons, hne]
    · rw [if_neg hin]
      by_cases hik : url_key it.url == k
      · have hkeq : url_key it.url = k := by simpa using hik
        have hknot : ¬(dlookup cache k).isSome := hkeq ▸ hin
        rw [if_neg hknot]
        have hrec := filterNewGo_filter_key now k rest (dinsert cache (url_key it.url) now)
        have hsome : (dlookup (dinsert cache (url_key it.url) now) k).isSome := by
          rw [hkeq, dlookup_dinsert_self]
          rfl
        rw [if_pos hsome] at hrec
        simp [List.filter_cons, hik, hrec]
      · have hrec := filterNewGo_filter_key now k rest (dinsert cache (url_key it.url) now)
        have hlook : dlookup (dinsert cache (url_key it.url) now) k = dlookup cache k :=
          dlookup_dinsert_other cache now hik
        rw [hlook] at hrec
        by_cases hk : (dlookup cache k).isSome
        · rw [if_pos hk] at hrec ⊢
          simp [List.filter_cons, hik, hrec]
        · rw [if_neg hk] at hrec ⊢
          simp [List.filter_cons, hik, hrec]

/-- The freshness loop never rewrites an existing binding. -/
theorem filterNewGo_preserve (now : Int) {k : String} {t : Int} :
    ∀ (items : List Item) (cache : CacheMap), dlookup cache k = some t →
      dlookup (filterNewGo now items cache).2 k = some t
  | [], cache, h => h
  | it :: rest, cache, h => by
    simp only [filterNewGo]
    by_cases hin : (dlookup cache (url_key it.url)).isSome
    · simp only [hin, if_true]
      exact filterNewGo_preserve now rest cache h
    · simp only [hin, if_false]
      have hne : ¬(url_key it.url == k) := by
        intro hc
        have : url_key it.url = k := by simpa using hc
        rw [this, h] at hin
        exact hin rfl
      exact filterNewGo_preserve now rest _
        ((dlookup_dinsert_other cache now hne).trans h)

theorem find?_filter_take_one {α : Type} (p : α → Bool) :
    ∀ (l : List α) (x : α), l.find? p = some x → (l.filter p).take 1 = [x]
  | [], x, h => by simp at h
  | a :: rest, x, h => by
    rw [List.find?_cons] at h
    by_cases hp : p a
    · simp only [hp, cond_true] at h
      injection h with h
      subst h
      simp [List.filter_cons, hp]
    · simp only [hp, cond_false] at h
      rw [List.filter_cons, if_neg (by simp [hp])]
      exact find?_filter_take_one p rest x h

theorem filterNewGo_sublist (now : Int) :
    ∀ (items : List Item) (cache : CacheMap),
      (filterNewGo now items cache).1.Sublist items
  | [], _ => by simp [filterNewGo]
  | it :: rest, cache => by
    simp only [filterNewGo]
    by_cases hin : (dlookup cache (url_key it.url)).isSome
    · simp only [hin, if_true]
      exact (filterNewGo_sublist now rest cache).cons it
    · simp only [hin, if_false]
      exact (filterNewGo_sublist now rest _).cons₂ it

theorem mark_seen_records (now : Int) {k : String} :
    ∀ (items : List Item) (cache : CacheMap),
      (∃ it ∈ items, url_key it.url = k) ∨ dlookup cache k = some now →
      dlookup (items.foldl (fun c it => dinsert c (url_key it.url) now) cache) k
        = some now
  | [], cache, h => by
    rcases h with ⟨it, hmem, _⟩ | h
    · simp at hmem
    · simpa using h
  | it :: rest, cache, h => by
    rw [List.foldl_cons]
    apply mark_seen_records now rest
    by_cases hik : url_key it.url = k
    · right
      rw [← hik]
      exact dlookup_dinsert_self cache (url_key it.url) now
    · rcases h with ⟨it', hmem, hk'⟩ | h
      · rcases List.mem_cons.mp hmem with heq | hmem'
        · exact absurd (heq ▸ hk') hik
        · exact Or.inl ⟨it', hmem', hk'⟩
      · right
        rw [dlookup_dinsert_other cache now (by simpa using hik)]
        exact h

/-! ## Claim theorems: cache -/

/-- **C1.** TTL expiry: a key recorded at time `t` still suppresses every
item with that key at any `now` with `t < now ≤ t+TTL` (purging keeps the
entry, so the key blocks the item), and at any `now > t+TTL` the entry is
purged before the freshness check, so the first input item with that key is
included in the output again. -/
theorem ttl_expiry (cache : CacheMap) (now ttl t : Int) (k : String)
    (items : List Item) (hnd : KeysNodup cache) (hk : dlookup cache k = some t) :
    (t < now → now ≤ t + ttl →
      (filter_new (.parsed cache) now ttl items).1.filter
          (fun it => url_key it.url == k) = []) ∧
    (t + ttl < now →
      ((filter_new (.parsed cache) now ttl items).1.filter
          (fun it => url_key it.url == k)
        = (items.filter (fun it => url_key it.url == k)).take 1) ∧
      ∀ it, items.find? (fun i => url_key i.url == k) = some it →
        it ∈ (filter_new (.parsed cache) now ttl items).1) := by
  constructor
  · intro _ hle
    have hkept : dlookup (purge_expired cache now ttl) k = some t :=
      dlookup_purge_kept hk (by omega)
    rw [filter_new, filterNewGo_filter_key]
    simp [_load, hkept]
  · intro hgt
    have hgone : dlookup (purge_expired cache now ttl) k = none :=
      dlookup_purge_gone hnd hk (by omega)
    have hfilter : (filter_new (.parsed cache) now ttl items).1.filter
        (fun it => url_key it.url == k)
        = (items.filter (fun it => url_key it.url == k)).take 1 := by
      rw [filter_new, filterNewGo_filter_key]
      simp [_load, hgone]
    refine ⟨hfilter, fun it hfind => ?_⟩
    have h1 : (items.filter (fun i => url_key i.url == k)).take 1 = [it] :=
      find?_filter_take_one _ items it hfind
    have : it ∈ (filter_new (.parsed cache) now ttl items).1.filter
        (fun i => url_key i.url == k) := by
      rw [hfilter, h1]
      simp
    exact List.mem_of_mem_filter this

/-- Witness for `ttl_expiry`: key seen at 100, TTL 72; at `now = 150` the
item is dropped, at `now = 200` it is fresh again. -/
theorem ttl_expiry_witness :
    ((filter_new (.parsed [("https://x.com/a", 100)]) 150 72
        [⟨"t", "https://x.com/a", "", ""⟩]).1.filter
        (fun it => url_key it.url == "https://x.com/a") = []) ∧
    ((filter_new (.parsed [("https://x.com/a", 100)]) 200 72
        [⟨"t", "https://x.com/a", "", ""⟩]).1.filter
        (fun it => url_key it.url == "https://x.com/a")
      = ([⟨"t", "https://x.com/a", "", ""⟩] : List Item).filter
          (fun it => url_key it.url == "https://x.com/a")) := by
  constructor
  · exact (ttl_expiry [("https://x.com/a", 100)] 150 72 100 "https://x.com/a"
      [⟨"t", "https://x.com/a", "", ""⟩] (by decide) (by decide)).1
      (by decide) (by decide)
  · rw [((ttl_expiry [("https://x.com/a", 100)] 200 72 100 "https://x.com/a"
      [⟨"t", "https://x.com/a", "", ""⟩] (by decide) (by decide)).2
      (by decide)).1]
    decide

/-- **C2.** First-seen-wins and no timestamp refresh: when key `k` is absent
from the purged cache, the output items with key `k` are exactly the first
input item with that key; when `k` is present with timestamp `t`, every item
with key `k` is dropped and the saved cache still binds `k` to `t`. -/
theorem first_seen_wins (cache : CacheMap) (now ttl : Int) (k : String)
    (items : List Item) :
    (dlookup (purge_expired cache now ttl) k = none →
      (filter_new (.parsed cache) now ttl items).1.filter
          (fun it => url_key it.url == k)
        = (items.filter (fun it => url_key it.url == k)).take 1) ∧
    (∀ t, dlookup (purge_expired cache now ttl) k = some t →
      (filter_new (.parsed cache) now ttl items).1.filter
          (fun it => url_key it.url == k) = [] ∧
      dlookup (filter_new (.parsed cache) now ttl items).2 k = some t) := by
  constructor
  · intro hnone
    rw [filter_new, filterNewGo_filter_key]
    simp [_load, hnone]
  · intro t hsome
    constructor
    · rw [filter_new, filterNewGo_filter_key]
      simp [_load, hsome]
    · rw [filter_new]
      exact filterNewGo_preserve now items _ (by rw [_load]; exact hsome)

/-- Witness for `first_seen_wins`: a batch with a duplicated URL against an
empty cache keeps only the first copy; a cached key keeps its timestamp. -/
theorem first_seen_wins_witness :
    ((filter_new (.parsed []) 10 72
        [⟨"t1", "https://x.com/a", "", ""⟩, ⟨"t2", "http://x.com/a/", "", ""⟩]).1.filter
        (fun it => url_key it.url == url_key "https://x.com/a")
      = (([⟨"t1", "https://x.com/a", "", ""⟩, ⟨"t2", "http://x.com/a/", "", ""⟩] :
          List Item).filter
          (fun it => url_key it.url == url_key "https://x.com/a")).take 1) ∧
    dlookup (filter_new (.parsed [("https://x.com/a", 5)]) 10 72
        [⟨"t1", "https://x.com/a", "", ""⟩]).2 "https://x.com/a" = some 5 := by
  constructor
  · exact (first_seen_wins [] 10 72 (url_key "https://x.com/a")
      [⟨"t1", "https://x.com/a", "", ""⟩, ⟨"t2", "http://x.com/a/", "", ""⟩]).1
      (by decide)
  · exact ((first_seen_wins [("https://x.com/a", 5)] 10 72 "https://x.com/a"
      [⟨"t1", "https://x.com/a", "", ""⟩]).2 5 (by decide)).2

/-- **C5.** Totality and fallback: `_load` yields the empty mapping on an
absent or unparseable store; `filter_new` always returns a subsequence of
its input (and behaves on a corrupt store exactly as on an empty one);
`mark_seen` always returns a mapping binding every input item's key to
`now`; `_canonicalize` falls back to the stripped input when `urlsplit`
raises.  All embedded operations are total functions. -/
theorem core_totality :
    (_load .absent = [] ∧ _load .unparseable = []) ∧
    (∀ (store : StoreContent) (now ttl : Int) (items : List Item),
      (filter_new store now ttl items).1.Sublist items) ∧
    (∀ (now ttl : Int) (items : List Item),
      filter_new .unparseable now ttl items = filter_new (.parsed []) now ttl items) ∧
    (∀ (store : StoreContent) (now : Int) (items : List Item),
      ∀ it ∈ items, dlookup (mark_seen store now items) (url_key it.url) = some now) ∧
    (∀ u : String, urlsplitE (pyStripL u.data) = .error () →
      _canonicalize u = ⟨pyStripL u.data⟩) := by
  refine ⟨⟨rfl, rfl⟩, ?_, ?_, ?_, ?_⟩
  · intro store now ttl items
    exact filterNewGo_sublist now items _
  · intro now ttl items
    rfl
  · intro store now items it hmem
    exact mark_seen_records now items (_load store) (Or.inl ⟨it, hmem, rfl⟩)
  · intro u herr
    simp only [_canonicalize, canonicalizeL, herr]

/-- Witness for `core_totality`: the membership and fallback conjuncts at
concrete inputs. -/
theorem core_totality_witness :
    dlookup (mark_seen .unparseable 42 [⟨"t", "https://x.com/a", "", ""⟩])
        (url_key "https://x.com/a") = some 42 ∧
    _canonicalize "http://[::1/x" = "http://[::1/x" := by
  constructor
  · exact core_totality.2.2.2.1 .unparseable 42 [⟨"t", "https://x.com/a", "", ""⟩]
      ⟨"t", "https://x.com/a", "", ""⟩ (by simp)
  · exact core_totality.2.2.2.2 "http://[::1/x" (by rfl)

/-! ## Split/join lemmas -/

theorem getLast?_cons_ne {α : Type} (x : α) {xs : List α} (h : xs ≠ []) :
    (x :: xs).getLast? = xs.getLast? := by
  have : (x :: xs) = [x] ++ xs := rfl
  rw [this, List.getLast?_append]
  rcases hx : xs.getLast? with _ | d
  · exact absurd (List.getLast?_eq_none_iff.mp hx) h
  · rfl

theorem joinSpace_cons_cons (w w' : List Char) (ws : List (List Char)) :
    joinSpace (w :: w' :: ws) = w ++ ' ' :: joinSpace (w' :: ws) := rfl

theorem splitWsAux_cons_ws {x : Char} (hx : isPyWs x = true) (xs acc : List Char) :
    splitWsAux (x :: xs) acc
      = if acc.isEmpty then splitWsAux xs [] else acc.reverse :: splitWsAux xs [] := by
  simp [splitWsAux, hx]

theorem splitWsAux_cons_nonws {x : Char} (hx : isPyWs x = false) (xs acc : List Char) :
    splitWsAux (x :: xs) acc = splitWsAux xs (x :: acc) := by
  simp [splitWsAux, hx]

theorem splitWsAux_tokens :
    ∀ (l acc : List Char), (∀ c ∈ acc, isPyWs c = false) →
      ∀ w ∈ splitWsAux l acc, IsToken w
  | [], acc, hacc => by
    intro w hw
    by_cases h : acc.isEmpty
    · simp [splitWsAux, h] at hw
    · simp only [splitWsAux, h, Bool.false_eq_true, if_false, List.mem_singleton] at hw
      subst hw
      refine ⟨fun hc => h ?_, fun c hc => hacc c (List.mem_reverse.mp hc)⟩
      rw [List.isEmpty_iff, ← List.reverse_eq_nil_iff, hc]
  | x :: rest, acc, hacc => by
    intro w hw
    simp only [splitWsAux] at hw
    by_cases hx : isPyWs x
    · rw [if_pos hx] at hw
      by_cases h : acc.isEmpty
      · rw [if_pos h] at hw
        exact splitWsAux_tokens rest [] (by simp) w hw
      · rw [if_neg h] at hw
        rcases List.mem_cons.mp hw with heq | hw'
        · subst heq
          refine ⟨fun hc => h ?_, fun c hc => hacc c (List.mem_reverse.mp hc)⟩
          rw [List.isEmpty_iff, ← List.reverse_eq_nil_iff, hc]
        · exact splitWsAux_tokens rest [] (by simp) w hw'
    · rw [if_neg hx] at hw
      refine splitWsAux_tokens rest (x :: acc) ?_ w hw
      intro c hc
      rcases List.mem_cons.mp hc with heq | hc'
      · subst heq
        exact Bool.not_eq_true _ ▸ hx
      · exact hacc c hc'

theorem pySplitWs_tokens (l : List Char) : ∀ w ∈ pySplitWs l, IsToken w :=
  splitWsAux_tokens l [] (by simp)

theorem splitWsAux_word :
    ∀ (w rest acc : List Char), (∀ c ∈ w, isPyWs c = false) →
      splitWsAux (w ++ rest) acc = splitWsAux rest (w.reverse ++ acc)
  | [], rest, acc, _ => by simp
  | c :: w', rest, acc, h => by
    have hc : isPyWs c = false := h c (by simp)
    have hcons : (c :: w') ++ rest = c :: (w' ++ rest) := rfl
    rw [hcons, splitWsAux_cons_nonws hc,
      splitWsAux_word w' rest (c :: acc) (fun d hd => h d (by simp [hd]))]
    simp

theorem pySplitWs_joinSpace :
    ∀ (ws : List (List Char)), (∀ w ∈ ws, IsToken w) → pySplitWs (joinSpace ws) = ws
  | [], _ => rfl
  | [w], h => by
    have hw := h w (by simp)
    have : (w ++ []) = joinSpace [w] := by simp [joinSpace]
    rw [pySplitWs, joinSpace, ← List.append_nil w,
      splitWsAux_word w [] [] (fun c hc => hw.2 c hc)]
    simp only [splitWsAux, List.append_nil]
    rw [if_neg (by simpa [List.isEmpty_iff, List.reverse_eq_nil_iff] using hw.1)]
    simp
  | w :: w' :: ws', h => by
    have hw := h w (by simp)
    have hrest : ∀ u ∈ (w' :: ws'), IsToken u := fun u hu => h u (by simp [hu])
    rw [pySplitWs, joinSpace_cons_cons,
      splitWsAux_word w (' ' :: joinSpace (w' :: ws')) [] (fun c hc => hw.2 c hc),
      List.append_nil, splitWsAux_cons_ws (by decide)]
    rw [if_neg (by simpa [List.isEmpty_iff, List.reverse_eq_nil_iff] using hw.1)]
    rw [List.reverse_reverse]
    have := pySplitWs_joinSpace (w' :: ws') hrest
    rw [pySplitWs] at this
    rw [this]

theorem joinSpace_ne_nil :
    ∀ (ws : List (List Char)), ws ≠ [] → (∀ w ∈ ws, IsToken w) → joinSpace ws ≠ []
  | [], h, _ => absurd rfl h
  | [w], _, htok => by simpa [joinSpace] using (htok w (by simp)).1
  | _ :: _ :: _, _, _ => by simp [joinSpace]

theorem noTrail_joinSpace :
    ∀ (ws : List (List Char)), (∀ w ∈ ws, IsToken w) → NoTrailWs (joinSpace ws)
  | [], _ => by intro c hc; simp [joinSpace] at hc
  | [w], h => by
    intro c hc
    rw [joinSpace] at hc
    exact (h w (by simp)).2 c (List.mem_of_getLast?_eq_some hc)
  | w :: w' :: ws', h => by
    intro c hc
    have hrest : ∀ u ∈ (w' :: ws'), IsToken u := fun u hu => h u (by simp [hu])
    have hne : joinSpace (w' :: ws') ≠ [] := joinSpace_ne_nil _ (by simp) hrest
    rw [joinSpace_cons_cons, List.getLast?_append, getLast?_cons_ne _ hne] at hc
    rcases hj : (joinSpace (w' :: ws')).getLast? with _ | d
    · exact absurd (List.getLast?_eq_none_iff.mp hj) hne
    · rw [hj] at hc
      simp only [Option.or_some] at hc
      injection hc with hc
      subst hc
      exact noTrail_joinSpace (w' :: ws') hrest d hj

theorem splitWsAux_concat_nonws :
    ∀ (l acc : List Char) (c : Char), isPyWs c = false →
      ((∃ d, l.getLast? = some d ∧ isPyWs d = false) ∨ (l = [] ∧ acc ≠ [])) →
      (splitWsAux (l ++ [c]) acc).length = (splitWsAux l acc).length
  | [], acc, c, hc, hcond => by
    have hacc : acc ≠ [] := by
      rcases hcond with ⟨d, hd, _⟩ | ⟨_, h⟩
      · simp at hd
      · exact h
    rw [List.nil_append, splitWsAux_cons_nonws hc]
    simp only [splitWsAux]
    rw [if_neg (by simp), if_neg (by simpa [List.isEmpty_iff] using hacc)]
    simp
  | x :: xs, acc, c, hc, hcond => by
    by_cases hx : isPyWs x
    · have hxs : xs ≠ [] ∧ ∃ d, xs.getLast? = some d ∧ isPyWs d = false := by
        rcases hcond with ⟨d, hd, hdws⟩ | ⟨hl, _⟩
        · rcases hxs : xs with _ | _
          · subst hxs
            simp only [List.getLast?_singleton] at hd
            injection hd with hd
            subst hd
            rw [hx] at hdws
            exact absurd hdws (by simp)
          · subst hxs
            refine ⟨by simp, d, ?_, hdws⟩
            rwa [getLast?_cons_ne x (by simp)] at hd
        · simp at hl
      have hcons : (x :: xs) ++ [c] = x :: (xs ++ [c]) := rfl
      rw [hcons, splitWsAux_cons_ws hx, splitWsAux_cons_ws hx]
      by_cases h : acc.isEmpty
      · rw [if_pos h, if_pos h]
        exact splitWsAux_concat_nonws xs [] c hc (Or.inl hxs.2)
      · rw [if_neg h, if_neg h]
        simp only [List.length_cons]
        rw [splitWsAux_concat_nonws xs [] c hc (Or.inl hxs.2)]
    · have hx' : isPyWs x = false := Bool.not_eq_true _ ▸ hx
      have hcons : (x :: xs) ++ [c] = x :: (xs ++ [c]) := rfl
      rw [hcons, splitWsAux_cons_nonws hx', splitWsAux_cons_nonws hx']
      refine splitWsAux_concat_nonws xs (x :: acc) c hc ?_
      rcases hxs : xs with _ | _
      · exact Or.inr ⟨rfl, by simp⟩
      · left
        rcases hcond with ⟨d, hd, hdws⟩ | ⟨hl, _⟩
        · subst hxs
          rw [getLast?_cons_ne x (by simp)] at hd
          exact ⟨d, hd, hdws⟩
        · simp at hl

theorem wordCount_concat_nonws {l : List Char} {c : Char} (hc : isPyWs c = false)
    (hl : l ≠ []) (hnt : NoTrailWs l) :
    (pySplitWs (l ++ [c])).length = (pySplitWs l).length := by
  apply splitWsAux_concat_nonws l [] c hc
  left
  rcases hlast : l.getLast? with _ | d
  · exact absurd (List.getLast?_eq_none_iff.mp hlast) hl
  · exact ⟨d, rfl, hnt d hlast⟩

/-! ## rstrip lemmas -/

theorem pyRstripChars_append (cs a b : List Char) :
    pyRstripChars cs (a ++ b)
      = if pyRstripChars cs b = [] then pyRstripChars cs a
        else a ++ pyRstripChars cs b := by
  unfold pyRstripChars
  rw [List.reverse_append, List.dropWhile_append]
  by_cases hb : (b.reverse.dropWhile (fun c => cs.contains c)).isEmpty
  · rw [if_pos hb, if_pos]
    rw [List.isEmpty_iff] at hb
    rw [hb]
    rfl
  · rw [if_neg hb, if_neg]
    · simp
    · rw [List.isEmpty_iff] at hb
      simpa [List.reverse_eq_nil_iff] using hb

theorem pyRstripChars_concat_notmem (cs : List Char) (x : List Char) {c : Char}
    (hc : cs.contains c = false) : pyRstripChars cs (x ++ [c]) = x ++ [c] := by
  unfold pyRstripChars
  rw [List.reverse_append]
  simp only [List.reverse_singleton, List.singleton_append, List.dropWhile_cons, hc,
    Bool.false_eq_true, if_false]
  simp

theorem pyRstripChars_subset (cs l : List Char) :
    ∀ c ∈ pyRstripChars cs l, c ∈ l := by
  intro c hc
  unfold pyRstripChars at hc
  rw [List.mem_reverse] at hc
  have := (List.dropWhile_sublist (l := l.reverse) (fun c => cs.contains c)).subset hc
  exact List.mem_reverse.mp this

theorem joinSpace_concat :
    ∀ (ws : List (List Char)) (w : List Char), ws ≠ [] →
      joinSpace (ws ++ [w]) = joinSpace ws ++ ' ' :: w
  | [], _, h => absurd rfl h
  | [w₀], w, _ => by simp [joinSpace]
  | w₀ :: w₁ :: ws', w, _ => by
    have hrec := joinSpace_concat (w₁ :: ws') w (List.cons_ne_nil _ _)
    have hstep : joinSpace ((w₀ :: w₁ :: ws') ++ [w])
        = w₀ ++ ' ' :: joinSpace ((w₁ :: ws') ++ [w]) := rfl
    rw [hstep, hrec, joinSpace_cons_cons]
    simp

/-- Word count of the truncation result: stripping trailing `,;:` from a
space-join and appending a period yields exactly one word per token. -/
theorem trunc_wordCount (ws : List (List Char)) (hws : ws ≠ [])
    (htok : ∀ w ∈ ws, IsToken w) :
    (pySplitWs (pyRstripChars [',', ';', ':'] (joinSpace ws) ++ ['.'])).length
      = ws.length := by
  obtain ⟨ws₀, wl, rfl⟩ : ∃ ws₀ wl, ws = ws₀ ++ [wl] :=
    ⟨ws.dropLast, ws.getLast hws, (List.dropLast_append_getLast hws).symm⟩
  have hwl : IsToken wl := htok wl (by simp)
  have hdot : isPyWs '.' = false := by decide
  rcases hws₀ : ws₀ with _ | ⟨w₀, ws₀'⟩
  · subst hws₀
    simp only [List.nil_append]
    rw [show joinSpace [wl] = wl from rfl]
    by_cases hstrip : pyRstripChars [',', ';', ':'] wl = []
    · rw [hstrip]
      rw [show (([] : List Char) ++ ['.']) = joinSpace [['.']] from rfl]
      rw [pySplitWs_joinSpace [['.']] (by
        intro w hw
        simp only [List.mem_singleton] at hw
        subst hw
        exact ⟨by simp, by simpa using hdot⟩)]
      simp
    · rw [show pyRstripChars [',', ';', ':'] wl ++ ['.']
          = joinSpace [pyRstripChars [',', ';', ':'] wl ++ ['.']] from rfl]
      rw [pySplitWs_joinSpace _ (by
        intro w hw
        simp only [List.mem_singleton] at hw
        subst hw
        constructor
        · simp
        · intro c hc
          rcases List.mem_append.mp hc with hc' | hc'
          · exact hwl.2 c (pyRstripChars_subset _ _ c hc')
          · simp only [List.mem_singleton] at hc'
            subst hc'
            exact hdot)]
      simp
  · subst hws₀
    have htok₀ : ∀ w ∈ (w₀ :: ws₀'), IsToken w := fun w hw => htok w (by
      simp only [List.cons_append, List.mem_cons, List.mem_append] at hw ⊢
      tauto)
    rw [joinSpace_concat (w₀ :: ws₀') wl (by simp)]
    rw [show joinSpace (w₀ :: ws₀') ++ ' ' :: wl
        = (joinSpace (w₀ :: ws₀') ++ [' ']) ++ wl by simp]
    rw [pyRstripChars_append]
    by_cases hstrip : pyRstripChars [',', ';', ':'] wl = []
    · rw [if_pos hstrip]
      rw [pyRstripChars_concat_notmem _ _ (by decide)]
      rw [show (joinSpace (w₀ :: ws₀') ++ [' ']) ++ ['.']
          = joinSpace (w₀ :: ws₀') ++ ' ' :: ['.'] by simp]
      rw [← joinSpace_concat (w₀ :: ws₀') ['.'] (by simp)]
      rw [pySplitWs_joinSpace _ (by
        intro w hw
        rcases List.mem_append.mp hw with hw' | hw'
        · exact htok₀ w hw'
        · simp only [List.mem_singleton] at hw'
          subst hw'
          exact ⟨by simp, by simpa using hdot⟩)]
      simp
    · rw [if_neg hstrip]
      rw [show ((joinSpace (w₀ :: ws₀') ++ [' ']) ++ pyRstripChars [',', ';', ':'] wl) ++ ['.']
          = joinSpace (w₀ :: ws₀') ++ ' ' :: (pyRstripChars [',', ';', ':'] wl ++ ['.']) by simp]
      rw [← joinSpace_concat (w₀ :: ws₀') _ (by simp)]
      rw [pySplitWs_joinSpace _ (by
        intro w hw
        rcases List.mem_append.mp hw with hw' | hw'
        · exact htok₀ w hw'
        · simp only [List.mem_singleton] at hw'
          subst hw'
          constructor
          · simp
          · intro c hc
            rcases List.mem_append.mp hc with hc' | hc'
            · exact hwl.2 c (pyRstripChars_subset _ _ c hc')
            · simp only [List.mem_singleton] at hc'
              subst hc'
              exact hdot)]
      simp

/-! ## Suffix lemmas -/

theorem getLast?_suffix {α : Type} {s l : List α} (hs : s <:+ l) (hne : s ≠ []) :
    s.getLast? = l.getLast? := by
  obtain ⟨t, rfl⟩ := hs
  rw [List.getLast?_append]
  rcases h : s.getLast? with _ | d
  · exact absurd (List.getLast?_eq_none_iff.mp h) hne
  · rfl

theorem noTrail_suffix {s l : List Char} (hs : s <:+ l) (hnt : NoTrailWs l) :
    NoTrailWs s := by
  intro c hc
  have hne : s ≠ [] := by
    rintro rfl
    simp at hc
  rw [getLast?_suffix hs hne] at hc
  exact hnt c hc

/-! ## Digit and strftime lemmas -/

theorem natToCharsAux_chars :
    ∀ (fuel n : Nat), ∀ c ∈ natToCharsAux fuel n,
      ∃ m, m < 10 ∧ c = Char.ofNat ('0'.toNat + m)
  | 0, n => by simp [natToCharsAux]
  | fuel + 1, n => by
    intro c hc
    simp only [natToCharsAux] at hc
    by_cases h : n < 10
    · rw [if_pos h] at hc
      simp only [List.mem_singleton] at hc
      exact ⟨n, h, hc⟩
    · rw [if_neg h] at hc
      rcases List.mem_append.mp hc with hc' | hc'
      · exact natToCharsAux_chars fuel (n / 10) c hc'
      · simp only [List.mem_singleton] at hc'
        exact ⟨n % 10, Nat.mod_lt _ (by omega), hc'⟩

theorem natToChars_ne_nil (n : Nat) : natToChars n ≠ [] := by
  unfold natToChars natToCharsAux
  by_cases h : n < 10 <;> simp [h]

theorem digitChar_not_ws {m : Nat} (hm : m < 10) :
    isPyWs (Char.ofNat ('0'.toNat + m)) = false := by
  interval_cases m <;> decide

theorem natToChars_chars (n : Nat) : ∀ c ∈ natToChars n, isPyWs c = false := by
  intro c hc
  obtain ⟨m, hm, rfl⟩ := natToCharsAux_chars (n + 1) n c hc
  exact digitChar_not_ws hm

theorem strftimeRun_dayFormat (tbl : MonthTable) (y mo d : Nat) (w : Bool) :
    strftimeRun tbl y mo d (dayFormat w)
      = ((tbl.getD (mo - 1) []) ++ ' ' :: natToChars d ++ [','] ++ [' '])
          ++ natToChars y := by
  cases w <;> simp [dayFormat, strftimeRun]

theorem strftime_ne_nil (tbl : MonthTable) (y mo d : Nat) (w : Bool) :
    strftimeRun tbl y mo d (dayFormat w) ≠ [] := by
  rw [strftimeRun_dayFormat]
  simp [List.append_eq_nil, natToChars_ne_nil y]

theorem strftime_noTrail (tbl : MonthTable) (y mo d : Nat) (w : Bool) :
    NoTrailWs (strftimeRun tbl y mo d (dayFormat w)) := by
  intro c hc
  rw [strftimeRun_dayFormat, List.getLast?_append] at hc
  rcases hy : (natToChars y).getLast? with _ | e
  · exact absurd (List.getLast?_eq_none_iff.mp hy) (natToChars_ne_nil y)
  · rw [hy] at hc
    simp only [Option.or_some] at hc
    injection hc with hc
    subst hc
    exact natToChars_chars y _ (List.mem_of_getLast?_eq_some hy)

/-! ## Match-length lemmas for the regex scanners -/

theorem tryIsoDay_consumed {y mo cs : Nat} {r : List Char} {n y' mo' d : Nat}
    (h : tryIsoDay y mo cs r = some (n, y', mo', d)) : cs + 1 ≤ n := by
  unfold tryIsoDay at h
  split at h
  · split_ifs at h
    simp only [Option.some.injEq, Prod.mk.injEq] at h
    omega
  · split_ifs at h <;>
      (simp only [Option.some.injEq, Prod.mk.injEq] at h; omega)
  · simp at h

theorem tryIsoMonth_consumed {y : Nat} {r : List Char} {n y' mo' d : Nat}
    (h : tryIsoMonth y r = some (n, y', mo', d)) : 8 ≤ n := by
  unfold tryIsoMonth at h
  split at h
  · split_ifs at h
    have := tryIsoDay_consumed h
    omega
  · split_ifs at h
    have := tryIsoDay_consumed h
    omega
  · simp at h

theorem tryIso_consumed {l : List Char} {n y mo d : Nat}
    (h : tryIso l = some (n, y, mo, d)) : 8 ≤ n := by
  unfold tryIso at h
  split at h
  · split_ifs at h
    exact tryIsoMonth_consumed h
  · simp at h

theorem tryPercent_consumed {l : List Char} {n : Nat}
    (h : tryPercent l = some n) : 7 ≤ n := by
  simp only [tryPercent] at h
  split at h
  · split_ifs at h
    injection h with h
    omega
  · simp at h

theorem tryBarrels_consumed {l : List Char} {n : Nat}
    (h : tryBarrels l = some n) : n = 15 := by
  simp only [tryBarrels] at h
  split_ifs at h
  injection h with h
  omega

theorem tryMPs_consumed {l : List Char} {d : Char} {n : Nat}
    (h : tryMPs l = some (d, n)) : 4 ≤ n := by
  simp only [tryMPs] at h
  split at h
  · split_ifs at h
    split at h
    · split_ifs at h
      simp only [Option.some.injEq, Prod.mk.injEq] at h
      omega
    · simp at h
  · simp at h

/-! ## Scanner shape lemmas -/

theorem isoScan_nil (tbl : MonthTable) (w : Bool) (fuel : Nat) (prevW : Bool) :
    isoScan tbl w fuel prevW [] = [] := by
  cases fuel <;> rfl

theorem percentScan_nil (fuel : Nat) (prev : Option Char) :
    percentScan fuel prev [] = [] := by
  cases fuel <;> rfl

theorem barrelsScan_nil (fuel : Nat) (prevW : Bool) :
    barrelsScan fuel prevW [] = [] := by
  cases fuel <;> rfl

theorem mpsScan_nil (fuel : Nat) : mpsScan fuel [] = [] := by
  cases fuel <;> rfl

theorem spacePunctScan_nil (fuel : Nat) : spacePunctScan fuel [] = [] := by
  cases fuel <;> rfl

theorem collapseScan_nil (fuel : Nat) : collapseScan fuel [] = [] := by
  cases fuel <;> rfl

theorem isoScan_ne_nil (tbl : MonthTable) (w : Bool) (fuel : Nat) (prevW : Bool)
    {l : List Char} (hl : l ≠ []) : isoScan tbl w fuel prevW l ≠ [] := by
  rcases fuel with _ | fuel
  · simpa [isoScan] using hl
  · rcases l with _ | ⟨x, xs⟩
    · exact absurd rfl hl
    · rcases hm : (if prevW then none else tryIso (x :: xs)) with _ | ⟨n, y, mo, d⟩
      · simp only [isoScan, hm]
        simp
      · simp only [isoScan, hm]
        intro hcontra
        rcases List.append_eq_nil.mp hcontra with ⟨hemit, _⟩
        have hiso : tryIso (x :: xs) = some (n, y, mo, d) := by
          by_cases hp : prevW
          · rw [if_pos hp] at hm
            exact absurd hm (by simp)
          · rwa [if_neg hp] at hm
        have hn : 8 ≤ n := tryIso_consumed hiso
        by_cases hv : validDate y mo d
        · rw [if_pos hv] at hemit
          exact strftime_ne_nil tbl y mo d w hemit
        · rw [if_neg hv] at hemit
          obtain ⟨m, rfl⟩ : ∃ m, n = m + 1 := ⟨n - 1, by omega⟩
          rw [List.take_succ_cons] at hemit
          exact List.cons_ne_nil _ _ hemit

theorem percentScan_ne_nil (fuel : Nat) (prev : Option Char) {l : List Char}
    (hl : l ≠ []) : percentScan fuel prev l ≠ [] := by
  rcases fuel with _ | fuel
  · simpa [percentScan] using hl
  · rcases l with _ | ⟨x, xs⟩
    · exact absurd rfl hl
    · rcases hm : (if (prev.map Char.isDigit).getD false then tryPercent (x :: xs) else none)
          with _ | n <;> simp [percentScan, hm]

theorem barrelsScan_ne_nil (fuel : Nat) (prevW : Bool) {l : List Char}
    (hl : l ≠ []) : barrelsScan fuel prevW l ≠ [] := by
  rcases fuel with _ | fuel
  · simpa [barrelsScan] using hl
  · rcases l with _ | ⟨x, xs⟩
    · exact absurd rfl hl
    · rcases hm : (if prevW then none else tryBarrels (x :: xs)) with _ | n <;>
        simp [barrelsScan, hm]

theorem mpsScan_ne_nil (fuel : Nat) {l : List Char} (hl : l ≠ []) :
    mpsScan fuel l ≠ [] := by
  rcases fuel with _ | fuel
  · simpa [mpsScan] using hl
  · rcases l with _ | ⟨x, xs⟩
    · exact absurd rfl hl
    · rcases hm : tryMPs (x :: xs) with _ | ⟨d, n⟩ <;> simp [mpsScan, hm]

theorem spacePunctScan_ne_nil (fuel : Nat) {l : List Char} (hl : l ≠ []) :
    spacePunctScan fuel l ≠ [] := by
  rcases fuel with _ | fuel
  · simpa [spacePunctScan] using hl
  · rcases l with _ | ⟨x, xs⟩
    · exact absurd rfl hl
    · by_cases hx : isPyWs x
      · simp only [spacePunctScan, hx, if_true]
        split
        · split <;> simp
        · simp
      · simp [spacePunctScan, hx]

theorem collapseScan_ne_nil (fuel : Nat) {l : List Char} (hl : l ≠ []) :
    collapseScan fuel l ≠ [] := by
  rcases fuel with _ | fuel
  · simpa [collapseScan] using hl
  · rcases l with _ | ⟨x, xs⟩
    · exact absurd rfl hl
    · by_cases hx : isPyWs x
      · simp only [collapseScan, hx, if_true]
        split
        · split <;> simp
        · simp
      · simp [collapseScan, hx]

theorem punct_not_ws {c : Char} (h : isPunctClass c = true) : isPyWs c = false := by
  simp only [isPunctClass, Bool.or_eq_true, decide_eq_true_eq] at h
  rcases h with ⟨⟨⟨⟨h | h⟩ | h⟩ | h⟩ | h⟩ | h <;> subst h <;> decide

/-! ## Scanner whitespace-preservation lemmas -/

theorem isoScan_noTrail (tbl : MonthTable) (w : Bool) :
    ∀ (fuel : Nat) (prevW : Bool) (l : List Char), l.length ≤ fuel →
      NoTrailWs l → NoTrailWs (isoScan tbl w fuel prevW l)
  | 0, prevW, l, hlen, hnt => by
    have hl : l = [] := List.length_eq_zero.mp (Nat.le_zero.mp hlen)
    subst hl
    simpa [isoScan] using hnt
  | fuel + 1, prevW, [], _, _ => by
    intro c hc
    rw [isoScan_nil] at hc
    simp at hc
  | fuel + 1, prevW, x :: xs, hlen, hnt => by
    have hlen' : xs.length ≤ fuel := by
      simpa using Nat.le_of_succ_le_succ hlen
    rcases hm : (if prevW then none else tryIso (x :: xs)) with _ | ⟨n, y, mo, d⟩
    · have hout : isoScan tbl w (fuel + 1) prevW (x :: xs)
          = x :: isoScan tbl w fuel (isWordChar x) xs := by
        simp only [isoScan, hm]
      rw [hout]
      intro c hc
      by_cases hxs : xs = []
      · subst hxs
        rw [isoScan_nil] at hc
        simp only [List.getLast?_singleton] at hc
        injection hc with hc
        subst hc
        exact hnt _ (by simp)
      · have hne : isoScan tbl w fuel (isWordChar x) xs ≠ [] :=
          isoScan_ne_nil tbl w fuel _ hxs
        rw [getLast?_cons_ne _ hne] at hc
        exact isoScan_noTrail tbl w fuel (isWordChar x) xs hlen'
          (noTrail_suffix (List.suffix_cons x xs) hnt) c hc
    · have hiso : tryIso (x :: xs) = some (n, y, mo, d) := by
        by_cases hp : prevW
        · rw [if_pos hp] at hm
          exact absurd hm (by simp)
        · rwa [if_neg hp] at hm
      have hn : 8 ≤ n := tryIso_consumed hiso
      have hout : isoScan tbl w (fuel + 1) prevW (x :: xs)
          = (if validDate y mo d then strftimeRun tbl y mo d (dayFormat w)
             else (x :: xs).take n) ++ isoScan tbl w fuel true ((x :: xs).drop n) := by
        simp only [isoScan, hm]
      rw [hout]
      intro c hc
      have hdrop_len : ((x :: xs).drop n).length ≤ fuel := by
        rw [List.length_drop]
        simp only [List.length_cons]
        omega
      have hnt_drop : NoTrailWs ((x :: xs).drop n) :=
        noTrail_suffix (List.drop_suffix n (x :: xs)) hnt
      by_cases hrec : isoScan tbl w fuel true ((x :: xs).drop n) = []
      · rw [hrec, List.append_nil] at hc
        by_cases hv : validDate y mo d
        · rw [if_pos hv] at hc
          exact strftime_noTrail tbl y mo d w c hc
        · rw [if_neg hv] at hc
          have hdrop : (x :: xs).drop n = [] := by
            by_contra hd
            exact (isoScan_ne_nil tbl w fuel true hd) hrec
          rw [List.take_of_length_le (List.drop_eq_nil_iff.mp hdrop)] at hc
          exact hnt c hc
      · rw [List.getLast?_append] at hc
        rcases hr : (isoScan tbl w fuel true ((x :: xs).drop n)).getLast? with _ | e
        · exact absurd (List.getLast?_eq_none_iff.mp hr) hrec
        · rw [hr] at hc
          simp only [Option.or_some] at hc
          injection hc with hc
          subst hc
          exact isoScan_noTrail tbl w fuel true _ hdrop_len hnt_drop _ hr

theorem percentScan_noTrail :
    ∀ (fuel : Nat) (prev : Option Char) (l : List Char), l.length ≤ fuel →
      NoTrailWs l → NoTrailWs (percentScan fuel prev l)
  | 0, prev, l, hlen, hnt => by
    have hl : l = [] := List.length_eq_zero.mp (Nat.le_zero.mp hlen)
    subst hl
    simpa [percentScan] using hnt
  | fuel + 1, prev, [], _, _ => by
    intro c hc
    rw [percentScan_nil] at hc
    simp at hc
  | fuel + 1, prev, x :: xs, hlen, hnt => by
    have hlen' : xs.length ≤ fuel := by
      simpa using Nat.le_of_succ_le_succ hlen
    rcases hm : (if (prev.map Char.isDigit).getD false then tryPercent (x :: xs) else none)
        with _ | n
    · have hout : percentScan (fuel + 1) prev (x :: xs)
          = x :: percentScan fuel (some x) xs := by
        simp only [percentScan, hm]
      rw [hout]
      intro c hc
      by_cases hxs : xs = []
      · subst hxs
        rw [percentScan_nil] at hc
        simp only [List.getLast?_singleton] at hc
        injection hc with hc
        subst hc
        exact hnt _ (by simp)
      · have hne : percentScan fuel (some x) xs ≠ [] := percentScan_ne_nil fuel _ hxs
        rw [getLast?_cons_ne _ hne] at hc
        exact percentScan_noTrail fuel (some x) xs hlen'
          (noTrail_suffix (List.suffix_cons x xs) hnt) c hc
    · have hn : 7 ≤ n := by
        by_cases hp : (prev.map Char.isDigit).getD false
        · rw [if_pos hp] at hm
          exact tryPercent_consumed hm
        · rw [if_neg hp] at hm
          exact absurd hm (by simp)
      have hout : percentScan (fuel + 1) prev (x :: xs)
          = '%' :: percentScan fuel (some 't') ((x :: xs).drop n) := by
        simp only [percentScan, hm]
      rw [hout]
      intro c hc
      have hdrop_len : ((x :: xs).drop n).length ≤ fuel := by
        rw [List.length_drop]
        simp only [List.length_cons]
        omega
      by_cases hrec : percentScan fuel (some 't') ((x :: xs).drop n) = []
      · rw [hrec] at hc
        simp only [List.getLast?_singleton] at hc
        injection hc with hc
        subst hc
        decide
      · rw [getLast?_cons_ne _ hrec] at hc
        exact percentScan_noTrail fuel (some 't') _ hdrop_len
          (noTrail_suffix (List.drop_suffix n (x :: xs)) hnt) c hc

theorem barrelsScan_noTrail :
    ∀ (fuel : Nat) (prevW : Bool) (l : List Char), l.length ≤ fuel →
      NoTrailWs l → NoTrailWs (barrelsScan fuel prevW l)
  | 0, prevW, l, hlen, hnt => by
    have hl : l = [] := List.length_eq_zero.mp (Nat.le_zero.mp hlen)
    subst hl
    simpa [barrelsScan] using hnt
  | fuel + 1, prevW, [], _, _ => by
    intro c hc
    rw [barrelsScan_nil] at hc
    simp at hc
  | fuel + 1, prevW, x :: xs, hlen, hnt => by
    have hlen' : xs.length ≤ fuel := by
      simpa using Nat.le_of_succ_le_succ hlen
    rcases hm : (if prevW then none else tryBarrels (x :: xs)) with _ | n
    · have hout : barrelsScan (fuel + 1) prevW (x :: xs)
          = x :: barrelsScan fuel (isWordChar x) xs := by
        simp only [barrelsScan, hm]
      rw [hout]
      intro c hc
      by_cases hxs : xs = []
      · subst hxs
        rw [barrelsScan_nil] at hc
        simp only [List.getLast?_singleton] at hc
        injection hc with hc
        subst hc
        exact hnt _ (by simp)
      · have hne : barrelsScan fuel (isWordChar x) xs ≠ [] :=
          barrelsScan_ne_nil fuel _ hxs
        rw [getLast?_cons_ne _ hne] at hc
        exact barrelsScan_noTrail fuel (isWordChar x) xs hlen'
          (noTrail_suffix (List.suffix_cons x xs) hnt) c hc
    · have hn : n = 15 := by
        by_cases hp : prevW
        · rw [if_pos hp] at hm
          exact absurd hm (by simp)
        · rw [if_neg hp] at hm
          exact tryBarrels_consumed hm
      have hout : barrelsScan (fuel + 1) prevW (x :: xs)
          = ['b', '/', 'd'] ++ barrelsScan fuel true ((x :: xs).drop n) := by
        simp only [barrelsScan, hm]
        rfl
      rw [hout]
      intro c hc
      have hdrop_len : ((x :: xs).drop n).length ≤ fuel := by
        rw [List.length_drop]
        simp only [List.length_cons]
        omega
      by_cases hrec : barrelsScan fuel true ((x :: xs).drop n) = []
      · rw [hrec, List.append_nil] at hc
        have hcd : 'd' = c := by simpa using hc
        subst hcd
        decide
      · rw [List.getLast?_append] at hc
        rcases hr : (barrelsScan fuel true ((x :: xs).drop n)).getLast? with _ | e
        · exact absurd (List.getLast?_eq_none_iff.mp hr) hrec
        · rw [hr] at hc
          simp only [Option.or_some] at hc
          injection hc with hc
          subst hc
          exact barrelsScan_noTrail fuel true _ hdrop_len
            (noTrail_suffix (List.drop_suffix n (x :: xs)) hnt) _ hr

theorem mpsScan_noTrail :
    ∀ (fuel : Nat) (l : List Char), l.length ≤ fuel →
      NoTrailWs l → NoTrailWs (mpsScan fuel l)
  | 0, l, hlen, hnt => by
    have hl : l = [] := List.length_eq_zero.mp (Nat.le_zero.mp hlen)
    subst hl
    simpa [mpsScan] using hnt
  | fuel + 1, [], _, _ => by
    intro c hc
    rw [mpsScan_nil] at hc
    simp at hc
  | fuel + 1, x :: xs, hlen, hnt => by
    have hlen' : xs.length ≤ fuel := by
      simpa using Nat.le_of_succ_le_succ hlen
    rcases hm : tryMPs (x :: xs) with _ | ⟨d, n⟩
    · have hout : mpsScan (fuel + 1) (x :: xs) = x :: mpsScan fuel xs := by
        simp only [mpsScan, hm]
      rw [hout]
      intro c hc
      by_cases hxs : xs = []
      · subst hxs
        rw [mpsScan_nil] at hc
        simp only [List.getLast?_singleton] at hc
        injection hc with hc
        subst hc
        exact hnt _ (by simp)
      · have hne : mpsScan fuel xs ≠ [] := mpsScan_ne_nil fuel hxs
        rw [getLast?_cons_ne _ hne] at hc
        exact mpsScan_noTrail fuel xs hlen'
          (noTrail_suffix (List.suffix_cons x xs) hnt) c hc
    · have hn : 4 ≤ n := tryMPs_consumed hm
      have hout : mpsScan (fuel + 1) (x :: xs)
          = [d, ' ', 'M', 'P', 's'] ++ mpsScan fuel ((x :: xs).drop n) := by
        simp only [mpsScan, hm]
        rfl
      rw [hout]
      intro c hc
      have hdrop_len : ((x :: xs).drop n).length ≤ fuel := by
        rw [List.length_drop]
        simp only [List.length_cons]
        omega
      by_cases hrec : mpsScan fuel ((x :: xs).drop n) = []
      · rw [hrec, List.append_nil] at hc
        have hcs : 's' = c := by simpa using hc
        subst hcs
        decide
      · rw [List.getLast?_append] at hc
        rcases hr : (mpsScan fuel ((x :: xs).drop n)).getLast? with _ | e
        · exact absurd (List.getLast?_eq_none_iff.mp hr) hrec
        · rw [hr] at hc
          simp only [Option.or_some] at hc
          injection hc with hc
          subst hc
          exact mpsScan_noTrail fuel _ hdrop_len
            (noTrail_suffix (List.drop_suffix n (x :: xs)) hnt) _ hr

theorem spacePunctScan_noTrail :
    ∀ (fuel : Nat) (l : List Char), l.length ≤ fuel →
      NoTrailWs l → NoTrailWs (spacePunctScan fuel l)
  | 0, l, hlen, hnt => by
    have hl : l = [] := List.length_eq_zero.mp (Nat.le_zero.mp hlen)
    subst hl
    simpa [spacePunctScan] using hnt
  | fuel + 1, [], _, _ => by
    intro c hc
    rw [spacePunctScan_nil] at hc
    simp at hc
  | fuel + 1, x :: xs, hlen, hnt => by
    have hlen' : xs.length ≤ fuel := by
      simpa using Nat.le_of_succ_le_succ hlen
    have hcopy : NoTrailWs (x :: spacePunctScan fuel xs) := by
      intro c hc
      by_cases hxs : xs = []
      · subst hxs
        rw [spacePunctScan_nil] at hc
        simp only [List.getLast?_singleton] at hc
        injection hc with hc
        subst hc
        exact hnt _ (by simp)
      · have hne : spacePunctScan fuel xs ≠ [] := spacePunctScan_ne_nil fuel hxs
        rw [getLast?_cons_ne _ hne] at hc
        exact spacePunctScan_noTrail fuel xs hlen'
          (noTrail_suffix (List.suffix_cons x xs) hnt) c hc
    by_cases hx : isPyWs x
    · rcases hd : (x :: xs).dropWhile isPyWs with _ | ⟨p, tail⟩
      · have hout : spacePunctScan (fuel + 1) (x :: xs) = x :: spacePunctScan fuel xs := by
          simp only [spacePunctScan, hx, if_true, hd]
        rw [hout]
        exact hcopy
      · by_cases hp : isPunctClass p
        · have hout : spacePunctScan (fuel + 1) (x :: xs)
              = p :: spacePunctScan fuel tail := by
            simp only [spacePunctScan, hx, if_true, hd, hp]
          rw [hout]
          have htail_suffix : tail <:+ (x :: xs) :=
            (List.suffix_cons p tail).trans (hd ▸ List.dropWhile_suffix isPyWs)
          have htail_len : tail.length ≤ fuel := by
            have h1 : (p :: tail).length ≤ (x :: xs).length := by
              rw [← hd]
              exact (List.dropWhile_sublist isPyWs).length_le
            simp only [List.length_cons] at h1 hlen
            omega
          intro c hc
          by_cases hrec : spacePunctScan fuel tail = []
          · rw [hrec] at hc
            simp only [List.getLast?_singleton] at hc
            injection hc with hc
            subst hc
            exact punct_not_ws hp
          · rw [getLast?_cons_ne _ hrec] at hc
            exact spacePunctScan_noTrail fuel tail htail_len
              (noTrail_suffix htail_suffix hnt) c hc
        · have hout : spacePunctScan (fuel + 1) (x :: xs)
              = x :: spacePunctScan fuel xs := by
            simp only [spacePunctScan, hx, if_true, hd]
            rw [if_neg hp]
          rw [hout]
          exact hcopy
    · have hout : spacePunctScan (fuel + 1) (x :: xs) = x :: spacePunctScan fuel xs := by
        simp only [spacePunctScan, hx, Bool.false_eq_true, if_false]
      rw [hout]
      exact hcopy

theorem collapseScan_noTrail :
    ∀ (fuel : Nat) (l : List Char), l.length ≤ fuel →
      NoTrailWs l → NoTrailWs (collapseScan fuel l)
  | 0, l, hlen, hnt => by
    have hl : l = [] := List.length_eq_zero.mp (Nat.le_zero.mp hlen)
    subst hl
    simpa [collapseScan] using hnt
  | fuel + 1, [], _, _ => by
    intro c hc
    rw [collapseScan_nil] at hc
    simp at hc
  | fuel + 1, x :: xs, hlen, hnt => by
    have hlen' : xs.length ≤ fuel := by
      simpa using Nat.le_of_succ_le_succ hlen
    have hcopy : NoTrailWs (x :: collapseScan fuel xs) := by
      intro c hc
      by_cases hxs : xs = []
      · subst hxs
        rw [collapseScan_nil] at hc
        simp only [List.getLast?_singleton] at hc
        injection hc with hc
        subst hc
        exact hnt _ (by simp)
      · have hne : collapseScan fuel xs ≠ [] := collapseScan_ne_nil fuel hxs
        rw [getLast?_cons_ne _ hne] at hc
        exact collapseScan_noTrail fuel xs hlen'
          (noTrail_suffix (List.suffix_cons x xs) hnt) c hc
    by_cases hx : isPyWs x
    · rcases hxs : xs with _ | ⟨y, ys⟩
      · subst hxs
        have hout : collapseScan (fuel + 1) [x] = x :: collapseScan fuel [] := by
          simp only [collapseScan, hx, if_true]
        rw [hout]
        exact hcopy
      · subst hxs
        by_cases hy : isPyWs y
        · have hout : collapseScan (fuel + 1) (x :: y :: ys)
              = ' ' :: collapseScan fuel ((x :: y :: ys).dropWhile isPyWs) := by
            simp only [collapseScan, hx, if_true, hy]
          rw [hout]
          have hdw_suffix : (x :: y :: ys).dropWhile isPyWs <:+ (x :: y :: ys) :=
            List.dropWhile_suffix isPyWs
          have hdw_len : ((x :: y :: ys).dropWhile isPyWs).length ≤ fuel := by
            have h0 : (x :: y :: ys).dropWhile isPyWs = (y :: ys).dropWhile isPyWs := by
              simp [List.dropWhile_cons, hx]
            rw [h0]
            have h1 := (List.dropWhile_sublist (l := (y :: ys)) isPyWs).length_le
            simp only [List.length_cons] at h1 hlen ⊢
            omega
          intro c hc
          by_cases hrec : collapseScan fuel ((x :: y :: ys).dropWhile isPyWs) = []
          · exfalso
            have hdw : (x :: y :: ys).dropWhile isPyWs = [] := by
              by_contra hd
              exact (collapseScan_ne_nil fuel hd) hrec
            have hall : ∀ u ∈ (x :: y :: ys), isPyWs u = true :=
              List.dropWhile_eq_nil_iff.mp hdw
            rcases hlast : (x :: y :: ys).getLast? with _ | c₀
            · simp at hlast
            · have h1 : isPyWs c₀ = false := hnt c₀ hlast
              have h2 : isPyWs c₀ = true :=
                hall c₀ (List.mem_of_getLast?_eq_some hlast)
              rw [h1] at h2
              exact Bool.false_ne_true h2
          · rw [getLast?_cons_ne _ hrec] at hc
            exact collapseScan_noTrail fuel _ hdw_len
              (noTrail_suffix hdw_suffix hnt) c hc
        · have hout : collapseScan (fuel + 1) (x :: y :: ys)
              = x :: collapseScan fuel (y :: ys) := by
            simp only [collapseScan, hx, if_true]
            rw [if_neg hy]
          rw [hout]
          exact hcopy
    · have hout : collapseScan (fuel + 1) (x :: xs) = x :: collapseScan fuel xs := by
        rcases xs with _ | ⟨y, ys⟩
        · simp only [collapseScan, hx, Bool.false_eq_true, if_false]
        · simp only [collapseScan, hx, Bool.false_eq_true, if_false]
      rw [hout]
      exact hcopy

/-! ## Normalizer pipeline lemmas -/

theorem mid_noTrail (tbl : MonthTable) (win : Bool) (l : List Char) :
    NoTrailWs (tidyUnits (formatIsoDates tbl win (joinSpace (pySplitWs l)))) := by
  have h0 := noTrail_joinSpace (pySplitWs l) (pySplitWs_tokens l)
  have h1 : NoTrailWs (formatIsoDates tbl win (joinSpace (pySplitWs l))) :=
    isoScan_noTrail tbl win _ false _ le_rfl h0
  unfold tidyUnits
  exact collapseScan_noTrail _ _ le_rfl
    (spacePunctScan_noTrail _ _ le_rfl
      (mpsScan_noTrail _ _ le_rfl
        (barrelsScan_noTrail _ false _ le_rfl
          (percentScan_noTrail _ none _ le_rfl h1))))

theorem finalDot_nil : finalDot [] = [] := by
  simp [finalDot]

theorem finalDot_of_ends {t : List Char}
    (h : t.getLast? = some '.' ∨ t.getLast? = some '!' ∨ t.getLast? = some '?') :
    finalDot t = t := by
  unfold finalDot
  rw [if_neg]
  rintro ⟨_, hb⟩
  simp [h] at hb

theorem finalDot_append {t : List Char} (hne : t ≠ [])
    (h : ¬(t.getLast? = some '.' ∨ t.getLast? = some '!' ∨ t.getLast? = some '?')) :
    finalDot t = t ++ ['.'] := by
  unfold finalDot
  rw [if_pos ⟨hne, by simp [h]⟩]

theorem sanitizeWith_empty (tbl : MonthTable) (win : Bool) (l : List Char) (n : Int)
    (h : (joinSpace (pySplitWs l)).isEmpty = true) :
    sanitizeWith tbl win l n = joinSpace (pySplitWs l) := by
  simp only [sanitizeWith, h, if_true]

theorem sanitizeWith_unfold (tbl : MonthTable) (win : Bool) (l : List Char) (n : Int)
    (h : (joinSpace (pySplitWs l)).isEmpty = false) :
    sanitizeWith tbl win l n
      = finalDot
        (if ((pySplitWs (tidyUnits (formatIsoDates tbl win
              (joinSpace (pySplitWs l))))).length : Int) > n then
          pyRstripChars [',', ';', ':']
            (joinSpace (pySlice n (pySplitWs (tidyUnits (formatIsoDates tbl win
              (joinSpace (pySplitWs l))))))) ++ ['.']
        else tidyUnits (formatIsoDates tbl win (joinSpace (pySplitWs l)))) := by
  simp only [sanitizeWith, h, Bool.false_eq_true, if_false]

/-! ## Claim theorems: text normalizer -/

/-- **C6, counterexample.** At `max_words = 0` the truncation of `"a b"`
yields the bare string `"."`, which `split()` counts as one word — more
than `0`: the word cap fails for non-positive `n`. -/
theorem word_cap_counterexample :
    _sanitize_one_sentence "a b" 0 = "." ∧
    ¬((wordCount (_sanitize_one_sentence "a b" 0) : Int) ≤ 0) := by
  constructor
  · rfl
  · decide

/-- **C6, amended.** For every string and every word cap `n ≥ 1`:
the result has at most `n` words; a nonempty result ends in `.`, `!` or
`?` (a period is appended exactly when it does not already); and when the
word count after the rewrite phase exceeds `n`, the result is the first
`n` words re-joined, with trailing `,;:` stripped and a period appended. -/
theorem word_cap_amended (s : String) (n : Int) (hn : 1 ≤ n) :
    ((wordCount (_sanitize_one_sentence s n) : Int) ≤ n) ∧
    (_sanitize_one_sentence s n ≠ "" →
      ((_sanitize_one_sentence s n).data.getLast? = some '.' ∨
       (_sanitize_one_sentence s n).data.getLast? = some '!' ∨
       (_sanitize_one_sentence s n).data.getLast? = some '?')) ∧
    (((pySplitWs (tidyUnits (formatIsoDates cLocaleMonths false
          (joinSpace (pySplitWs s.data))))).length : Int) > n →
      _sanitize_one_sentence s n
        = ⟨pyRstripChars [',', ';', ':']
            (joinSpace (pySlice n (pySplitWs (tidyUnits (formatIsoDates cLocaleMonths false
              (joinSpace (pySplitWs s.data))))))) ++ ['.']⟩) := by
  have hdot : isPyWs '.' = false := by decide
  by_cases hempty : (joinSpace (pySplitWs s.data)).isEmpty
  · have hres : _sanitize_one_sentence s n = ⟨joinSpace (pySplitWs s.data)⟩ := by
      unfold _sanitize_one_sentence
      rw [sanitizeWith_empty _ _ _ _ hempty]
    have hnil : joinSpace (pySplitWs s.data) = [] := List.isEmpty_iff.mp hempty
    rw [hres, hnil]
    have hwc : wordCount ⟨([] : List Char)⟩ = 0 := rfl
    refine ⟨by rw [hwc]; omega, ?_, ?_⟩
    · intro hne
      exact absurd rfl hne
    · intro himp
      exfalso
      have hmid : tidyUnits (formatIsoDates cLocaleMonths false []) = [] := rfl
      rw [hmid] at himp
      have hz : (pySplitWs ([] : List Char)).length = 0 := rfl
      rw [hz] at himp
      omega
  · have hempty' : (joinSpace (pySplitWs s.data)).isEmpty = false :=
      Bool.not_eq_true _ ▸ hempty
    have hres0 : _sanitize_one_sentence s n
        = ⟨finalDot
          (if ((pySplitWs (tidyUnits (formatIsoDates cLocaleMonths false
                (joinSpace (pySplitWs s.data))))).length : Int) > n then
            pyRstripChars [',', ';', ':']
              (joinSpace (pySlice n (pySplitWs (tidyUnits (formatIsoDates cLocaleMonths false
                (joinSpace (pySplitWs s.data))))))) ++ ['.']
          else tidyUnits (formatIsoDates cLocaleMonths false (joinSpace (pySplitWs s.data))))⟩ := by
      unfold _sanitize_one_sentence
      rw [sanitizeWith_unfold _ _ _ _ hempty']
    set mid := tidyUnits (formatIsoDates cLocaleMonths false (joinSpace (pySplitWs s.data)))
      with hmid_def
    have hnt_mid : NoTrailWs mid := mid_noTrail cLocaleMonths false s.data
    by_cases htrunc : ((pySplitWs mid).length : Int) > n
    · set trunc := pyRstripChars [',', ';', ':']
        (joinSpace (pySlice n (pySplitWs mid))) ++ ['.'] with htrunc_def
      have hlast : trunc.getLast? = some '.' := List.getLast?_concat _
      have hres : _sanitize_one_sentence s n = ⟨trunc⟩ := by
        rw [hres0, if_pos htrunc, finalDot_of_ends (Or.inl hlast)]
      have hslice : pySlice n (pySplitWs mid) = (pySplitWs mid).take n.toNat := by
        unfold pySlice
        rw [if_neg (by omega)]
      have hlen_take : ((pySplitWs mid).take n.toNat).length = n.toNat := by
        rw [List.length_take]
        omega
      have htake_ne : (pySplitWs mid).take n.toNat ≠ [] := by
        intro hcontra
        rw [hcontra] at hlen_take
        simp at hlen_take
        omega
      have htake_tok : ∀ w ∈ (pySplitWs mid).take n.toNat, IsToken w :=
        fun w hw => pySplitWs_tokens mid w (List.take_subset _ _ hw)
      have hcount : (pySplitWs trunc).length = n.toNat := by
        rw [htrunc_def, hslice]
        rw [trunc_wordCount _ htake_ne htake_tok]
        exact hlen_take
      refine ⟨?_, ?_, ?_⟩
      · rw [hres]
        show ((pySplitWs trunc).length : Int) ≤ n
        rw [hcount]
        omega
      · intro _
        rw [hres]
        exact Or.inl hlast
      · intro _
        rw [hres]
      -- end trunc case
    · have hwords_le : ((pySplitWs mid).length : Int) ≤ n := by omega
      by_cases hmidnil : mid = []
      · have hres : _sanitize_one_sentence s n = ⟨([] : List Char)⟩ := by
          rw [hres0, if_neg htrunc, hmidnil, finalDot_nil]
        rw [hres]
        refine ⟨?_, ?_, ?_⟩
        · show ((pySplitWs []).length : Int) ≤ n
          have hz : (pySplitWs ([] : List Char)).length = 0 := rfl
          rw [hz]
          omega
        · intro hne
          exact absurd rfl hne
        · intro himp
          exact absurd himp htrunc
      · by_cases hend : (mid.getLast? = some '.' ∨ mid.getLast? = some '!' ∨
            mid.getLast? = some '?')
        · have hres : _sanitize_one_sentence s n = ⟨mid⟩ := by
            rw [hres0, if_neg htrunc, finalDot_of_ends hend]
          rw [hres]
          exact ⟨hwords_le, fun _ => hend, fun himp => absurd himp htrunc⟩
        · have hres : _sanitize_one_sentence s n = ⟨mid ++ ['.']⟩ := by
            rw [hres0, if_neg htrunc, finalDot_append hmidnil hend]
          rw [hres]
          refine ⟨?_, ?_, ?_⟩
          · show ((pySplitWs (mid ++ ['.'])).length : Int) ≤ n
            rw [wordCount_concat_nonws hdot hmidnil hnt_mid]
            exact hwords_le
          · intro _
            exact Or.inl (List.getLast?_concat _)
          · intro himp
            exact absurd himp htrunc

/-- Witness for `word_cap_amended` at a concrete over-long input. -/
theorem word_cap_amended_witness :
    (wordCount (_sanitize_one_sentence "one two three four five" 3) : Int) ≤ 3 ∧
    _sanitize_one_sentence "one two three four five" 3 = "one two three." :=
  ⟨(word_cap_amended "one two three four five" 3 (by decide)).1, by rfl⟩

/-! ## Platform and locale lemmas for the normalizer -/

theorem isoScan_win_indep (tbl : MonthTable) (w1 w2 : Bool) :
    ∀ (fuel : Nat) (prevW : Bool) (l : List Char),
      isoScan tbl w1 fuel prevW l = isoScan tbl w2 fuel prevW l
  | 0, _, _ => rfl
  | _ + 1, _, [] => rfl
  | fuel + 1, prevW, x :: xs => by
    rcases hm : (if prevW then none else tryIso (x :: xs)) with _ | ⟨n, y, mo, d⟩
    · simp only [isoScan, hm]
      rw [isoScan_win_indep tbl w1 w2 fuel (isWordChar x) xs]
    · simp only [isoScan, hm]
      rw [isoScan_win_indep tbl w1 w2 fuel true ((x :: xs).drop n),
        strftimeRun_dayFormat, strftimeRun_dayFormat]

theorem sanitizeWith_win_indep (tbl : MonthTable) (w1 w2 : Bool) (l : List Char)
    (n : Int) : sanitizeWith tbl w1 l n = sanitizeWith tbl w2 l n := by
  have hiso : formatIsoDates tbl w1 (joinSpace (pySplitWs l))
      = formatIsoDates tbl w2 (joinSpace (pySplitWs l)) := by
    unfold formatIsoDates
    exact isoScan_win_indep tbl w1 w2 _ false _
  by_cases h : (joinSpace (pySplitWs l)).isEmpty
  · rw [sanitizeWith_empty _ _ _ _ h, sanitizeWith_empty _ _ _ _ h]
  · have h' : (joinSpace (pySplitWs l)).isEmpty = false := Bool.not_eq_true _ ▸ h
    rw [sanitizeWith_unfold _ _ _ _ h', sanitizeWith_unfold _ _ _ _ h', hiso]

/-- **C7, counterexample.** The month abbreviations come from
`datetime.strftime('%b')`, which consults the process `LC_TIME` locale: the
same input normalizes differently under a locale whose September
abbreviation differs from the C locale's, so the output is not independent
of ambient state. -/
theorem locale_dependence_counterexample :
    sanitizeWith otherLocaleMonths false "Earnings due 2025-09-06 for X".data 28
      ≠ sanitizeWith cLocaleMonths false "Earnings due 2025-09-06 for X".data 28 := by
  decide

/-- **C7, amended.** With the locale table fixed (the repository never calls
`setlocale`, so CPython's default C locale applies and `%b` yields the
English `Jan … Dec` table), `_sanitize_one_sentence` and
`_looks_like_sentence` are pure functions of their inputs, and the output
does not depend on the platform (`%-d` and `%#d` both render an unpadded
day); in particular the ISO-date rewrite example yields `"Sep 6, 2025"`. -/
theorem normalize_pure_under_fixed_locale :
    (∀ (tbl : MonthTable) (w1 w2 : Bool) (l : List Char) (n : Int),
      sanitizeWith tbl w1 l n = sanitizeWith tbl w2 l n) ∧
    (_sanitize_one_sentence "Earnings due 2025-09-06 for X" 28
      = "Earnings due Sep 6, 2025 for X.") ∧
    ((_sanitize_one_sentence "Earnings due 2025-09-06 for X" 28).data
      = "Earnings due ".data ++ "Sep 6, 2025".data ++ " for X.".data) ∧
    _looks_like_sentence "Fed holds rates steady at 5.25%." = true := by
  refine ⟨sanitizeWith_win_indep, by rfl, by rfl, by rfl⟩

/-! ## URL lemmas -/

theorem rstripWs_append (a b : List Char) :
    rstripWs (a ++ b) = if rstripWs b = [] then rstripWs a else a ++ rstripWs b := by
  unfold rstripWs
  rw [List.reverse_append, List.dropWhile_append]
  by_cases hb : (b.reverse.dropWhile isPyWs).isEmpty
  · rw [if_pos hb, if_pos]
    rw [List.isEmpty_iff] at hb
    rw [hb]
    rfl
  · rw [if_neg hb, if_neg]
    · simp
    · rw [List.isEmpty_iff] at hb
      simpa [List.reverse_eq_nil_iff] using hb

theorem head?_dropWhile (p : Char → Bool) :
    ∀ (l : List Char) (c : Char), (l.dropWhile p).head? = some c → p c = false
  | [], c, h => by simp at h
  | x :: xs, c, h => by
    rw [List.dropWhile_cons] at h
    by_cases hx : p x
    · rw [if_pos hx] at h
      exact head?_dropWhile p xs c h
    · rw [if_neg hx] at h
      simp only [List.head?_cons] at h
      injection h with h
      subst h
      exact Bool.not_eq_true _ ▸ hx

/-- **C3.** Canonicalization is invariant under the four spec differences.
Two raw URLs whose parses agree on scheme (`urlsplit` lower-cases it, so
letter-case differences vanish), netloc, path up to trailing slashes, and
query up to denylisted tracking pairs — fragments arbitrary — canonicalize
identically; with the spec's concrete instances. -/
theorem canonicalize_invariance :
    (∀ (u1 u2 : String) (p1 p2 : SplitResult),
      urlsplitE (pyStripL u1.data) = .ok p1 →
      urlsplitE (pyStripL u2.data) = .ok p2 →
      p1.scheme = p2.scheme →
      p1.netloc = p2.netloc →
      rstripSlash p1.path = rstripSlash p2.path →
      filterTracking (parse_qsl p1.query) = filterTracking (parse_qsl p2.query) →
      _canonicalize u1 = _canonicalize u2) ∧
    _canonicalize "https://x.com/a?utm_source=foo&b=1" = _canonicalize "https://x.com/a?b=1" ∧
    _canonicalize "https://x.com/a/" = _canonicalize "https://x.com/a#frag" ∧
    _canonicalize "HTTPS://x.com/a" = _canonicalize "https://x.com/a" := by
  refine ⟨?_, by rfl, by rfl, by rfl⟩
  intro u1 u2 p1 p2 h1 h2 hs hn hp hq
  simp only [_canonicalize, canonicalizeL, h1, h2]
  simp only [hs, hn, hp, hq]

/-- Witness for `canonicalize_invariance`: the tracking-parameter instance
derived through the universal statement. -/
theorem canonicalize_invariance_witness :
    _canonicalize "https://x.com/a?utm_source=foo&b=1" = _canonicalize "https://x.com/a?b=1" :=
  canonicalize_invariance.1 "https://x.com/a?utm_source=foo&b=1" "https://x.com/a?b=1"
    ⟨"https".data, "x.com".data, "/a".data, "utm_source=foo&b=1".data, []⟩
    ⟨"https".data, "x.com".data, "/a".data, "b=1".data, []⟩
    (by rfl) (by rfl) rfl rfl rfl (by decide)

/-- **C9, counterexample.** `u.path.rstrip("/")` strips every trailing
slash, not exactly one: a path ending in two slashes loses both. -/
theorem rstrip_slash_counterexample :
    _canonicalize "https://x.com/a//" = "https://x.com/a" ∧
    _canonicalize "https://x.com/a//" ≠ "https://x.com/a/" := by
  exact ⟨by rfl, by decide⟩

/-- **C9, amended.** The canonicalizer strips all trailing slashes from the
parsed path: the path splits as the stripped result followed by a block of
slashes, and the result never ends in `/`; the root path `/` reduces to the
empty path. -/
theorem rstrip_slash_amended :
    (∀ l : List Char, (∃ k, l = rstripSlash l ++ List.replicate k '/') ∧
      (rstripSlash l).getLast? ≠ some '/') ∧
    rstripSlash "/".data = [] ∧
    _canonicalize "https://x.com/a//" = "https://x.com/a" ∧
    _canonicalize "https://x.com/" = "https://x.com" := by
  refine ⟨?_, by rfl, by rfl, by rfl⟩
  intro l
  constructor
  · refine ⟨(l.reverse.takeWhile (fun c => c = '/')).length, ?_⟩
    have hsplit : l.reverse.takeWhile (fun c => c = '/')
        ++ l.reverse.dropWhile (fun c => c = '/') = l.reverse :=
      List.takeWhile_append_dropWhile _ _
    have hrep : l.reverse.takeWhile (fun c => c = '/')
        = List.replicate (l.reverse.takeWhile (fun c => c = '/')).length '/' := by
      apply List.eq_replicate_of_mem
      intro b hb
      have := List.mem_takeWhile_imp hb
      simpa using this
    calc l = l.reverse.reverse := (List.reverse_reverse l).symm
    _ = (l.reverse.takeWhile (fun c => c = '/')
          ++ l.reverse.dropWhile (fun c => c = '/')).reverse := by rw [hsplit]
    _ = rstripSlash l ++ (l.reverse.takeWhile (fun c => c = '/')).reverse := by
          rw [List.reverse_append]
          rfl
    _ = rstripSlash l
          ++ List.replicate (l.reverse.takeWhile (fun c => c = '/')).length '/' := by
          conv_lhs => rw [hrep, List.reverse_replicate]
  · intro hc
    unfold rstripSlash at hc
    rw [List.getLast?_reverse] at hc
    have := head?_dropWhile (fun c => c = '/') l.reverse '/' hc
    simp at this

theorem append_colon_shape (s a q : List Char) :
    ∃ t, (s ++ ':' :: a) ++ '?' :: q = s ++ ':' :: t :=
  ⟨a ++ '?' :: q, by simp⟩

/-- Shape of `urlunsplit` with a nonempty scheme and no fragment: the result
is `scheme:` followed by a tail. -/
theorem urlunsplitL_scheme_shape (s n pa q : List Char) (hs : s ≠ []) :
    ∃ t, urlunsplitL s n pa q [] = s ++ ':' :: t := by
  simp only [urlunsplitL]
  rw [if_neg (by simp : ¬(([] : List Char) ≠ []))]
  by_cases hq : q ≠ []
  · rw [if_pos hq, if_pos hs]
    exact append_colon_shape s _ q
  · rw [if_neg hq, if_pos hs]
    exact ⟨_, rfl⟩

theorem pyStripL_scheme_prefix {a : List Char} (r : List Char)
    (hl : lstripWs (a ++ r) = a ++ r) (hr : rstripWs a = a) :
    pyStripL (a ++ r) = a ++ rstripWs r := by
  unfold pyStripL
  rw [hl, rstripWs_append]
  by_cases h : rstripWs r = []
  · rw [if_pos h, h, List.append_nil, hr]
  · rw [if_neg h]

theorem urlsplitE_http (x : List Char) {nr : List Char × List Char}
    (hok : parseNetloc ('/' :: '/' :: removeUnsafe x) = .ok nr) :
    urlsplitE ("http://".data ++ x)
      = .ok ⟨"http".data, nr.1, (splitQuery (splitFragment nr.2).1).1,
          (splitQuery (splitFragment nr.2).1).2, (splitFragment nr.2).2⟩ := by
  simp only [urlsplitE]
  rw [show lstripControl ("http://".data ++ x) = "http://".data ++ x from rfl]
  rw [show removeUnsafe ("http://".data ++ x) = "http://".data ++ removeUnsafe x from rfl]
  rw [show parseScheme ("http://".data ++ removeUnsafe x)
      = ("http".data, '/' :: '/' :: removeUnsafe x) from rfl]
  dsimp only
  rw [hok]

theorem urlsplitE_https (x : List Char) {nr : List Char × List Char}
    (hok : parseNetloc ('/' :: '/' :: removeUnsafe x) = .ok nr) :
    urlsplitE ("https://".data ++ x)
      = .ok ⟨"https".data, nr.1, (splitQuery (splitFragment nr.2).1).1,
          (splitQuery (splitFragment nr.2).1).2, (splitFragment nr.2).2⟩ := by
  simp only [urlsplitE]
  rw [show lstripControl ("https://".data ++ x) = "https://".data ++ x from rfl]
  rw [show removeUnsafe ("https://".data ++ x) = "https://".data ++ removeUnsafe x from rfl]
  rw [show parseScheme ("https://".data ++ removeUnsafe x)
      = ("https".data, '/' :: '/' :: removeUnsafe x) from rfl]
  dsimp only
  rw [hok]

/-- **C10.** The canonicalizer forces the scheme of every successfully
parsed `http`/`https` URL to `https`: the output starts with `https:`; the
`http://` and `https://` spellings of one URL canonicalize identically
whenever the netloc parses (no unbalanced bracket), and therefore share
their cache key — strictly more identification than scheme-case folding. -/
theorem scheme_forced_https :
    (∀ (u : String) (p : SplitResult), urlsplitE (pyStripL u.data) = .ok p →
      (p.scheme = "http".data ∨ p.scheme = "https".data) →
      ∃ t, (_canonicalize u).data = "https".data ++ ':' :: t) ∧
    (∀ (r : List Char) (nr : List Char × List Char),
      parseNetloc ('/' :: '/' :: removeUnsafe (rstripWs r)) = .ok nr →
      canonicalizeL ("http://".data ++ r) = canonicalizeL ("https://".data ++ r)) ∧
    (_canonicalize "http://X.com/a" = _canonicalize "https://X.com/a" ∧
      url_key "http://X.com/a" = url_key "https://X.com/a") ∧
    (∀ u1 u2 : String, _canonicalize u1 = _canonicalize u2 →
      url_key u1 = url_key u2) := by
  refine ⟨?_, ?_, ⟨by rfl, by rfl⟩, fun u1 u2 h => h⟩
  · intro u p h hs
    simp only [_canonicalize, canonicalizeL, h]
    have hforce : forceHttps p.scheme = "https".data := by
      rcases hs with hs | hs <;> rw [hs] <;> rfl
    rw [hforce]
    exact urlunsplitL_scheme_shape _ _ _ _ (by decide)
  · intro r nr hok
    have hstrip1 : pyStripL ("http://".data ++ r) = "http://".data ++ rstripWs r :=
      pyStripL_scheme_prefix r rfl rfl
    have hstrip2 : pyStripL ("https://".data ++ r) = "https://".data ++ rstripWs r :=
      pyStripL_scheme_prefix r rfl rfl
    simp only [canonicalizeL, hstrip1, hstrip2,
      urlsplitE_http (rstripWs r) hok, urlsplitE_https (rstripWs r) hok]
    rfl

/-- Witness for `scheme_forced_https`: the universal conjuncts instantiated
at `http://X.com/a`. -/
theorem scheme_forced_https_witness :
    (∃ t, (_canonicalize "http://X.com/a").data = "https".data ++ ':' :: t) ∧
    canonicalizeL ("http://".data ++ "X.com/a".data)
      = canonicalizeL ("https://".data ++ "X.com/a".data) := by
  constructor
  · exact scheme_forced_https.1 "http://X.com/a"
      ⟨"http".data, "X.com".data, "/a".data, [], []⟩ (by rfl) (Or.inl rfl)
  · exact scheme_forced_https.2.1 "X.com/a".data ("X.com".data, "/a".data) (by rfl)

/-! ## Character lemmas for the query codec -/

theorem toNat_ofNat_below (n : Nat) (h : n < 55296) : (Char.ofNat n).toNat = n := by
  unfold Char.ofNat
  rw [dif_pos (Or.inl h : n.isValidChar)]
  rfl

theorem toLower_cases (c : Char) :
    Char.toLower c = c ∨
      (65 ≤ c.toNat ∧ c.toNat ≤ 90 ∧ (Char.toLower c).toNat = c.toNat + 32) := by
  unfold Char.toLower
  by_cases h : c.toNat ≥ 65 ∧ c.toNat ≤ 90
  · right
    rw [if_pos h]
    exact ⟨h.1, h.2, toNat_ofNat_below _ (by omega)⟩
  · left
    rw [if_neg h]

theorem toLower_range {c : Char} (h : 33 ≤ c.toNat ∧ c.toNat ≤ 126) :
    33 ≤ (Char.toLower c).toNat ∧ (Char.toLower c).toNat ≤ 126 := by
  rcases toLower_cases c with hc | ⟨h1, h2, h3⟩
  · rw [hc]
    exact h
  · omega

theorem toLower_eq_self_of_not_upper {c : Char}
    (h : ¬(65 ≤ c.toNat ∧ c.toNat ≤ 90)) : Char.toLower c = c := by
  unfold Char.toLower
  rw [if_neg h]

theorem toLower_toLower (c : Char) :
    Char.toLower (Char.toLower c) = Char.toLower c := by
  rcases toLower_cases c with hc | ⟨h1, h2, h3⟩
  · rw [hc, hc]
  · exact toLower_eq_self_of_not_upper (by omega)

theorem toLower_eq_low {c d : Char} (h : Char.toLower c = d)
    (hd : d.toNat < 97 ∨ 122 < d.toNat) : c = d := by
  rcases toLower_cases c with hc | ⟨h1, h2, h3⟩
  · rw [← h, hc]
  · rw [h] at h3
    omega

theorem isDigit_range {c : Char} (h : c.isDigit = true) :
    48 ≤ c.toNat ∧ c.toNat ≤ 57 := by
  simp only [Char.isDigit, Bool.and_eq_true, decide_eq_true_eq] at h
  exact ⟨h.1, h.2⟩

theorem isUpper_range {c : Char} (h : c.isUpper = true) :
    65 ≤ c.toNat ∧ c.toNat ≤ 90 := by
  simp only [Char.isUpper, Bool.and_eq_true, decide_eq_true_eq] at h
  exact ⟨h.1, h.2⟩

theorem isLower_range {c : Char} (h : c.isLower = true) :
    97 ≤ c.toNat ∧ c.toNat ≤ 122 := by
  simp only [Char.isLower, Bool.and_eq_true, decide_eq_true_eq] at h
  exact ⟨h.1, h.2⟩

theorem isAlwaysSafe_range {c : Char} (h : isAlwaysSafe c = true) :
    33 ≤ c.toNat ∧ c.toNat ≤ 126 := by
  simp only [isAlwaysSafe, Bool.or_eq_true, decide_eq_true_eq] at h
  rcases h with ⟨⟨⟨ha | h_⟩ | hd⟩ | hd⟩ | hd
  · simp only [Char.isAlphanum, Char.isAlpha, Bool.or_eq_true] at ha
    rcases ha with (hu | hl) | hdg
    · have := isUpper_range hu
      omega
    · have := isLower_range hl
      omega
    · have := isDigit_range hdg
      omega
  · subst h_
    decide
  · subst hd
    decide
  · subst hd
    decide
  · subst hd
    decide

theorem safe_ne {c t : Char} (h : isAlwaysSafe c = true)
    (ht : isAlwaysSafe t = false) : c ≠ t := by
  intro he
  rw [he, ht] at h
  exact Bool.false_ne_true h

theorem hexVal_hexDigitUp {n : Nat} (h : n < 16) :
    hexVal? (hexDigitUp n) = some n := by
  interval_cases n <;> decide

theorem hexDigitUp_range {n : Nat} (h : n < 16) :
    33 ≤ (hexDigitUp n).toNat ∧ (hexDigitUp n).toNat ≤ 126 := by
  interval_cases n <;> decide

theorem quotePlusChar_mem {c' c : Char} (h : c' ∈ quotePlusChar c) :
    (isAlwaysSafe c' = true ∧ c' = c) ∨ c' = '+' ∨ c' = '%' ∨
      ∃ m, m < 16 ∧ c' = hexDigitUp m := by
  unfold quotePlusChar at h
  split_ifs at h with h1 h2
  · simp only [List.mem_singleton] at h
    subst h
    exact Or.inl ⟨h1, rfl⟩
  · simp only [List.mem_singleton] at h
    exact Or.inr (Or.inl h)
  · rcases h with _ | ⟨_, (_ | ⟨_, (_ | ⟨_, h⟩)⟩)⟩
    · exact Or.inr (Or.inr (Or.inl rfl))
    · exact Or.inr (Or.inr (Or.inr ⟨_, by omega, rfl⟩))
    · exact Or.inr (Or.inr (Or.inr ⟨_, by omega, rfl⟩))
    · exact absurd h (by intro hc; cases hc)

theorem quotePlus_chars {s : List Char} {c' : Char} (h : c' ∈ quotePlus s) :
    isAlwaysSafe c' = true ∨ c' = '+' ∨ c' = '%' ∨
      ∃ m, m < 16 ∧ c' = hexDigitUp m := by
  unfold quotePlus at h
  rw [List.mem_flatten] at h
  obtain ⟨w, hw, hc'⟩ := h
  rw [List.mem_map] at hw
  obtain ⟨c, _, rfl⟩ := hw
  rcases quotePlusChar_mem hc' with ⟨hsafe, _⟩ | h' | h' | h'
  · exact Or.inl hsafe
  · exact Or.inr (Or.inl h')
  · exact Or.inr (Or.inr (Or.inl h'))
  · exact Or.inr (Or.inr (Or.inr h'))

theorem not_mem_quotePlus {t : Char} (s : List Char)
    (h1 : isAlwaysSafe t = false) (h2 : t ≠ '+') (h3 : t ≠ '%')
    (h4 : ∀ m, m < 16 → hexDigitUp m ≠ t) : t ∉ quotePlus s := by
  intro hmem
  rcases quotePlus_chars hmem with hs | hp | hp | ⟨m, hm, hp⟩
  · rw [h1] at hs
    exact Bool.false_ne_true hs
  · exact h2 hp
  · exact h3 hp
  · exact h4 m hm hp.symm

theorem quotePlus_range {s : List Char} {c' : Char} (h : c' ∈ quotePlus s) :
    33 ≤ c'.toNat ∧ c'.toNat ≤ 126 := by
  rcases quotePlus_chars h with hs | hp | hp | ⟨m, hm, hp⟩
  · exact isAlwaysSafe_range hs
  · subst hp
    decide
  · subst hp
    decide
  · subst hp
    exact hexDigitUp_range hm

/-! ## Round trip of the query codec: `parse_qsl (urlencodeL q) = q` -/

theorem hexDigitUp_ne {t : Char} (hne : ∀ m, m < 16 → hexDigitUp m ≠ t) :
    ∀ m, m < 16 → hexDigitUp m ≠ t := hne

theorem amp_not_mem_quotePlus (s : List Char) : '&' ∉ quotePlus s := by
  refine not_mem_quotePlus s (by decide) (by decide) (by decide) ?_
  intro m hm
  interval_cases m <;> decide

theorem eq_not_mem_quotePlus (s : List Char) : '=' ∉ quotePlus s := by
  refine not_mem_quotePlus s (by decide) (by decide) (by decide) ?_
  intro m hm
  interval_cases m <;> decide

theorem unquoteL_cons_ne {c : Char} (h : c ≠ '%') (l : List Char) :
    unquoteL (c :: l) = c :: unquoteL l := by
  rw [unquoteL.eq_def]
  split
  · next h1 h2 rest heq =>
    injection heq with hc _
    exact absurd hc h
  · next c' rest heq =>
    injection heq with hc hrest
    rw [hc, hrest]
  · next heq =>
    exact absurd heq (by simp)

theorem takeWhile_append_all {p : Char → Bool} {a : List Char}
    (h : ∀ c ∈ a, p c = true) (b : List Char) :
    (a ++ b).takeWhile p = a ++ b.takeWhile p := by
  induction a with
  | nil => rfl
  | cons x xs ih =>
    rw [List.cons_append, List.takeWhile_cons, h x (by simp),
      ih (fun c hc => h c (by simp [hc])), List.cons_append]
    rfl

theorem dropWhile_append_all {p : Char → Bool} {a : List Char}
    (h : ∀ c ∈ a, p c = true) (b : List Char) :
    (a ++ b).dropWhile p = b.dropWhile p := by
  induction a with
  | nil => rfl
  | cons x xs ih =>
    rw [List.cons_append, List.dropWhile_cons, h x (by simp),
      if_pos rfl, ih (fun c hc => h c (by simp [hc]))]

theorem plusToSpace_append (a b : List Char) :
    plusToSpace (a ++ b) = plusToSpace a ++ plusToSpace b := by
  simp [plusToSpace]

theorem plusToSpace_cons_ne {c : Char} (h : c ≠ '+') (l : List Char) :
    plusToSpace (c :: l) = c :: plusToSpace l := by
  simp [plusToSpace, if_neg h]

theorem decode_quotePlusChar {c : Char} (hc : c.toNat < 256) (rest : List Char) :
    unquoteL (plusToSpace (quotePlusChar c ++ rest))
      = c :: unquoteL (plusToSpace rest) := by
  unfold quotePlusChar
  split_ifs with h1 h2
  · have hplus : c ≠ '+' := safe_ne h1 (by decide)
    have hpct : c ≠ '%' := safe_ne h1 (by decide)
    rw [List.singleton_append, plusToSpace_cons_ne hplus, unquoteL_cons_ne hpct]
  · subst h2
    rw [List.singleton_append,
      show plusToSpace ('+' :: rest) = ' ' :: plusToSpace rest from by
        simp [plusToSpace],
      unquoteL_cons_ne (by decide)]
  · have hd1 : c.toNat % 256 / 16 < 16 := by omega
    have hd2 : c.toNat % 16 < 16 := by omega
    have hne1 : hexDigitUp (c.toNat % 256 / 16) ≠ '+' := by
      have : ∀ m, m < 16 → hexDigitUp m ≠ '+' := by
        intro m hm
        interval_cases m <;> decide
      exact this _ hd1
    have hne2 : hexDigitUp (c.toNat % 16) ≠ '+' := by
      have : ∀ m, m < 16 → hexDigitUp m ≠ '+' := by
        intro m hm
        interval_cases m <;> decide
      exact this _ hd2
    rw [List.cons_append, List.cons_append, List.cons_append,
      plusToSpace_cons_ne (by decide), plusToSpace_cons_ne hne1,
      plusToSpace_cons_ne hne2]
    show unquoteL ('%' :: hexDigitUp (c.toNat % 256 / 16)
        :: hexDigitUp (c.toNat % 16) :: plusToSpace (List.nil ++ rest)) = _
    rw [unquoteL, hexVal_hexDigitUp hd1, hexVal_hexDigitUp hd2]
    have hval : 16 * (c.toNat % 256 / 16) + c.toNat % 16 = c.toNat := by omega
    show Char.ofNat (16 * (c.toNat % 256 / 16) + c.toNat % 16)
      :: unquoteL (plusToSpace (List.nil ++ rest)) = _
    rw [hval, Char.ofNat_toNat, List.nil_append]

theorem quotePlus_cons (c : Char) (s : List Char) :
    quotePlus (c :: s) = quotePlusChar c ++ quotePlus s := by
  simp [quotePlus]

theorem decode_quotePlus_tail {s : List Char} (hs : ∀ c ∈ s, c.toNat < 256)
    (rest : List Char) :
    unquoteL (plusToSpace (quotePlus s ++ rest))
      = s ++ unquoteL (plusToSpace rest) := by
  induction s with
  | nil => rfl
  | cons c cs ih =>
    rw [quotePlus_cons, List.append_assoc,
      decode_quotePlusChar (hs c (by simp)) (quotePlus cs ++ rest),
      ih (fun x hx => hs x (by simp [hx])), List.cons_append]

theorem decode_quotePlus {s : List Char} (hs : ∀ c ∈ s, c.toNat < 256) :
    unquoteL (plusToSpace (quotePlus s)) = s := by
  have h2 := decode_quotePlus_tail hs []
  rw [List.append_nil] at h2
  rw [h2, show unquoteL (plusToSpace []) = [] from rfl, List.append_nil]

theorem splitChar_no_sep {sep : Char} {w : List Char} (hw : sep ∉ w)
    (acc : List Char) : splitChar sep w acc = [acc.reverse ++ w] := by
  induction w generalizing acc with
  | nil => simp [splitChar]
  | cons c cs ih =>
    have hc : c ≠ sep := by
      intro he
      exact hw (by simp [he])
    rw [splitChar, if_neg hc, ih (fun hm => hw (by simp [hm]))]
    simp

theorem splitChar_word {sep : Char} {w : List Char} (hw : sep ∉ w)
    (rest acc : List Char) :
    splitChar sep (w ++ sep :: rest) acc
      = (acc.reverse ++ w) :: splitChar sep rest [] := by
  induction w generalizing acc with
  | nil =>
    rw [List.nil_append, splitChar, if_pos rfl]
    simp
  | cons c cs ih =>
    have hc : c ≠ sep := by
      intro he
      exact hw (by simp [he])
    rw [List.cons_append, splitChar, if_neg hc, ih (fun hm => hw (by simp [hm]))]
    simp

theorem splitChar_joinAmp {fs : List (List Char)} (hfs : ∀ f ∈ fs, '&' ∉ f)
    (hne : fs ≠ []) : splitChar '&' (joinAmp fs) [] = fs := by
  induction fs with
  | nil => exact absurd rfl hne
  | cons w ws ih =>
    cases ws with
    | nil =>
      rw [joinAmp, splitChar_no_sep (hfs w (by simp)) []]
      simp
    | cons w2 ws2 =>
      rw [joinAmp, splitChar_word (hfs w (by simp)) _ [],
        ih (fun f hf => hfs f (by simp [hf])) (List.cons_ne_nil _ _)]
      · simp
      · exact List.cons_ne_nil _ _

theorem joinAmp_encoded_ne_nil (k v : List Char) (ws : List (List Char)) :
    joinAmp ((quotePlus k ++ '=' :: quotePlus v) :: ws) ≠ [] := by
  cases ws with
  | nil =>
    rw [joinAmp]
    intro h
    exact absurd (congrArg List.length h) (by simp)
  | cons w2 ws2 =>
    rw [joinAmp]
    · intro h
      exact absurd (congrArg List.length h) (by simp)
    · exact List.cons_ne_nil _ _

theorem parseQslField_encoded {k v : List Char}
    (hk : ∀ c ∈ k, c.toNat < 256) (hv : ∀ c ∈ v, c.toNat < 256) :
    parseQslField (quotePlus k ++ '=' :: quotePlus v) = some (k, v) := by
  have hempty : (quotePlus k ++ '=' :: quotePlus v).isEmpty = false := by
    rcases hq : quotePlus k with _ | ⟨c, cs⟩ <;> simp [hq]
  have hkeq : ∀ c ∈ quotePlus k, (decide ¬c = '=') = true := by
    intro c hc
    simp only [decide_not, Bool.not_eq_true', decide_eq_false_iff_not]
    intro he
    exact eq_not_mem_quotePlus k (he ▸ hc)
  have hdrop : (quotePlus k ++ '=' :: quotePlus v).dropWhile
      (fun c => decide ¬c = '=') = '=' :: quotePlus v := by
    rw [dropWhile_append_all hkeq, List.dropWhile_cons]
    simp
  have htake : (quotePlus k ++ '=' :: quotePlus v).takeWhile
      (fun c => decide ¬c = '=') = quotePlus k := by
    rw [takeWhile_append_all hkeq, List.takeWhile_cons]
    simp
  unfold parseQslField
  rw [hempty]
  simp only [Bool.false_eq_true, if_false, hdrop, htake]
  rw [decode_quotePlus hk, decode_quotePlus hv]

theorem parse_qsl_urlencode {q : List (List Char × List Char)}
    (hb : ∀ kv ∈ q, (∀ c ∈ kv.1, c.toNat < 256) ∧ (∀ c ∈ kv.2, c.toNat < 256)) :
    parse_qsl (urlencodeL q) = q := by
  cases q with
  | nil => rfl
  | cons kv q' =>
    unfold urlencodeL parse_qsl
    rw [List.map_cons]
    have hnefield := joinAmp_encoded_ne_nil kv.1 kv.2
      (q'.map (fun kv => quotePlus kv.1 ++ '=' :: quotePlus kv.2))
    rw [if_neg (by simpa [List.isEmpty_iff] using hnefield)]
    have hff : ∀ f ∈ (quotePlus kv.1 ++ '=' :: quotePlus kv.2)
        :: q'.map (fun kv => quotePlus kv.1 ++ '=' :: quotePlus kv.2), '&' ∉ f := by
      intro f hf
      rcases List.mem_cons.mp hf with rfl | hf'
      · intro hm
        rcases List.mem_append.mp hm with h1 | h1
        · exact amp_not_mem_quotePlus _ h1
        · rcases List.mem_cons.mp h1 with h2 | h2
          · exact absurd h2 (by decide)
          · exact amp_not_mem_quotePlus _ h2
      · obtain ⟨kv2, _, rfl⟩ := List.mem_map.mp hf'
        intro hm
        rcases List.mem_append.mp hm with h1 | h1
        · exact amp_not_mem_quotePlus _ h1
        · rcases List.mem_cons.mp h1 with h2 | h2
          · exact absurd h2 (by decide)
          · exact amp_not_mem_quotePlus _ h2
    rw [← List.map_cons (fun kv => quotePlus kv.1 ++ '=' :: quotePlus kv.2) kv q',
      splitChar_joinAmp (by simpa using hff) (by simp)]
    rw [List.filterMap_map]
    have : ∀ kv' ∈ kv :: q',
        (parseQslField (quotePlus kv'.1 ++ '=' :: quotePlus kv'.2)) = some kv' := by
      intro kv' hkv'
      rw [parseQslField_encoded (hb kv' hkv').1 (hb kv' hkv').2]
    calc (kv :: q').filterMap
          (fun x => parseQslField (quotePlus x.1 ++ '=' :: quotePlus x.2))
        = (kv :: q').filterMap some := List.filterMap_congr (by
          intro kv' hkv'
          exact this kv' hkv')
      _ = kv :: q' := List.filterMap_some _

/-! ## Reparse lemmas: `urlsplit` recovers the components it assembled -/

theorem dropWhile_eq_nil_of_all {p : Char → Bool} {a : List Char}
    (h : ∀ c ∈ a, p c = true) : a.dropWhile p = [] := by
  have h2 := dropWhile_append_all h ([] : List Char)
  simpa using h2

theorem takeWhile_eq_self_of_all {p : Char → Bool} {a : List Char}
    (h : ∀ c ∈ a, p c = true) : a.takeWhile p = a := by
  have h2 := takeWhile_append_all h ([] : List Char)
  simpa using h2

theorem dropWhile_eq_self_of_head {p : Char → Bool} {a : List Char}
    (h : ∀ c ∈ a, p c = false) : a.dropWhile p = a := by
  cases a with
  | nil => rfl
  | cons x xs =>
    rw [List.dropWhile_cons, h x (by simp)]
    rfl

theorem takeWhile_append_of_mem {p : Char → Bool} {a : List Char}
    (h : ∃ c ∈ a, p c = false) (b : List Char) :
    (a ++ b).takeWhile p = a.takeWhile p := by
  induction a with
  | nil =>
    obtain ⟨c, hc, _⟩ := h
    exact absurd hc (by simp)
  | cons x xs ih =>
    rw [List.cons_append, List.takeWhile_cons, List.takeWhile_cons]
    cases hx : p x with
    | false => rfl
    | true =>
      obtain ⟨c, hc, hpc⟩ := h
      rcases List.mem_cons.mp hc with rfl | hc'
      · rw [hx] at hpc
        exact absurd hpc (by simp)
      · rw [ih ⟨c, hc', hpc⟩]

theorem dropWhile_append_of_mem {p : Char → Bool} {a : List Char}
    (h : ∃ c ∈ a, p c = false) (b : List Char) :
    (a ++ b).dropWhile p = a.dropWhile p ++ b := by
  induction a with
  | nil =>
    obtain ⟨c, hc, _⟩ := h
    exact absurd hc (by simp)
  | cons x xs ih =>
    rw [List.cons_append, List.dropWhile_cons, List.dropWhile_cons]
    cases hx : p x with
    | false => rfl
    | true =>
      obtain ⟨c, hc, hpc⟩ := h
      rcases List.mem_cons.mp hc with rfl | hc'
      · rw [hx] at hpc
        exact absurd hpc (by simp)
      · exact ih ⟨c, hc', hpc⟩

theorem dropWhile_ne_nil_of_mem {p : Char → Bool} {a : List Char} {c : Char}
    (hc : c ∈ a) (hp : p c = false) : a.dropWhile p ≠ [] := by
  intro hnil
  have h2 : a.takeWhile p = a := by
    have := List.takeWhile_append_dropWhile (p := p) (l := a)
    rw [hnil, List.append_nil] at this
    exact this
  have h3 : p c = true := List.mem_takeWhile_imp (h2.symm ▸ hc)
  rw [hp] at h3
  exact Bool.false_ne_true h3

theorem toNat_ne_imp_ne {c d : Char} (h : c.toNat ≠ d.toNat) : c ≠ d := by
  intro he
  exact h (congrArg Char.toNat he)

theorem lstripControl_eq_self {l : List Char} (h : ∀ c ∈ l, 32 < c.toNat) :
    lstripControl l = l := by
  unfold lstripControl
  apply dropWhile_eq_self_of_head
  intro c hc
  have := h c hc
  simp only [decide_eq_false_iff_not]
  omega

theorem removeUnsafe_eq_self {l : List Char} (h : ∀ c ∈ l, 32 < c.toNat) :
    removeUnsafe l = l := by
  unfold removeUnsafe
  apply List.filter_eq_self.mpr
  intro c hc
  have hgt := h c hc
  have h1 : c ≠ '\t' := toNat_ne_imp_ne (by intro he; rw [he] at hgt; exact absurd hgt (by decide))
  have h2 : c ≠ '\r' := toNat_ne_imp_ne (by intro he; rw [he] at hgt; exact absurd hgt (by decide))
  have h3 : c ≠ '\n' := toNat_ne_imp_ne (by intro he; rw [he] at hgt; exact absurd hgt (by decide))
  simp [h1, h2, h3]

theorem isPyWs_false_of_visible {c : Char} (h : 32 < c.toNat) :
    isPyWs c = false := by
  simp only [isPyWs, Bool.or_eq_false_iff, Bool.and_eq_false_iff]
  constructor
  · right
    simpa using by omega
  · right
    simpa using by omega

theorem pyStripL_eq_self {l : List Char} (h : ∀ c ∈ l, 32 < c.toNat) :
    pyStripL l = l := by
  unfold pyStripL lstripWs rstripWs
  rw [dropWhile_eq_self_of_head (fun c hc => isPyWs_false_of_visible (h c hc)),
    dropWhile_eq_self_of_head
      (fun c hc => isPyWs_false_of_visible (h c (List.mem_reverse.mp hc))),
    List.reverse_reverse]

theorem goodSchemeName_head_bad {c : Char} (t : List Char)
    (h : isAsciiAlpha c = false) : goodSchemeName (c :: t) = false := by
  simp [goodSchemeName, h]

theorem goodSchemeName_no_colon {S : List Char} (h : goodSchemeName S = true) :
    ':' ∉ S := by
  cases S with
  | nil => simp
  | cons c cs =>
    simp only [goodSchemeName, Bool.and_eq_true] at h
    intro hmem
    rcases List.mem_cons.mp hmem with he | hmem'
    · rw [← he] at h
      exact absurd h.1 (by decide)
    · have := (List.all_eq_true.mp h.2) ':' hmem'
      exact absurd this (by decide)

theorem isAsciiAlpha_toLower {c : Char} (h : isAsciiAlpha c = true) :
    isAsciiAlpha (Char.toLower c) = true := by
  rcases toLower_cases c with he | ⟨h1, h2, h3⟩
  · rw [he]
    exact h
  · simp only [isAsciiAlpha, Char.isAlpha, Bool.or_eq_true]
    right
    simp only [Char.isLower, Bool.and_eq_true, decide_eq_true_eq]
    constructor
    · show 97 ≤ (Char.toLower c).toNat
      omega
    · show (Char.toLower c).toNat ≤ 122
      omega

theorem isSchemeChar_toLower {c : Char} (h : isSchemeChar c = true) :
    isSchemeChar (Char.toLower c) = true := by
  rcases toLower_cases c with he | ⟨h1, h2, h3⟩
  · rw [he]
    exact h
  · simp only [isSchemeChar, Bool.or_eq_true]
    left; left; left
    simp only [Char.isAlphanum, Char.isAlpha, Bool.or_eq_true]
    left; right
    simp only [Char.isLower, Bool.and_eq_true, decide_eq_true_eq]
    constructor
    · show 97 ≤ (Char.toLower c).toNat
      omega
    · show (Char.toLower c).toNat ≤ 122
      omega

theorem goodSchemeName_pyLower {S : List Char} (h : goodSchemeName S = true) :
    goodSchemeName (pyLowerL S) = true := by
  cases S with
  | nil => exact absurd h (by decide)
  | cons c cs =>
    simp only [goodSchemeName, Bool.and_eq_true] at h
    simp only [pyLowerL, List.map_cons, goodSchemeName, Bool.and_eq_true]
    refine ⟨isAsciiAlpha_toLower h.1, ?_⟩
    rw [List.all_eq_true]
    intro x hx
    obtain ⟨y, hy, rfl⟩ := List.mem_map.mp hx
    exact isSchemeChar_toLower ((List.all_eq_true.mp h.2) y hy)

theorem pyLowerL_idem (l : List Char) : pyLowerL (pyLowerL l) = pyLowerL l := by
  unfold pyLowerL
  rw [List.map_map]
  apply List.map_congr_left
  intro c _
  exact toLower_toLower c

theorem parseScheme_good {S t : List Char} (hS : goodSchemeName S = true) :
    parseScheme (S ++ ':' :: t) = (pyLowerL S, t) := by
  have hcol : ':' ∉ S := goodSchemeName_no_colon hS
  have hall : ∀ c ∈ S, (fun c => decide ¬c = ':') c = true := by
    intro c hc
    simp only [decide_not, Bool.not_eq_true', decide_eq_false_iff_not]
    intro he
    exact hcol (he ▸ hc)
  have hd : (S ++ ':' :: t).dropWhile (fun c => decide ¬c = ':') = ':' :: t := by
    rw [dropWhile_append_all hall, List.dropWhile_cons]
    simp
  have ht : (S ++ ':' :: t).takeWhile (fun c => decide ¬c = ':') = S := by
    rw [takeWhile_append_all hall, List.takeWhile_cons]
    simp
  cases S with
  | nil => exact absurd hS (by decide)
  | cons c cs =>
    simp only [parseScheme, hd, ht]
    rw [if_pos]
    exact hS

theorem parseScheme_of_fail {l : List Char}
    (h : l.dropWhile (fun c => decide ¬c = ':') = [] ∨
      goodSchemeName (l.takeWhile (fun c => decide ¬c = ':')) = false) :
    parseScheme l = ([], l) := by
  rcases hd : l.dropWhile (fun c => decide ¬c = ':') with _ | ⟨d, rest⟩
  · simp only [parseScheme, hd]
  · rcases ht : l.takeWhile (fun c => decide ¬c = ':') with _ | ⟨c, cs⟩
    · simp only [parseScheme, hd, ht]
    · rcases h with h1 | h2
      · rw [hd] at h1
        exact absurd h1 (by simp)
      · rw [ht] at h2
        simp only [goodSchemeName] at h2
        simp only [parseScheme, hd, ht]
        rw [if_neg]
        intro hgood
        rw [h2] at hgood
        exact Bool.false_ne_true hgood

theorem parseScheme_fst_nil {l : List Char} (h : (parseScheme l).1 = []) :
    parseScheme l = ([], l) := by
  rcases hd : l.dropWhile (fun c => decide ¬c = ':') with _ | ⟨d, rest⟩
  · simp only [parseScheme, hd]
  · rcases ht : l.takeWhile (fun c => decide ¬c = ':') with _ | ⟨c, cs⟩
    · simp only [parseScheme, hd, ht]
    · simp only [parseScheme, hd, ht] at h ⊢
      by_cases hg : (isAsciiAlpha c && cs.all isSchemeChar) = true
      · rw [if_pos hg] at h
        exact absurd h (by simp [pyLowerL])
      · rw [if_neg hg]

theorem parseScheme_nil_good {l : List Char} (h : parseScheme l = ([], l))
    (hc : ':' ∈ l) :
    goodSchemeName (l.takeWhile (fun c => decide ¬c = ':')) = false := by
  have hdne : l.dropWhile (fun c => decide ¬c = ':') ≠ [] :=
    dropWhile_ne_nil_of_mem hc (by simp)
  rcases hd : l.dropWhile (fun c => decide ¬c = ':') with _ | ⟨d, rest⟩
  · exact absurd hd hdne
  · rcases ht : l.takeWhile (fun c => decide ¬c = ':') with _ | ⟨c, cs⟩
    · decide
    · by_cases hg : (isAsciiAlpha c && cs.all isSchemeChar) = true
      · simp only [parseScheme, hd, ht, if_pos hg] at h
        have := congrArg Prod.fst h
        exact absurd this (by simp [pyLowerL])
      · simp only [goodSchemeName]
        exact Bool.not_eq_true _ ▸ hg

theorem parseNetloc_cons_eq {X : List Char} :
    parseNetloc ('/' :: '/' :: X) =
      (if bracketsOK (X.takeWhile (fun c => !isNetlocEnd c)) then
        Except.ok (X.takeWhile (fun c => !isNetlocEnd c),
          X.dropWhile (fun c => !isNetlocEnd c))
      else .error ()) := rfl

theorem parseNetloc_slash {N rest : List Char}
    (hN : ∀ c ∈ N, isNetlocEnd c = false) (hb : bracketsOK N = true)
    (hr : rest = [] ∨ ∃ d t, rest = d :: t ∧ isNetlocEnd d = true) :
    parseNetloc ('/' :: '/' :: (N ++ rest)) = .ok (N, rest) := by
  have hall : ∀ c ∈ N, (fun c => !isNetlocEnd c) c = true := by
    intro c hc
    simp [hN c hc]
  have ht : (N ++ rest).takeWhile (fun c => !isNetlocEnd c) = N := by
    rw [takeWhile_append_all hall]
    rcases hr with rfl | ⟨d, t, rfl, hdend⟩
    · simp
    · rw [List.takeWhile_cons]
      simp [hdend]
  have hd : (N ++ rest).dropWhile (fun c => !isNetlocEnd c) = rest := by
    rw [dropWhile_append_all hall]
    rcases hr with rfl | ⟨d, t, rfl, hdend⟩
    · rfl
    · rw [List.dropWhile_cons]
      simp [hdend]
  rw [parseNetloc_cons_eq, ht, hd, if_pos hb]

theorem parseNetloc_noslash {l : List Char} (h : l.take 2 ≠ ['/', '/']) :
    parseNetloc l = .ok ([], l) := by
  rw [parseNetloc.eq_def]
  split
  · exact absurd rfl h
  · rfl

theorem splitFragment_no {l : List Char} (h : '#' ∉ l) :
    splitFragment l = (l, []) := by
  have hd : l.dropWhile (fun c => decide ¬c = '#') = [] := by
    apply dropWhile_eq_nil_of_all
    intro c hc
    simp only [decide_not, Bool.not_eq_true', decide_eq_false_iff_not]
    intro he
    exact h (he ▸ hc)
  simp only [splitFragment, hd]

theorem splitQuery_no {l : List Char} (h : '?' ∉ l) :
    splitQuery l = (l, []) := by
  have hd : l.dropWhile (fun c => decide ¬c = '?') = [] := by
    apply dropWhile_eq_nil_of_all
    intro c hc
    simp only [decide_not, Bool.not_eq_true', decide_eq_false_iff_not]
    intro he
    exact h (he ▸ hc)
  simp only [splitQuery, hd]

theorem urlsplitE_of_parts {l S rest1 N rest2 P Q : List Char}
    (h1 : removeUnsafe (lstripControl l) = l)
    (h2 : parseScheme l = (S, rest1))
    (h3 : parseNetloc rest1 = .ok (N, rest2))
    (h4 : splitFragment rest2 = (rest2, []))
    (h5 : splitQuery rest2 = (P, Q)) :
    urlsplitE l = .ok ⟨S, N, P, Q, []⟩ := by
  simp only [urlsplitE, h1, h2, h3, h4, h5]

theorem take2_slash_cases {P T : List Char} (hT : T = [] ∨ ∃ t, T = '?' :: t)
    (h : (P ++ T).take 2 = ['/', '/']) : P ≠ [] ∧ P.take 2 = ['/', '/'] := by
  rcases hT with rfl | ⟨t, rfl⟩ <;> rcases P with _ | ⟨p0, P'⟩
  · simp at h
  · rcases P' with _ | ⟨p1, P''⟩
    · simp at h
    · exact ⟨by simp, by simpa using h⟩
  · simp at h
  · rcases P' with _ | ⟨p1, P''⟩
    · simp at h
    · exact ⟨by simp, by simpa using h⟩

theorem splitQuery_split {p q : List Char} (hp : '?' ∉ p) :
    splitQuery (p ++ '?' :: q) = (p, q) := by
  have hall : ∀ c ∈ p, (fun c => decide ¬c = '?') c = true := by
    intro c hc
    simp only [decide_not, Bool.not_eq_true', decide_eq_false_iff_not]
    intro he
    exact hp (he ▸ hc)
  have hd : (p ++ '?' :: q).dropWhile (fun c => decide ¬c = '?') = '?' :: q := by
    rw [dropWhile_append_all hall, List.dropWhile_cons]
    simp
  have ht : (p ++ '?' :: q).takeWhile (fun c => decide ¬c = '?') = p := by
    rw [takeWhile_append_all hall, List.takeWhile_cons]
    simp
  simp only [splitQuery, hd, ht]

/-- After the scheme, `urlsplit` recovers netloc, path and query from the two
tail shapes `urlunsplit` can produce (with and without the `//` marker). -/
theorem reparse_tail {N P Q rest1 : List Char}
    (hN : ∀ c ∈ N, isNetlocEnd c = false) (hNb : bracketsOK N = true)
    (hPq : '?' ∉ P) (hPh : '#' ∉ P) (hQh : '#' ∉ Q)
    (hshape :
      (rest1 = '/' :: '/' :: (N ++ (P ++ (if Q ≠ [] then '?' :: Q else [])))
          ∧ (P = [] ∨ P.head? = some '/')) ∨
      (rest1 = P ++ (if Q ≠ [] then '?' :: Q else [])
          ∧ N = [] ∧ (P = [] ∨ P.take 2 ≠ ['/', '/']))) :
    parseNetloc rest1 = .ok (N, P ++ (if Q ≠ [] then '?' :: Q else [])) ∧
      splitFragment (P ++ (if Q ≠ [] then '?' :: Q else []))
        = (P ++ (if Q ≠ [] then '?' :: Q else []), []) ∧
      splitQuery (P ++ (if Q ≠ [] then '?' :: Q else [])) = (P, Q) := by
  have hqtsh : (Q = [] ∧ (if Q ≠ [] then '?' :: Q else []) = []) ∨
      (if Q ≠ [] then '?' :: Q else []) = '?' :: Q := by
    by_cases hq : Q ≠ []
    · exact Or.inr (if_pos hq)
    · exact Or.inl ⟨not_not.mp hq, if_neg hq⟩
  refine ⟨?_, ?_, ?_⟩
  · rcases hshape with ⟨rfl, hPhead⟩ | ⟨rfl, hN0, hPt⟩
    · apply parseNetloc_slash hN hNb
      rcases hPhead with rfl | hPhead
      · rcases hqtsh with ⟨hQ0, hq0⟩ | hqt
        · rw [List.nil_append, hq0]
          exact Or.inl rfl
        · rw [List.nil_append, hqt]
          exact Or.inr ⟨'?', Q, rfl, by decide⟩
      · rcases P with _ | ⟨p0, P'⟩
        · exact absurd hPhead (by simp)
        · have hp0 : p0 = '/' := by simpa using hPhead
          subst hp0
          exact Or.inr ⟨'/', P' ++ (if Q ≠ [] then '?' :: Q else []), by simp, by decide⟩
    · rw [hN0]
      apply parseNetloc_noslash
      intro htake
      have h2 := take2_slash_cases
        (hqtsh.imp (fun h => h.2) (fun h => ⟨Q, h⟩)) htake
      rcases hPt with rfl | hPt2
      · exact h2.1 rfl
      · exact hPt2 h2.2
  · apply splitFragment_no
    intro hmem
    rcases List.mem_append.mp hmem with h1 | h1
    · exact hPh h1
    · rcases hqtsh with ⟨hQ0, hq0⟩ | hqt
      · rw [hq0] at h1
        exact absurd h1 (by simp)
      · rw [hqt] at h1
        rcases List.mem_cons.mp h1 with he | h2
        · exact absurd he (by decide)
        · exact hQh h2
  · rcases hqtsh with ⟨hQ0, hq0⟩ | hqt
    · rw [hq0, List.append_nil, hQ0]
      exact splitQuery_no hPq
    · rw [hqt]
      exact splitQuery_split hPq

/-- Master reparse theorem: `urlsplit` applied to the fragmentless
`urlunsplit` of components with the invariants `_canonicalize` establishes
returns exactly those components. -/
theorem urlsplit_urlunsplit {S N P Q : List Char}
    (hS : S = [] ∨ (goodSchemeName S = true ∧ pyLowerL S = S))
    (hN : ∀ c ∈ N, isNetlocEnd c = false)
    (hNb : bracketsOK N = true)
    (hPq : '?' ∉ P) (hPh : '#' ∉ P)
    (hQh : '#' ∉ Q) (hQc : ':' ∉ Q)
    (hPhead : N ≠ [] → P = [] ∨ P.head? = some '/')
    (hnos : S = [] → ':' ∉ P ∨
      goodSchemeName (P.takeWhile (fun c => decide ¬c = ':')) = false)
    (hclean : removeUnsafe (lstripControl (urlunsplitL S N P Q []))
      = urlunsplitL S N P Q []) :
    urlsplitE (urlunsplitL S N P Q []) = .ok ⟨S, N, P, Q, []⟩ := by
  have hfragneg : ¬(([] : List Char) ≠ []) := by simp
  rcases hS with rfl | ⟨hSg, hSl⟩
  · -- scheme empty
    by_cases hcond : N ≠ [] ∨ (P ≠ [] ∧ P.take 2 = ['/', '/'])
    · -- `//` marker present
      have hPhead' : P = [] ∨ P.head? = some '/' := by
        rcases hcond with hNne | ⟨hPne, hPt⟩
        · exact hPhead hNne
        · right
          rcases P with _ | ⟨p0, P'⟩
          · exact absurd rfl hPne
          · rcases P' with _ | ⟨p1, P''⟩
            · exact absurd hPt (by simp)
            · have h2 : p0 = '/' := by
                have h3 := congrArg List.head? hPt
                simpa using h3
              simp [h2]
      have hPfix : ¬(P ≠ [] ∧ P.head? ≠ some '/') := by
        intro hcontra
        rcases hPhead' with h1 | h1
        · exact hcontra.1 h1
        · exact hcontra.2 h1
      have hout : urlunsplitL [] N P Q [] =
          '/' :: '/' :: (N ++ (P ++ (if Q ≠ [] then '?' :: Q else []))) := by
        simp only [urlunsplitL]
        rw [if_neg hfragneg, if_pos hcond, if_neg hPfix, if_neg hfragneg]
        by_cases hq : Q ≠ []
        · simp only [if_pos hq, List.cons_append, List.append_assoc]
        · simp only [if_neg hq, List.append_nil]
      rw [hout] at hclean ⊢
      obtain ⟨h3, h4, h5⟩ :=
        reparse_tail hN hNb hPq hPh hQh (Or.inl ⟨rfl, hPhead'⟩)
      refine urlsplitE_of_parts hclean ?_ h3 h4 h5
      apply parseScheme_of_fail
      right
      rw [List.takeWhile_cons, if_pos (by decide)]
      exact goodSchemeName_head_bad _ (by decide)
    · -- no `//` marker
      have hN0 : N = [] := by
        by_contra hNne
        exact hcond (Or.inl hNne)
      have hPt : P = [] ∨ P.take 2 ≠ ['/', '/'] := by
        rcases Decidable.em (P = []) with h1 | h1
        · exact Or.inl h1
        · right
          intro ht
          exact hcond (Or.inr ⟨h1, ht⟩)
      have hout : urlunsplitL [] N P Q [] =
          P ++ (if Q ≠ [] then '?' :: Q else []) := by
        simp only [urlunsplitL]
        rw [if_neg hfragneg, if_neg hcond, if_neg hfragneg]
        by_cases hq : Q ≠ []
        · simp only [if_pos hq]
        · simp only [if_neg hq, List.append_nil]
      rw [hout] at hclean ⊢
      obtain ⟨h3, h4, h5⟩ :=
        reparse_tail hN hNb hPq hPh hQh (Or.inr ⟨rfl, hN0, hPt⟩)
      refine urlsplitE_of_parts hclean ?_ h3 h4 h5
      by_cases hcolP : ':' ∈ P
      · rcases hnos rfl with hnc | hgood
        · exact absurd hcolP hnc
        · apply parseScheme_of_fail
          right
          rw [takeWhile_append_of_mem ⟨':', hcolP, by simp⟩]
          exact hgood
      · apply parseScheme_of_fail
        left
        apply dropWhile_eq_nil_of_all
        intro c hc
        simp only [decide_not, Bool.not_eq_true', decide_eq_false_iff_not]
        intro he
        subst he
        rcases List.mem_append.mp hc with h1 | h1
        · exact hcolP h1
        · by_cases hq : Q ≠ []
          · rw [if_pos hq] at h1
            rcases List.mem_cons.mp h1 with he2 | h2
            · exact absurd he2 (by decide)
            · exact hQc h2
          · rw [if_neg hq] at h1
            exact absurd h1 (by simp)
  · -- scheme nonempty
    have hSne : S ≠ [] := by
      intro he
      rw [he] at hSg
      exact absurd hSg (by decide)
    by_cases hcond : N ≠ [] ∨ (P ≠ [] ∧ P.take 2 = ['/', '/'])
    · have hPhead' : P = [] ∨ P.head? = some '/' := by
        rcases hcond with hNne | ⟨hPne, hPt⟩
        · exact hPhead hNne
        · right
          rcases P with _ | ⟨p0, P'⟩
          · exact absurd rfl hPne
          · rcases P' with _ | ⟨p1, P''⟩
            · exact absurd hPt (by simp)
            · have h2 : p0 = '/' := by
                have h3 := congrArg List.head? hPt
                simpa using h3
              simp [h2]
      have hPfix : ¬(P ≠ [] ∧ P.head? ≠ some '/') := by
        intro hcontra
        rcases hPhead' with h1 | h1
        · exact hcontra.1 h1
        · exact hcontra.2 h1
      have hout : urlunsplitL S N P Q [] =
          S ++ ':' :: ('/' :: '/' ::
            (N ++ (P ++ (if Q ≠ [] then '?' :: Q else [])))) := by
        simp only [urlunsplitL]
        rw [if_neg hfragneg, if_pos hcond, if_neg hPfix, if_pos hSne]
        by_cases hq : Q ≠ []
        · simp only [if_pos hq, List.cons_append, List.append_assoc]
        · simp only [if_neg hq, List.append_nil]
      rw [hout] at hclean ⊢
      obtain ⟨h3, h4, h5⟩ :=
        reparse_tail hN hNb hPq hPh hQh (Or.inl ⟨rfl, hPhead'⟩)
      refine urlsplitE_of_parts hclean ?_ h3 h4 h5
      rw [parseScheme_good hSg, hSl]
    · have hN0 : N = [] := by
        by_contra hNne
        exact hcond (Or.inl hNne)
      have hPt : P = [] ∨ P.take 2 ≠ ['/', '/'] := by
        rcases Decidable.em (P = []) with h1 | h1
        · exact Or.inl h1
        · right
          intro ht
          exact hcond (Or.inr ⟨h1, ht⟩)
      have hout : urlunsplitL S N P Q [] =
          S ++ ':' :: (P ++ (if Q ≠ [] then '?' :: Q else [])) := by
        simp only [urlunsplitL]
        rw [if_neg hfragneg, if_neg hcond, if_pos hSne]
        by_cases hq : Q ≠ []
        · simp only [if_pos hq, List.cons_append, List.append_assoc]
        · simp only [if_neg hq, List.append_nil]
      rw [hout] at hclean ⊢
      obtain ⟨h3, h4, h5⟩ :=
        reparse_tail hN hNb hPq hPh hQh (Or.inr ⟨rfl, hN0, hPt⟩)
      refine urlsplitE_of_parts hclean ?_ h3 h4 h5
      rw [parseScheme_good hSg, hSl]

/-! ## Invariants of the components `_canonicalize` assembles -/

theorem mem_urlunsplit_nofrag {c : Char} {S N P Q : List Char}
    (h : c ∈ urlunsplitL S N P Q []) :
    c ∈ S ∨ c ∈ N ∨ c ∈ P ∨ c ∈ Q ∨ c = ':' ∨ c = '/' ∨ c = '?' := by
  have hC : c ∈ (if N ≠ [] ∨ (P ≠ [] ∧ P.take 2 = ['/', '/']) then
      '/' :: '/' :: (N ++ (if P ≠ [] ∧ P.head? ≠ some '/' then '/' :: P else P))
      else P) → c ∈ N ∨ c ∈ P ∨ c = '/' := by
    intro hc
    split_ifs at hc with h1 h2
    · rcases List.mem_cons.mp hc with rfl | hc2
      · exact Or.inr (Or.inr rfl)
      rcases List.mem_cons.mp hc2 with rfl | hc3
      · exact Or.inr (Or.inr rfl)
      rcases List.mem_append.mp hc3 with hc4 | hc4
      · exact Or.inl hc4
      rcases List.mem_cons.mp hc4 with rfl | hc5
      · exact Or.inr (Or.inr rfl)
      · exact Or.inr (Or.inl hc5)
    · rcases List.mem_cons.mp hc with rfl | hc2
      · exact Or.inr (Or.inr rfl)
      rcases List.mem_cons.mp hc2 with rfl | hc3
      · exact Or.inr (Or.inr rfl)
      rcases List.mem_append.mp hc3 with hc4 | hc4
      · exact Or.inl hc4
      · exact Or.inr (Or.inl hc4)
    · exact Or.inr (Or.inl hc)
  have hB : c ∈ (if S ≠ [] then
      S ++ ':' :: (if N ≠ [] ∨ (P ≠ [] ∧ P.take 2 = ['/', '/']) then
        '/' :: '/' :: (N ++ (if P ≠ [] ∧ P.head? ≠ some '/' then '/' :: P else P))
        else P)
      else (if N ≠ [] ∨ (P ≠ [] ∧ P.take 2 = ['/', '/']) then
        '/' :: '/' :: (N ++ (if P ≠ [] ∧ P.head? ≠ some '/' then '/' :: P else P))
        else P)) →
      c ∈ S ∨ c ∈ N ∨ c ∈ P ∨ c = ':' ∨ c = '/' := by
    intro hc
    by_cases hS : S ≠ []
    · rw [if_pos hS] at hc
      rcases List.mem_append.mp hc with h2 | h2
      · exact Or.inl h2
      rcases List.mem_cons.mp h2 with rfl | h3
      · exact Or.inr (Or.inr (Or.inr (Or.inl rfl)))
      rcases hC h3 with h4 | h4 | h4
      · exact Or.inr (Or.inl h4)
      · exact Or.inr (Or.inr (Or.inl h4))
      · exact Or.inr (Or.inr (Or.inr (Or.inr h4)))
    · rw [if_neg hS] at hc
      rcases hC hc with h4 | h4 | h4
      · exact Or.inr (Or.inl h4)
      · exact Or.inr (Or.inr (Or.inl h4))
      · exact Or.inr (Or.inr (Or.inr (Or.inr h4)))
  simp only [urlunsplitL] at h
  rw [if_neg (show ¬(([] : List Char) ≠ []) by simp)] at h
  by_cases hq : Q ≠ []
  · rw [if_pos hq] at h
    rcases List.mem_append.mp h with h1 | h1
    · rcases hB h1 with h4 | h4 | h4 | h4 | h4
      · exact Or.inl h4
      · exact Or.inr (Or.inl h4)
      · exact Or.inr (Or.inr (Or.inl h4))
      · exact Or.inr (Or.inr (Or.inr (Or.inr (Or.inl h4))))
      · exact Or.inr (Or.inr (Or.inr (Or.inr (Or.inr (Or.inl h4)))))
    · rcases List.mem_cons.mp h1 with rfl | h2
      · exact Or.inr (Or.inr (Or.inr (Or.inr (Or.inr (Or.inr rfl)))))
      · exact Or.inr (Or.inr (Or.inr (Or.inl h2)))
  · rw [if_neg hq] at h
    rcases hB h with h4 | h4 | h4 | h4 | h4
    · exact Or.inl h4
    · exact Or.inr (Or.inl h4)
    · exact Or.inr (Or.inr (Or.inl h4))
    · exact Or.inr (Or.inr (Or.inr (Or.inr (Or.inl h4))))
    · exact Or.inr (Or.inr (Or.inr (Or.inr (Or.inr (Or.inl h4)))))

theorem rstripSlash_decomp (l : List Char) :
    ∃ k, l = rstripSlash l ++ List.replicate k '/' := by
  refine ⟨(l.reverse.takeWhile (fun c => c = '/')).length, ?_⟩
  have hsplit : l.reverse.takeWhile (fun c => c = '/')
      ++ l.reverse.dropWhile (fun c => c = '/') = l.reverse :=
    List.takeWhile_append_dropWhile _ _
  have hrep : l.reverse.takeWhile (fun c => c = '/')
      = List.replicate (l.reverse.takeWhile (fun c => c = '/')).length '/' := by
    apply List.eq_replicate_of_mem
    intro b hb
    have := List.mem_takeWhile_imp hb
    simpa using this
  calc l = l.reverse.reverse := (List.reverse_reverse l).symm
  _ = (l.reverse.takeWhile (fun c => c = '/')
        ++ l.reverse.dropWhile (fun c => c = '/')).reverse := by rw [hsplit]
  _ = rstripSlash l ++ (l.reverse.takeWhile (fun c => c = '/')).reverse := by
        rw [List.reverse_append]
        rfl
  _ = rstripSlash l
        ++ List.replicate (l.reverse.takeWhile (fun c => c = '/')).length '/' := by
        conv_lhs => rw [hrep, List.reverse_replicate]

theorem rstripSlash_pre (l : List Char) : (rstripSlash l).IsPrefix l := by
  obtain ⟨k, hk⟩ := rstripSlash_decomp l
  exact ⟨List.replicate k '/', hk.symm⟩

theorem dropWhile_idem (p : Char → Bool) (l : List Char) :
    (l.dropWhile p).dropWhile p = l.dropWhile p := by
  rcases hd : l.dropWhile p with _ | ⟨d, t⟩
  · rfl
  · rw [List.dropWhile_cons]
    have hpd : p d = false := head?_dropWhile p l d (by rw [hd]; rfl)
    rw [hpd]
    rfl

theorem rstripSlash_idem (l : List Char) :
    rstripSlash (rstripSlash l) = rstripSlash l := by
  unfold rstripSlash
  rw [List.reverse_reverse, dropWhile_idem]

theorem mem_rstripSlash {c : Char} {l : List Char} (h : c ∈ rstripSlash l) :
    c ∈ l := (rstripSlash_pre l).subset h

theorem rstripSlash_head {l : List Char} (h : rstripSlash l ≠ []) :
    (rstripSlash l).head? = l.head? := by
  obtain ⟨k, hk⟩ := rstripSlash_decomp l
  rcases hR : rstripSlash l with _ | ⟨r0, R'⟩
  · exact absurd hR h
  · rw [hR] at hk
    rw [hk]
    rfl

theorem forceHttps_idem (s : List Char) :
    forceHttps (forceHttps s) = forceHttps s := by
  unfold forceHttps
  by_cases h : s = "http".data ∨ s = "https".data
  · rw [if_pos h, if_pos (Or.inr rfl)]
  · rw [if_neg h, if_neg h]

theorem forceHttps_eq_nil {s : List Char} (h : forceHttps s = []) : s = [] := by
  unfold forceHttps at h
  by_cases h1 : s = "http".data ∨ s = "https".data
  · rw [if_pos h1] at h
    exact absurd h (by decide)
  · rwa [if_neg h1] at h

theorem forceHttps_good {s : List Char}
    (h : s = [] ∨ (goodSchemeName s = true ∧ pyLowerL s = s)) :
    forceHttps s = [] ∨
      (goodSchemeName (forceHttps s) = true ∧
        pyLowerL (forceHttps s) = forceHttps s) := by
  unfold forceHttps
  split_ifs with h1
  · exact Or.inr ⟨by decide, by decide⟩
  · exact h

theorem isNetlocEnd_false_of_low {c : Char} (h1 : 97 ≤ c.toNat)
    (h2 : c.toNat ≤ 122) : isNetlocEnd c = false := by
  have d1 : c ≠ '/' := toNat_ne_imp_ne (by show c.toNat ≠ 47; omega)
  have d2 : c ≠ '?' := toNat_ne_imp_ne (by show c.toNat ≠ 63; omega)
  have d3 : c ≠ '#' := toNat_ne_imp_ne (by show c.toNat ≠ 35; omega)
  simp [isNetlocEnd, d1, d2, d3]

theorem pyLowerL_netloc_end {N : List Char}
    (h : ∀ c ∈ N, isNetlocEnd c = false) :
    ∀ c ∈ pyLowerL N, isNetlocEnd c = false := by
  intro c hc
  obtain ⟨y, hy, rfl⟩ := List.mem_map.mp hc
  rcases toLower_cases y with he | ⟨hu1, hu2, hu3⟩
  · rw [he]
    exact h y hy
  · exact isNetlocEnd_false_of_low (by omega) (by omega)

theorem contains_pyLower_eq {N : List Char} {b : Char}
    (hb : b.toNat < 97 ∨ 122 < b.toNat) (hself : Char.toLower b = b) :
    (pyLowerL N).contains b = N.contains b := by
  induction N with
  | nil => rfl
  | cons c t ih =>
    simp only [pyLowerL, List.map_cons, List.contains_cons]
    simp only [pyLowerL] at ih
    rw [ih]
    have hbc : (b == Char.toLower c) = (b == c) := by
      by_cases h : b = c
      · subst h
        rw [hself]
      · have h2 : b ≠ Char.toLower c := by
          intro he
          exact h (toLower_eq_low he.symm hb).symm
        simp [h, h2]
    rw [hbc]

theorem bracketsOK_pyLower (N : List Char) :
    bracketsOK (pyLowerL N) = bracketsOK N := by
  unfold bracketsOK
  rw [contains_pyLower_eq (by decide) (by decide),
    contains_pyLower_eq (by decide) (by decide)]

theorem pyLowerL_ne_nil {N : List Char} (h : pyLowerL N ≠ []) : N ≠ [] := by
  intro he
  rw [he] at h
  exact h rfl

theorem hash_not_mem_quotePlus (s : List Char) : '#' ∉ quotePlus s := by
  refine not_mem_quotePlus s (by decide) (by decide) (by decide) ?_
  intro m hm
  interval_cases m <;> decide

theorem qmark_not_mem_quotePlus (s : List Char) : '?' ∉ quotePlus s := by
  refine not_mem_quotePlus s (by decide) (by decide) (by decide) ?_
  intro m hm
  interval_cases m <;> decide

theorem colon_not_mem_quotePlus (s : List Char) : ':' ∉ quotePlus s := by
  refine not_mem_quotePlus s (by decide) (by decide) (by decide) ?_
  intro m hm
  interval_cases m <;> decide

theorem mem_joinAmp {c : Char} {fs : List (List Char)} (h : c ∈ joinAmp fs) :
    c = '&' ∨ ∃ f ∈ fs, c ∈ f := by
  induction fs with
  | nil => exact absurd h (by simp [joinAmp])
  | cons w ws ih =>
    cases ws with
    | nil =>
      right
      exact ⟨w, by simp, by simpa [joinAmp] using h⟩
    | cons w2 ws2 =>
      rw [joinAmp] at h
      · rcases List.mem_append.mp h with h1 | h1
        · exact Or.inr ⟨w, by simp, h1⟩
        · rcases List.mem_cons.mp h1 with rfl | h2
          · exact Or.inl rfl
          · rcases ih h2 with h3 | ⟨f, hf, hcf⟩
            · exact Or.inl h3
            · exact Or.inr ⟨f, by simp [hf], hcf⟩
      · exact List.cons_ne_nil _ _

theorem mem_urlencode {c : Char} {F : List (List Char × List Char)}
    (h : c ∈ urlencodeL F) :
    c = '&' ∨ c = '=' ∨ ∃ kv ∈ F, c ∈ quotePlus kv.1 ∨ c ∈ quotePlus kv.2 := by
  unfold urlencodeL at h
  rcases mem_joinAmp h with rfl | ⟨f, hf, hcf⟩
  · exact Or.inl rfl
  · obtain ⟨kv, hkv, rfl⟩ := List.mem_map.mp hf
    rcases List.mem_append.mp hcf with h1 | h1
    · exact Or.inr (Or.inr ⟨kv, hkv, Or.inl h1⟩)
    · rcases List.mem_cons.mp h1 with rfl | h2
      · exact Or.inr (Or.inl rfl)
      · exact Or.inr (Or.inr ⟨kv, hkv, Or.inr h2⟩)

theorem urlencode_range {c : Char} {F : List (List Char × List Char)}
    (h : c ∈ urlencodeL F) : 33 ≤ c.toNat ∧ c.toNat ≤ 126 := by
  rcases mem_urlencode h with rfl | rfl | ⟨kv, _, h1 | h1⟩
  · decide
  · decide
  · exact quotePlus_range h1
  · exact quotePlus_range h1

theorem urlencode_no_hash {F : List (List Char × List Char)} :
    '#' ∉ urlencodeL F := by
  intro h
  rcases mem_urlencode h with he | he | ⟨kv, _, h1 | h1⟩
  · exact absurd he (by decide)
  · exact absurd he (by decide)
  · exact hash_not_mem_quotePlus _ h1
  · exact hash_not_mem_quotePlus _ h1

theorem urlencode_no_colon {F : List (List Char × List Char)} :
    ':' ∉ urlencodeL F := by
  intro h
  rcases mem_urlencode h with he | he | ⟨kv, _, h1 | h1⟩
  · exact absurd he (by decide)
  · exact absurd he (by decide)
  · exact colon_not_mem_quotePlus _ h1
  · exact colon_not_mem_quotePlus _ h1

theorem urlencode_no_qmark {F : List (List Char × List Char)} :
    '?' ∉ urlencodeL F := by
  intro h
  rcases mem_urlencode h with he | he | ⟨kv, _, h1 | h1⟩
  · exact absurd he (by decide)
  · exact absurd he (by decide)
  · exact qmark_not_mem_quotePlus _ h1
  · exact qmark_not_mem_quotePlus _ h1

theorem parseScheme_fst_good (l : List Char) :
    (parseScheme l).1 = [] ∨
      (goodSchemeName (parseScheme l).1 = true ∧
        pyLowerL (parseScheme l).1 = (parseScheme l).1) := by
  rcases hd : l.dropWhile (fun c => decide ¬c = ':') with _ | ⟨d, rest⟩
  · simp only [parseScheme, hd]
    exact Or.inl trivial
  · rcases ht : l.takeWhile (fun c => decide ¬c = ':') with _ | ⟨c, cs⟩
    · simp only [parseScheme, hd, ht]
      exact Or.inl trivial
    · simp only [parseScheme, hd, ht]
      by_cases hg : (isAsciiAlpha c && cs.all isSchemeChar) = true
      · rw [if_pos hg]
        right
        refine ⟨goodSchemeName_pyLower
          (show goodSchemeName (c :: cs) = true from hg), pyLowerL_idem _⟩
      · rw [if_neg hg]
        exact Or.inl rfl

theorem parseScheme_fst_lower {l : List Char} :
    ∀ c ∈ (parseScheme l).1, ∃ d ∈ l, c = Char.toLower d := by
  intro c0 hc0
  rcases hd : l.dropWhile (fun c => decide ¬c = ':') with _ | ⟨d, rest⟩
  · simp only [parseScheme, hd] at hc0
    exact absurd hc0 (by simp)
  · rcases ht : l.takeWhile (fun c => decide ¬c = ':') with _ | ⟨c, cs⟩
    · simp only [parseScheme, hd, ht] at hc0
      exact absurd hc0 (by simp)
    · simp only [parseScheme, hd, ht] at hc0
      by_cases hg : (isAsciiAlpha c && cs.all isSchemeChar) = true
      · rw [if_pos hg] at hc0
        obtain ⟨y, hy, rfl⟩ := List.mem_map.mp hc0
        have hy2 : y ∈ l := (List.takeWhile_sublist _).subset (ht ▸ hy)
        exact ⟨y, hy2, rfl⟩
      · rw [if_neg hg] at hc0
        exact absurd hc0 (by simp)

theorem parseScheme_snd_sublist (l : List Char) : (parseScheme l).2.Sublist l := by
  rcases hd : l.dropWhile (fun c => decide ¬c = ':') with _ | ⟨d, rest⟩
  · simp only [parseScheme, hd]
    exact List.Sublist.refl l
  · rcases ht : l.takeWhile (fun c => decide ¬c = ':') with _ | ⟨c, cs⟩
    · simp only [parseScheme, hd, ht]
      exact List.Sublist.refl l
    · simp only [parseScheme, hd, ht]
      by_cases hg : (isAsciiAlpha c && cs.all isSchemeChar) = true
      · rw [if_pos hg]
        have h1 : (d :: rest).Sublist l := hd ▸ List.dropWhile_sublist _
        exact (List.sublist_cons_self d rest).trans h1
      · rw [if_neg hg]

theorem parseNetloc_spec {l N rest2 : List Char}
    (h : parseNetloc l = .ok (N, rest2)) :
    (∀ c ∈ N, isNetlocEnd c = false) ∧ bracketsOK N = true ∧
      N.Sublist l ∧ rest2.Sublist l ∧
      ((rest2 = [] ∨ ∃ d t, rest2 = d :: t ∧ isNetlocEnd d = true) ∨
        (N = [] ∧ rest2 = l)) := by
  rw [parseNetloc.eq_def] at h
  split at h
  · next r =>
    by_cases hb : bracketsOK (r.takeWhile (fun c => !isNetlocEnd c)) = true
    · rw [if_pos hb] at h
      injection h with h2
      have hN : N = r.takeWhile (fun c => !isNetlocEnd c) :=
        (congrArg Prod.fst h2).symm
      have hr : rest2 = r.dropWhile (fun c => !isNetlocEnd c) :=
        (congrArg Prod.snd h2).symm
      refine ⟨?_, ?_, ?_, ?_, ?_⟩
      · intro c hc
        rw [hN] at hc
        have := List.mem_takeWhile_imp hc
        simpa using this
      · rw [hN]
        exact hb
      · rw [hN]
        exact (List.takeWhile_sublist _).trans
          ((List.sublist_cons_self _ _).trans (List.sublist_cons_self _ _))
      · rw [hr]
        exact (List.dropWhile_sublist _).trans
          ((List.sublist_cons_self _ _).trans (List.sublist_cons_self _ _))
      · left
        rcases hr2 : rest2 with _ | ⟨d, t⟩
        · exact Or.inl rfl
        · right
          refine ⟨d, t, rfl, ?_⟩
          have hpd : (fun c => !isNetlocEnd c) d = false := by
            apply head?_dropWhile (fun c => !isNetlocEnd c) r
            rw [← hr, hr2]
            rfl
          simpa using hpd
    · rw [if_neg hb] at h
      cases h
  · injection h with h2
    have hN : N = [] := (congrArg Prod.fst h2).symm
    have hr : rest2 = l := (congrArg Prod.snd h2).symm
    subst hN
    subst hr
    refine ⟨by simp, by decide, List.nil_sublist _, List.Sublist.refl _, ?_⟩
    exact Or.inr ⟨rfl, rfl⟩

theorem splitFragment_fst (l : List Char) :
    (splitFragment l).1 = l.takeWhile (fun c => decide ¬c = '#') := by
  rcases hd : l.dropWhile (fun c => decide ¬c = '#') with _ | ⟨d, rest⟩
  · simp only [splitFragment, hd]
    have h2 := List.takeWhile_append_dropWhile
      (p := fun c => decide ¬c = '#') (l := l)
    rw [hd, List.append_nil] at h2
    exact h2.symm
  · simp only [splitFragment, hd]

theorem splitQuery_fst (l : List Char) :
    (splitQuery l).1 = l.takeWhile (fun c => decide ¬c = '?') := by
  rcases hd : l.dropWhile (fun c => decide ¬c = '?') with _ | ⟨d, rest⟩
  · simp only [splitQuery, hd]
    have h2 := List.takeWhile_append_dropWhile
      (p := fun c => decide ¬c = '?') (l := l)
    rw [hd, List.append_nil] at h2
    exact h2.symm
  · simp only [splitQuery, hd]

theorem splitQuery_snd_sublist (l : List Char) : (splitQuery l).2.Sublist l := by
  rcases hd : l.dropWhile (fun c => decide ¬c = '?') with _ | ⟨d, rest⟩
  · simp only [splitQuery, hd]
    exact List.nil_sublist l
  · simp only [splitQuery, hd]
    have h1 : (d :: rest).Sublist l := hd ▸ List.dropWhile_sublist _
    exact (List.sublist_cons_self d rest).trans h1

/-- Everything the second canonicalization pass needs to know about the
components a successful first `urlsplit` produced. -/
theorem urlsplitE_components {s : List Char} {r : SplitResult}
    (hs : ∀ c ∈ s, 32 < c.toNat ∧ c.toNat ≤ 126)
    (h : urlsplitE s = .ok r) :
    (r.scheme = [] ∨ (goodSchemeName r.scheme = true ∧
        pyLowerL r.scheme = r.scheme)) ∧
    (∀ c ∈ r.netloc, isNetlocEnd c = false) ∧
    bracketsOK r.netloc = true ∧
    '?' ∉ r.path ∧ '#' ∉ r.path ∧
    (∀ c ∈ r.netloc, 32 < c.toNat ∧ c.toNat ≤ 126) ∧
    (∀ c ∈ r.path, 32 < c.toNat ∧ c.toNat ≤ 126) ∧
    (∀ c ∈ r.query, 32 < c.toNat ∧ c.toNat ≤ 126) ∧
    (∀ c ∈ r.scheme, 32 < c.toNat ∧ c.toNat ≤ 126) ∧
    (r.netloc ≠ [] → r.path = [] ∨ r.path.head? = some '/') ∧
    (r.scheme = [] →
      (r.path = [] ∨ r.path.head? = some '/' ∨ r.path.IsPrefix s) ∧
        parseScheme s = ([], s)) := by
  have hcl : removeUnsafe (lstripControl s) = s := by
    rw [lstripControl_eq_self (fun c hc => (hs c hc).1)]
    exact removeUnsafe_eq_self (fun c hc => (hs c hc).1)
  rcases hps : parseScheme s with ⟨sch, rest1⟩
  rcases hpn : parseNetloc rest1 with he | ⟨netloc, rest2⟩
  · simp only [urlsplitE, hcl, hps, hpn] at h
    exact Except.noConfusion h
  · rcases hfr : splitFragment rest2 with ⟨beforeHash, frag⟩
    rcases hq2 : splitQuery beforeHash with ⟨path, query⟩
    have hrr : r = ⟨sch, netloc, path, query, frag⟩ := by
      simp only [urlsplitE, hcl, hps, hpn, hfr, hq2] at h
      injection h with h2
      exact h2.symm
    subst hrr
    have hbh : beforeHash = rest2.takeWhile (fun c => decide ¬c = '#') := by
      have h2 := splitFragment_fst rest2
      rw [hfr] at h2
      exact h2
    have hpath : path = beforeHash.takeWhile (fun c => decide ¬c = '?') := by
      have h2 := splitQuery_fst beforeHash
      rw [hq2] at h2
      exact h2
    have hsub_rest1 : rest1.Sublist s := by
      have h2 := parseScheme_snd_sublist s
      rw [hps] at h2
      exact h2
    obtain ⟨hnetend, hnetbrk, hnetsub, hrest2sub, hshape⟩ := parseNetloc_spec hpn
    have hrest2s : rest2.Sublist s := hrest2sub.trans hsub_rest1
    have hbhsub : beforeHash.Sublist rest2 := by
      rw [hbh]
      exact List.takeWhile_sublist _
    have hpathsub : path.Sublist s := by
      rw [hpath]
      exact ((List.takeWhile_sublist _).trans hbhsub).trans hrest2s
    have hqrysub : query.Sublist s := by
      have h2 := splitQuery_snd_sublist beforeHash
      rw [hq2] at h2
      exact (h2.trans hbhsub).trans hrest2s
    have hpathshape :
        (rest2 = [] ∨ ∃ d t, rest2 = d :: t ∧ isNetlocEnd d = true) →
        path = [] ∨ path.head? = some '/' := by
      intro hsh
      rcases hsh with hr0 | ⟨d, t, hr0, hdend⟩
      · left
        rw [hpath, hbh, hr0]
        rfl
      · have hd3 : d = '/' ∨ d = '?' ∨ d = '#' := by
          simp only [isNetlocEnd, Bool.or_eq_true, decide_eq_true_eq] at hdend
          tauto
        rcases hd3 with rfl | rfl | rfl
        · right
          rw [hpath, hbh, hr0, List.takeWhile_cons, if_pos (by decide),
            List.takeWhile_cons, if_pos (by decide)]
          rfl
        · left
          rw [hpath, hbh, hr0, List.takeWhile_cons, if_pos (by decide),
            List.takeWhile_cons, if_neg (by decide)]
        · left
          rw [hpath, hbh, hr0, List.takeWhile_cons, if_neg (by decide)]
          rfl
    have hschemegood := parseScheme_fst_good s
    rw [hps] at hschemegood
    refine ⟨hschemegood, hnetend, hnetbrk, ?_, ?_, ?_, ?_, ?_, ?_, ?_, ?_⟩
    · intro hmem
      rw [hpath] at hmem
      have := List.mem_takeWhile_imp hmem
      simp at this
    · intro hmem
      rw [hpath] at hmem
      have h2 := (List.takeWhile_sublist _).subset hmem
      rw [hbh] at h2
      have := List.mem_takeWhile_imp h2
      simp at this
    · exact fun c hc => hs c ((hnetsub.trans hsub_rest1).subset hc)
    · exact fun c hc => hs c (hpathsub.subset hc)
    · exact fun c hc => hs c (hqrysub.subset hc)
    · intro c hc
      have h2 := parseScheme_fst_lower (l := s) c (by rw [hps]; exact hc)
      obtain ⟨d, hd2, rfl⟩ := h2
      exact toLower_range ⟨(hs d hd2).1, (hs d hd2).2⟩
    · intro hNne
      rcases hshape with h1 | ⟨hN0, _⟩
      · exact hpathshape h1
      · exact absurd hN0 hNne
    · intro hsch0
      have hps0 : parseScheme s = ([], s) := by
        apply parseScheme_fst_nil
        rw [hps]
        exact hsch0
      refine ⟨?_, hps.symm.trans hps0⟩
      rcases hshape with h1 | ⟨_, hr2⟩
      · rcases hpathshape h1 with h2 | h2
        · exact Or.inl h2
        · exact Or.inr (Or.inl h2)
      · right
        right
        have hrest1s : rest1 = s :=
          congrArg Prod.snd (hps.symm.trans hps0)
        have hpre : path.IsPrefix beforeHash := by
          rw [hpath]
          exact List.takeWhile_prefix _
        have hpre2 : beforeHash.IsPrefix rest2 := by
          rw [hbh]
          exact List.takeWhile_prefix _
        have hr2s : rest2 = s := by
          rw [hr2, hrest1s]
        exact (hpre.trans hpre2).trans (hr2s ▸ List.prefix_refl rest2)

/-! ## Byte bounds through the query codec -/

theorem hexVal_lt {c : Char} {a : Nat} (h : hexVal? c = some a) : a < 16 := by
  unfold hexVal? at h
  split_ifs at h with h1 h2 h3
  · have hb : 48 ≤ c.toNat ∧ c.toNat ≤ 57 := h1
    injection h with h4
    have h5 : c.toNat - 48 = a := h4
    omega
  · have hb : 97 ≤ c.toNat ∧ c.toNat ≤ 102 := h2
    injection h with h4
    have h5 : c.toNat - 97 + 10 = a := h4
    omega
  · have hb : 65 ≤ c.toNat ∧ c.toNat ≤ 70 := h3
    injection h with h4
    have h5 : c.toNat - 65 + 10 = a := h4
    omega

theorem unquoteL_mem (l : List Char) :
    ∀ c ∈ unquoteL l, c.toNat < 256 ∨ c ∈ l := by
  induction l using unquoteL.induct with
  | case1 h1 h2 rest a b hb ha ih =>
    intro c hc
    rw [unquoteL, ha, hb] at hc
    rcases List.mem_cons.mp hc with rfl | hc2
    · left
      have hlt : 16 * a + b < 55296 := by
        have := hexVal_lt ha
        have := hexVal_lt hb
        omega
      rw [toNat_ofNat_below _ hlt]
      have := hexVal_lt ha
      have := hexVal_lt hb
      omega
    · rcases ih c hc2 with hlt | hin
      · exact Or.inl hlt
      · exact Or.inr (List.mem_cons_of_mem _
          (List.mem_cons_of_mem _ (List.mem_cons_of_mem _ hin)))
  | case2 h1 h2 rest hno ih =>
    intro c hc
    have heq : unquoteL ('%' :: h1 :: h2 :: rest)
        = '%' :: unquoteL (h1 :: h2 :: rest) := by
      rw [unquoteL]
      rcases ha : hexVal? h1 with _ | a
      · rfl
      · rcases hb : hexVal? h2 with _ | b
        · rfl
        · exact (hno a b ha hb).elim
    rw [heq] at hc
    rcases List.mem_cons.mp hc with rfl | hc2
    · exact Or.inr (List.mem_cons_self _ _)
    · rcases ih c hc2 with hlt | hin
      · exact Or.inl hlt
      · exact Or.inr (List.mem_cons_of_mem _ hin)

  | case3 c0 rest hno ih =>
    intro c hc
    have heq : unquoteL (c0 :: rest) = c0 :: unquoteL rest := by
      by_cases hc0 : c0 = '%'
      · subst hc0
        rcases rest with _ | ⟨x, t⟩
        · rfl
        · rcases t with _ | ⟨y, t2⟩
          · rfl
          · exact (hno x y t2 rfl rfl).elim
      · exact unquoteL_cons_ne hc0 rest
    rw [heq] at hc
    rcases List.mem_cons.mp hc with rfl | hc2
    · exact Or.inr (List.mem_cons_self _ _)
    · rcases ih c hc2 with hlt | hin
      · exact Or.inl hlt
      · exact Or.inr (List.mem_cons_of_mem _ hin)
  | case4 =>
    intro c hc
    simp only [unquoteL] at hc
    exact absurd hc (by simp)

theorem plusToSpace_mem {c : Char} {l : List Char} (h : c ∈ plusToSpace l) :
    c = ' ' ∨ c ∈ l := by
  unfold plusToSpace at h
  obtain ⟨y, hy, he⟩ := List.mem_map.mp h
  by_cases hy2 : y = '+'
  · rw [if_pos hy2] at he
    exact Or.inl he.symm
  · rw [if_neg hy2] at he
    exact Or.inr (he ▸ hy)

theorem splitChar_mem {sep : Char} {l : List Char} :
    ∀ {acc f : List Char}, f ∈ splitChar sep l acc →
      ∀ c ∈ f, c ∈ l ∨ c ∈ acc := by
  induction l with
  | nil =>
    intro acc f hf c hc
    simp only [splitChar, List.mem_singleton] at hf
    subst hf
    exact Or.inr (List.mem_reverse.mp hc)
  | cons x xs ih =>
    intro acc f hf c hc
    by_cases hx : x = sep
    · rw [splitChar, if_pos hx] at hf
      rcases List.mem_cons.mp hf with rfl | hf2
      · exact Or.inr (List.mem_reverse.mp hc)
      · rcases ih hf2 c hc with h1 | h1
        · exact Or.inl (by simp [h1])
        · exact absurd h1 (by simp)
    · rw [splitChar, if_neg hx] at hf
      rcases ih hf c hc with h1 | h1
      · exact Or.inl (by simp [h1])
      · rcases List.mem_cons.mp h1 with rfl | h2
        · exact Or.inl (by simp)
        · exact Or.inr h2

theorem parseQslField_mem {f : List Char} {kv : List Char × List Char}
    (h : parseQslField f = some kv) :
    (∀ c ∈ kv.1, c.toNat < 256 ∨ c ∈ f) ∧
      (∀ c ∈ kv.2, c.toNat < 256 ∨ c ∈ f) := by
  simp only [parseQslField] at h
  by_cases he : f.isEmpty = true
  · rw [if_pos he] at h
    exact Option.noConfusion h
  · rw [if_neg he] at h
    rcases hd : f.dropWhile (fun c => decide ¬c = '=') with _ | ⟨x, rest⟩
    · rw [hd] at h
      injection h with h2
      constructor
      · intro c hc
        have hc1 : c ∈ unquoteL (plusToSpace f) := by
          rw [show kv.1 = unquoteL (plusToSpace f) from (congrArg Prod.fst h2).symm] at hc
          exact hc
        rcases unquoteL_mem _ c hc1 with hlt | hin
        · exact Or.inl hlt
        · rcases plusToSpace_mem hin with rfl | hin2
          · exact Or.inl (by decide)
          · exact Or.inr hin2
      · intro c hc
        rw [show kv.2 = unquoteL (plusToSpace []) from (congrArg Prod.snd h2).symm] at hc
        exact absurd hc (by simp [plusToSpace, unquoteL])
    · rw [hd] at h
      injection h with h2
      have hrestf : ∀ c ∈ rest, c ∈ f := by
        intro c hc
        have hsub : (x :: rest).Sublist f := hd ▸ List.dropWhile_sublist _
        exact hsub.subset (by simp [hc])
      constructor
      · intro c hc
        rw [show kv.1 = unquoteL (plusToSpace
            (f.takeWhile (fun c => decide ¬c = '=')))
          from (congrArg Prod.fst h2).symm] at hc
        rcases unquoteL_mem _ c hc with hlt | hin
        · exact Or.inl hlt
        · rcases plusToSpace_mem hin with rfl | hin2
          · exact Or.inl (by decide)
          · exact Or.inr ((List.takeWhile_sublist _).subset hin2)
      · intro c hc
        rw [show kv.2 = unquoteL (plusToSpace rest)
          from (congrArg Prod.snd h2).symm] at hc
        rcases unquoteL_mem _ c hc with hlt | hin
        · exact Or.inl hlt
        · rcases plusToSpace_mem hin with rfl | hin2
          · exact Or.inl (by decide)
          · exact Or.inr (hrestf c hin2)

theorem parse_qsl_bytes {qs : List Char} (h : ∀ c ∈ qs, c.toNat < 256) :
    ∀ kv ∈ parse_qsl qs,
      (∀ c ∈ kv.1, c.toNat < 256) ∧ (∀ c ∈ kv.2, c.toNat < 256) := by
  intro kv hkv
  unfold parse_qsl at hkv
  by_cases he : qs.isEmpty = true
  · rw [if_pos he] at hkv
    exact absurd hkv (by simp)
  · rw [if_neg he] at hkv
    obtain ⟨f, hf, hsome⟩ := List.mem_filterMap.mp hkv
    have hfmem : ∀ c ∈ f, c ∈ qs := fun c hc =>
      (splitChar_mem hf c hc).resolve_right (by simp)
    obtain ⟨h1, h2⟩ := parseQslField_mem hsome
    constructor
    · intro c hc
      rcases h1 c hc with hlt | hin
      · exact hlt
      · exact h c (hfmem c hin)
    · intro c hc
      rcases h2 c hc with hlt | hin
      · exact hlt
      · exact h c (hfmem c hin)

theorem filterTracking_sub {q : List (List Char × List Char)}
    {kv : List Char × List Char} (h : kv ∈ filterTracking q) : kv ∈ q :=
  (List.mem_filter.mp h).1

theorem filterTracking_idem (q : List (List Char × List Char)) :
    filterTracking (filterTracking q) = filterTracking q := by
  unfold filterTracking
  apply List.filter_eq_self.mpr
  intro kv hkv
  exact (List.mem_filter.mp hkv).2

/-- Idempotence of `canonicalizeL` on printable-ASCII inputs: the core of
claim C4, proved by re-parsing the assembled canonical URL. -/
theorem canonicalizeL_idem {u : List Char}
    (h : ∀ c ∈ u, 33 ≤ c.toNat ∧ c.toNat ≤ 126) :
    canonicalizeL (canonicalizeL u) = canonicalizeL u := by
  have hu32 : ∀ c ∈ u, 32 < c.toNat ∧ c.toNat ≤ 126 := fun c hc => h c hc
  have hstrip : pyStripL u = u := pyStripL_eq_self (fun c hc => (hu32 c hc).1)
  rcases hok : urlsplitE u with he | r
  · have h1 : canonicalizeL u = u := by
      simp only [canonicalizeL, hstrip, hok]
    rw [h1]
    exact h1
  · obtain ⟨hg, hnetend, hnetbrk, hpq, hph, hnetrange, hpathrange, hqryrange,
      hschrange, hphead, hs0⟩ := urlsplitE_components hu32 hok
    have hcanon1 : canonicalizeL u = urlunsplitL (forceHttps r.scheme)
        (pyLowerL r.netloc) (rstripSlash r.path)
        (urlencodeL (filterTracking (parse_qsl r.query))) [] := by
      simp only [canonicalizeL, hstrip, hok]
    have hSgood := forceHttps_good hg
    have hNend := pyLowerL_netloc_end hnetend
    have hNbrk : bracketsOK (pyLowerL r.netloc) = true := by
      rw [bracketsOK_pyLower]
      exact hnetbrk
    have hPq2 : '?' ∉ rstripSlash r.path := fun hm => hpq (mem_rstripSlash hm)
    have hPh2 : '#' ∉ rstripSlash r.path := fun hm => hph (mem_rstripSlash hm)
    have hPhead2 : pyLowerL r.netloc ≠ [] →
        rstripSlash r.path = [] ∨ (rstripSlash r.path).head? = some '/' := by
      intro hNne
      rcases hphead (pyLowerL_ne_nil hNne) with h1 | h1
      · left
        rw [h1]
        rfl
      · by_cases hPnil : rstripSlash r.path = []
        · exact Or.inl hPnil
        · right
          rw [rstripSlash_head hPnil]
          exact h1
    have hnos2 : forceHttps r.scheme = [] →
        ':' ∉ rstripSlash r.path ∨
        goodSchemeName ((rstripSlash r.path).takeWhile
          (fun c => decide ¬c = ':')) = false := by
      intro hS0
      by_cases hcolP : ':' ∈ rstripSlash r.path
      · right
        obtain ⟨hpathfact, hps0⟩ := hs0 (forceHttps_eq_nil hS0)
        rcases hpathfact with h1 | h1 | h1
        · rw [h1] at hcolP
          exact absurd hcolP (by simp [rstripSlash])
        · have hPne : rstripSlash r.path ≠ [] := by
            intro he2
            rw [he2] at hcolP
            exact absurd hcolP (by simp)
          have hh : (rstripSlash r.path).head? = some '/' := by
            rw [rstripSlash_head hPne]
            exact h1
          rcases hP : rstripSlash r.path with _ | ⟨p0, P'⟩
          · exact absurd hP hPne
          · rw [hP] at hh
            have hp0 : p0 = '/' := by simpa using hh
            subst hp0
            rw [List.takeWhile_cons, if_pos (by decide)]
            exact goodSchemeName_head_bad _ (by decide)
        · obtain ⟨t1, ht1⟩ := h1
          obtain ⟨k, hk⟩ := rstripSlash_decomp r.path
          have hu_eq : u = rstripSlash r.path
              ++ (List.replicate k '/' ++ t1) := by
            rw [← List.append_assoc, ← hk, ht1]
          have htw : u.takeWhile (fun c => decide ¬c = ':')
              = (rstripSlash r.path).takeWhile (fun c => decide ¬c = ':') := by
            rw [hu_eq]
            exact takeWhile_append_of_mem ⟨':', hcolP, by simp⟩ _
          have hcolu : ':' ∈ u := by
            rw [hu_eq]
            exact List.mem_append.mpr (Or.inl hcolP)
          have h2 := parseScheme_nil_good hps0 hcolu
          rw [htw] at h2
          exact h2
      · exact Or.inl hcolP
    have hchars : ∀ c ∈ urlunsplitL (forceHttps r.scheme) (pyLowerL r.netloc)
        (rstripSlash r.path)
        (urlencodeL (filterTracking (parse_qsl r.query))) [],
        32 < c.toNat := by
      intro c hc
      rcases mem_urlunsplit_nofrag hc with h1 | h1 | h1 | h1 | h1 | h1 | h1
      · unfold forceHttps at h1
        by_cases h2 : r.scheme = "http".data ∨ r.scheme = "https".data
        · rw [if_pos h2] at h1
          have h3 : ∀ x ∈ "https".data, 32 < x.toNat := by decide
          exact h3 c h1
        · rw [if_neg h2] at h1
          exact (hschrange c h1).1
      · obtain ⟨y, hy, rfl⟩ := List.mem_map.mp h1
        exact (toLower_range ⟨(hnetrange y hy).1, (hnetrange y hy).2⟩).1
      · exact (hpathrange c (mem_rstripSlash h1)).1
      · exact (urlencode_range h1).1
      · subst h1
        decide
      · subst h1
        decide
      · subst h1
        decide
    have hclean : removeUnsafe (lstripControl
        (urlunsplitL (forceHttps r.scheme) (pyLowerL r.netloc)
          (rstripSlash r.path)
          (urlencodeL (filterTracking (parse_qsl r.query))) []))
        = urlunsplitL (forceHttps r.scheme) (pyLowerL r.netloc)
          (rstripSlash r.path)
          (urlencodeL (filterTracking (parse_qsl r.query))) [] := by
      rw [lstripControl_eq_self hchars]
      exact removeUnsafe_eq_self hchars
    have hreparse := urlsplit_urlunsplit hSgood hNend hNbrk hPq2 hPh2
      urlencode_no_hash urlencode_no_colon hPhead2 hnos2 hclean
    have hstrip2 := pyStripL_eq_self hchars
    rw [hcanon1]
    simp only [canonicalizeL, hstrip2, hreparse]
    have hFbytes : ∀ kv ∈ filterTracking (parse_qsl r.query),
        (∀ c ∈ kv.1, c.toNat < 256) ∧ (∀ c ∈ kv.2, c.toNat < 256) := by
      intro kv hkv
      refine parse_qsl_bytes ?_ kv (filterTracking_sub hkv)
      intro c hc
      have h2 := (hqryrange c hc).2
      omega
    rw [forceHttps_idem, pyLowerL_idem, rstripSlash_idem,
      parse_qsl_urlencode hFbytes, filterTracking_idem]

/-- **C4.** `canonicalize` is idempotent on valid URL strings (printable
ASCII without whitespace): `canonicalize(canonicalize(u)) == canonicalize(u)`.
When `urlsplit` raises, both passes fall back to the stripped string, which
stripping fixes; when it succeeds, re-parsing the assembled canonical URL
recovers exactly the already-normalized components, on which forcing `https`,
lower-casing the netloc, stripping trailing slashes and re-encoding the
filtered query are all idempotent. -/
theorem canonicalize_idempotent (u : String) (h : ValidUrl u) :
    _canonicalize (_canonicalize u) = _canonicalize u := by
  unfold _canonicalize
  congr 1
  exact canonicalizeL_idem h

/-- Witness for `canonicalize_idempotent` at a URL exercising scheme
forcing, netloc case, trailing slashes, query re-encoding, a dropped
tracking parameter and a dropped fragment. -/
theorem canonicalize_idempotent_witness :
    ValidUrl "http://X.com/a//?b=a%20b&utm_source=f#frag" ∧
      _canonicalize (_canonicalize "http://X.com/a//?b=a%20b&utm_source=f#frag")
        = _canonicalize "http://X.com/a//?b=a%20b&utm_source=f#frag" :=
  ⟨by unfold ValidUrl; decide,
    canonicalize_idempotent _ (by unfold ValidUrl; decide)⟩

/-- **C8 (counterexample).** `canonicalize` does not preserve the original
percent-encoding of the remaining pairs: the only query pair of
`https://x.com/a?b=a%20b` is kept, yet its value is re-encoded from `%20`
to `+` by `urlencode ∘ parse_qsl`. -/
theorem query_encoding_counterexample :
    _canonicalize "https://x.com/a?b=a%20b" = "https://x.com/a?b=a+b" ∧
      "https://x.com/a?b=a+b" ≠ "https://x.com/a?b=a%20b" :=
  ⟨by rfl, by decide⟩

/-- **C8 (amended).** On every URL whose (stripped) parse succeeds,
`canonicalize` reassembles the components with an empty fragment and with the
query replaced by the re-encoding of exactly the non-denylisted decoded
pairs; decoding that query returns those pairs unchanged and in order
(removal is exact and order-preserving at the decoded level, while the byte
spelling is canonicalized, e.g. `%20` becomes `+`); the concrete example
shows case-insensitive removal, order preservation and the dropped
fragment. -/
theorem query_filter_amended :
    (∀ (u : List Char) (r : SplitResult), urlsplitE (pyStripL u) = .ok r →
      (∀ c ∈ r.query, c.toNat < 256) →
      canonicalizeL u = urlunsplitL (forceHttps r.scheme) (pyLowerL r.netloc)
          (rstripSlash r.path)
          (urlencodeL (filterTracking (parse_qsl r.query))) [] ∧
        parse_qsl (urlencodeL (filterTracking (parse_qsl r.query)))
          = filterTracking (parse_qsl r.query)) ∧
      _canonicalize "https://x.com/a?UTM_Source=foo&b=1&ocid=x#frag"
        = "https://x.com/a?b=1" := by
  constructor
  · intro u r hok hbytes
    constructor
    · simp only [canonicalizeL, hok]
    · exact parse_qsl_urlencode (fun kv hkv =>
        parse_qsl_bytes hbytes kv (filterTracking_sub hkv))
  · rfl

/-- Witness for `query_filter_amended`: the universal part instantiated at
`https://x.com/a?b=a%20b&utm_source=f`, whose canonical query keeps exactly
the pair `b = "a b"`. -/
theorem query_filter_amended_witness :
    urlsplitE (pyStripL "https://x.com/a?b=a%20b&utm_source=f".data) =
      .ok ⟨"https".data, "x.com".data, "/a".data,
        "b=a%20b&utm_source=f".data, []⟩ ∧
    canonicalizeL "https://x.com/a?b=a%20b&utm_source=f".data
      = urlunsplitL (forceHttps "https".data) (pyLowerL "x.com".data)
          (rstripSlash "/a".data)
          (urlencodeL (filterTracking
            (parse_qsl "b=a%20b&utm_source=f".data))) [] ∧
    parse_qsl (urlencodeL (filterTracking
        (parse_qsl "b=a%20b&utm_source=f".data)))
      = filterTracking (parse_qsl "b=a%20b&utm_source=f".data) := by
  have hok : urlsplitE (pyStripL "https://x.com/a?b=a%20b&utm_source=f".data) =
      .ok ⟨"https".data, "x.com".data, "/a".data,
        "b=a%20b&utm_source=f".data, []⟩ := by rfl
  have h2 := query_filter_amended.1 "https://x.com/a?b=a%20b&utm_source=f".data
    ⟨"https".data, "x.com".data, "/a".data, "b=a%20b&utm_source=f".data, []⟩
    hok (by decide)
  exact ⟨hok, h2.1, h2.2⟩

end JDNews
